import Mathlib

/-!
Verification development for `maze_toolkit.py`, a toolkit that builds and
solves perfect mazes.

The embedding is shallow: the `Maze` class becomes a structure, its mutating
methods become functions returning an updated `Maze`, and the process-wide
pseudo-random source (`random.seed` / `random.random` / `random.randrange` /
`random.choice` / `random.shuffle`) is modelled as an injectable stream of
natural-number draws `Rng := Nat → Nat` together with an abstract reseeding
function `seedStream : Nat → Rng` (mirroring `random.seed(seed)` replacing the
global generator state).  All theorems about random behaviour quantify over
every stream, which subsumes every seed.  Unbounded loops (`while stack`,
the BFS queue loop, the recursive union-find `find`, the predecessor-chain
walk) take explicit fuel; termination claims show a concrete fuel suffices.
-/

/-- Logical cell coordinates `(r, c)`.  Python works with arbitrary `int`s
(neighbour arithmetic may momentarily produce `-1`), so we use `Int`. -/
abbrev Cell := Int × Int

/-- The wall grid: a list of rows, each a list of `Nat` barrier states,
`1` = wall, `0` = passage (matching the Python `grid` of ints). -/
abbrev Grid := List (List Nat)

/-- Read `grid[r][c]` for coordinates already known to be in bounds
(all call sites guard `0 ≤ r < grid_h` and `0 ≤ c < grid_w` first); the
default `1` is never observed at guarded call sites. -/
def gridAt (g : Grid) (r c : Int) : Nat :=
  (g.getD r.toNat []).getD c.toNat 1

/-- Python list element assignment `l[i] = v`, including the wrap-around of
negative indices; an out-of-range index leaves the list unchanged (such a
write would raise in Python and is proved unreachable where it matters). -/
def pySetElem {α : Type} (l : List α) (i : Int) (v : α) : List α :=
  let j : Int := if i < 0 then i + l.length else i
  if 0 ≤ j then l.set j.toNat v else l

/-- Python 2-d assignment `g[r][c] = v`. -/
def gridSet (g : Grid) (r c : Int) (v : Nat) : Grid :=
  let j : Int := if r < 0 then r + g.length else r
  if 0 ≤ j then g.set j.toNat (pySetElem (g.getD j.toNat []) c v) else g

/-- A pseudo-random source: an infinite stream of draws, consumed one draw
per primitive random operation, addressed by a running counter. -/
abbrev Rng := Nat → Nat

/-- `random.randrange(n)`: a uniform draw in `[0, n)` (callers guarantee
`0 < n`, as in the source where it is only applied to nonempty lists). -/
def randrange (rng : Rng) (k n : Nat) : Nat := rng k % n

/-- `random.random()`: a uniform float in `[0, 1)`; CPython produces
`m / 2^53` for a 53-bit draw `m`, which we keep exactly as a rational. -/
def randFloat (rng : Rng) (k : Nat) : ℚ := (rng k % 2 ^ 53 : ℕ) / (2 ^ 53 : ℚ)

/-- `random.choice(l)`: `l[randbelow(len(l))]`; callers guarantee `l ≠ []`. -/
def pyChoice {α : Type} [Inhabited α] (rng : Rng) (k : Nat) (l : List α) : α :=
  l.getD (rng k % l.length) default

/-- One swap `x[i], x[j] = x[j], x[i]` of Python's `random.shuffle` body. -/
def swapAt {α : Type} [Inhabited α] (l : List α) (i j : Nat) : List α :=
  let vi := l.getD i default
  let vj := l.getD j default
  (l.set i vj).set j vi

/-- The Fisher–Yates loop of `random.shuffle`: for `i` from `len-1` down to
`1`, draw `j` uniform in `[0, i]` and swap positions `i` and `j`.  The first
argument after the counter is the current index `i` (shifted by one so the
recursion is structural); returns the shuffled list and the new counter. -/
def shuffleAux {α : Type} [Inhabited α] (rng : Rng) : Nat → Nat → List α → List α × Nat
  | k, 0, l => (l, k)
  | k, i + 1, l =>
    let j := rng k % (i + 2)
    shuffleAux rng (k + 1) i (swapAt l (i + 1) j)

/-- `random.shuffle(l)`. -/
def pyShuffle {α : Type} [Inhabited α] (rng : Rng) (k : Nat) (l : List α) : List α × Nat :=
  shuffleAux rng k (l.length - 1) l

/-- The `Maze` class: `w`, `h`, the optional mask predicate, the wall grid
and the allowed-cell list.  A mask given as an explicit set of pairs is
converted by `__init__` to the membership predicate of that set, so the
predicate form subsumes both accepted shapes. -/
structure Maze where
  w : Nat
  h : Nat
  mask : Option (Int → Int → Bool)
  grid : Grid
  cells : List Cell

/-- `self.mask is None or self.mask(r, c)`. -/
def maskAllows (mask : Option (Int → Int → Bool)) (r c : Int) : Bool :=
  match mask with
  | none => true
  | some f => f r c

/-- `Maze.__init__`: grid of walls `(2h+1) × (2w+1)`, cell centers
`(2r+1, 2c+1)` opened for allowed cells, and the allowed-cell list in
row-major order. -/
def Maze.init (width height : Nat) (mask : Option (Int → Int → Bool)) : Maze :=
  let grid_h := 2 * height + 1
  let grid_w := 2 * width + 1
  let base : Grid := List.replicate grid_h (List.replicate grid_w 1)
  let grid := (List.range height).foldl (fun (g : Grid) (r : Nat) =>
    (List.range width).foldl (fun (g : Grid) (c : Nat) =>
      if maskAllows mask (r : Int) (c : Int) then
        gridSet g ((r : Int) * 2 + 1) ((c : Int) * 2 + 1) 0
      else g) g) base
  let cells := (List.range height).foldl (fun (acc : List Cell) (r : Nat) =>
    acc ++ (List.range width).filterMap (fun (c : Nat) =>
      if maskAllows mask (r : Int) (c : Int) then some ((r : Int), (c : Int)) else none)) []
  ⟨width, height, mask, grid, cells⟩

/-- `self.grid_h` (set once in `__init__` from `h`, never reassigned). -/
def Maze.grid_h (m : Maze) : Nat := 2 * m.h + 1

/-- `self.grid_w`. -/
def Maze.grid_w (m : Maze) : Nat := 2 * m.w + 1

/-- `Maze.in_bounds_cell`. -/
def Maze.in_bounds_cell (m : Maze) (r c : Int) : Bool :=
  decide (0 ≤ r ∧ r < (m.h : Int) ∧ 0 ≤ c ∧ c < (m.w : Int)) && maskAllows m.mask r c

/-- `Maze.cell_to_grid` (the `self` argument is unused, as in the source). -/
def Maze.cell_to_grid (_m : Maze) (r c : Int) : Int × Int := (r * 2 + 1, c * 2 + 1)

/-- `Maze.remove_wall_between`: open the midpoint between the two cell
centers (`//` is Python floor division, `Int.fdiv`). -/
def Maze.remove_wall_between (m : Maze) (a b : Cell) : Maze :=
  let ga := m.cell_to_grid a.1 a.2
  let gb := m.cell_to_grid b.1 b.2
  let wall_r := (ga.1 + gb.1).fdiv 2
  let wall_c := (ga.2 + gb.2).fdiv 2
  { m with grid := gridSet m.grid wall_r wall_c 0 }

/-- The `strategy` argument of the backtracker: the strings
`"last"`, `"random"`, `"first"`, a float `p` (`blend p`), or any other
string (`other`), which the source treats like `"last"`. -/
inductive Strategy where
  | last : Strategy
  | first : Strategy
  | random : Strategy
  | blend : ℚ → Strategy
  | other : Strategy

/-- The strategy dispatch at the top of the backtracker loop body: returns
the chosen index into the stack and the advanced draw counter.  The float
branch always consumes one `random.random()` draw and, when the coin says
"random", one further `randrange` draw. -/
def chooseIdx (strategy : Strategy) (rng : Rng) (k len : Nat) : Nat × Nat :=
  match strategy with
  | .blend p => if randFloat rng k < p then (len - 1, k + 1) else (randrange rng (k + 1) len, k + 2)
  | .last => (len - 1, k)
  | .random => (randrange rng k len, k + 1)
  | .first => (0, k)
  | .other => (len - 1, k)

/-- The mutable state of the backtracker loop: the maze, the visited set
(a Python `set`, modelled as a list used only through membership), the
stack (frontier), and the rng draw counter. -/
structure BTState where
  maze : Maze
  visited : List Cell
  stack : List Cell
  k : Nat

/-- The unvisited allowed neighbours of `cell`, in the source's probe order
`[(-1,0), (1,0), (0,-1), (0,1)]`. -/
def btNeighbors (m : Maze) (visited : List Cell) (cell : Cell) : List Cell :=
  ([(-1, 0), (1, 0), (0, -1), (0, 1)] : List (Int × Int)).filterMap (fun d =>
    let nb := (cell.1 + d.1, cell.2 + d.2)
    if m.in_bounds_cell nb.1 nb.2 && !visited.contains nb then some nb else none)

/-- The `while stack:` loop of `generate_recursive_backtracker`, with fuel;
`none` means the fuel ran out before the frontier emptied. -/
def btLoop (rng : Rng) (strategy : Strategy) : Nat → BTState → Option BTState
  | 0, s => if s.stack = [] then some s else none
  | fuel + 1, s =>
    if s.stack = [] then some s
    else
      let pick := chooseIdx strategy rng s.k s.stack.length
      let idx := pick.1
      let k1 := pick.2
      let cell := s.stack.getD idx default
      let neighbors := btNeighbors s.maze s.visited cell
      match neighbors with
      | [] => btLoop rng strategy fuel { s with stack := s.stack.eraseIdx idx, k := k1 }
      | _ :: _ =>
        let nb := pyChoice rng k1 neighbors
        btLoop rng strategy fuel
          { maze := s.maze.remove_wall_between cell nb
            visited := nb :: s.visited
            stack := s.stack ++ [nb]
            k := k1 + 1 }

/-- `Maze.generate_recursive_backtracker`.  `seedStream` models
`random.seed`: when a seed is supplied the incoming stream is discarded and
replaced by `seedStream seed`, exactly as reseeding replaces the global
generator state. -/
def Maze.generate_recursive_backtracker (m : Maze) (seedStream : Nat → Rng) (rngIn : Rng)
    (seed : Option Nat) (strategy : Strategy) (fuel : Nat) : Option Maze :=
  let rng := match seed with | some s => seedStream s | none => rngIn
  if m.cells = [] then some m
  else
    let start := pyChoice rng 0 m.cells
    (btLoop rng strategy fuel { maze := m, visited := [start], stack := [start], k := 1 }).map
      (fun s => s.maze)

/-- The recursive union-find `find` with path compression, with fuel
(the Python recursion depth is bounded by the parent-chain length, which the
Kruskal invariants bound by the number of cells). -/
def ufFind : Nat → (Cell → Cell) → Cell → Cell × (Cell → Cell)
  | 0, parent, u => (u, parent)
  | fuel + 1, parent, u =>
    if parent u = u then (u, parent)
    else
      let res := ufFind fuel parent (parent u)
      (res.1, fun x => if x = u then res.1 else res.2 x)

/-- `union`: merge the classes of `a` and `b`; `true` iff they were distinct. -/
def ufUnion (fuel : Nat) (parent : Cell → Cell) (a b : Cell) : Bool × (Cell → Cell) :=
  let fa := ufFind fuel parent a
  let fb := ufFind fuel fa.2 b
  if fa.1 = fb.1 then (false, fb.2)
  else (true, fun x => if x = fb.1 then fa.1 else fb.2 x)

/-- The edge loop of `generate_kruskal`: union each edge's endpoints and
carve the wall whenever the union really merged two classes. -/
def kruskalLoop (fuel : Nat) : List (Cell × Cell) → (Cell → Cell) → Maze → Maze
  | [], _, m => m
  | (a, b) :: rest, parent, m =>
    let res := ufUnion fuel parent a b
    if res.1 then kruskalLoop fuel rest res.2 (m.remove_wall_between a b)
    else kruskalLoop fuel rest res.2 m

/-- The candidate edge list of `generate_kruskal`: for each allowed cell, an
edge to its right and down neighbour when that neighbour is allowed. -/
def Maze.kruskalEdges (m : Maze) : List (Cell × Cell) :=
  m.cells.foldl (fun acc cc =>
    acc ++ ([(0, 1), (1, 0)] : List (Int × Int)).filterMap (fun d =>
      let nb := (cc.1 + d.1, cc.2 + d.2)
      if m.in_bounds_cell nb.1 nb.2 then some (cc, nb) else none)) []

/-- `Maze.generate_kruskal`.  The parent dictionary `{c: c for c in cells}`
is modelled as the identity function (it is only ever applied at cells). -/
def Maze.generate_kruskal (m : Maze) (seedStream : Nat → Rng) (rngIn : Rng)
    (seed : Option Nat) : Maze :=
  let rng := match seed with | some s => seedStream s | none => rngIn
  let edges := m.kruskalEdges
  let shuffled := pyShuffle rng 0 edges
  kruskalLoop m.cells.length shuffled.1 (fun x => x) m

/-- The BFS predecessor dictionary: insertion-ordered association list from
grid positions to `Option` predecessor (`none` marks the start). -/
abbrev ParentMap := List ((Int × Int) × Option (Int × Int))

/-- The path-reconstruction loop `while cur is not None`, with fuel (the
predecessor chain is proved acyclic and shorter than the map). -/
def buildPath : Nat → ParentMap → (Int × Int) → List (Int × Int)
  | 0, _, cur => [cur]
  | fuel + 1, pm, cur =>
    match List.lookup cur pm with
    | some (some prev) => cur :: buildPath fuel pm prev
    | _ => [cur]

/-- One direction probe of the BFS loop body: `nr, nc = r + dr, c + dc`,
then enqueue and record the predecessor when the position is an in-bounds
fresh passage. -/
def bfsStep (m : Maze) (cur : Int × Int) (acc : List (Int × Int) × ParentMap)
    (d : Int × Int) : List (Int × Int) × ParentMap :=
  if decide (0 ≤ cur.1 + d.1 ∧ cur.1 + d.1 < (m.grid_h : Int) ∧
      0 ≤ cur.2 + d.2 ∧ cur.2 + d.2 < (m.grid_w : Int)) &&
      (gridAt m.grid (cur.1 + d.1) (cur.2 + d.2) == 0) &&
      (List.lookup (cur.1 + d.1, cur.2 + d.2) acc.2).isNone then
    (acc.1 ++ [(cur.1 + d.1, cur.2 + d.2)],
      acc.2 ++ [((cur.1 + d.1, cur.2 + d.2), some cur)])
  else acc

/-- One neighbour scan of the BFS loop body: fold the four directions,
enqueueing fresh in-bounds passage positions and recording predecessors. -/
def bfsExpand (m : Maze) (cur : Int × Int) (q : List (Int × Int)) (pm : ParentMap) :
    List (Int × Int) × ParentMap :=
  ([(-1, 0), (1, 0), (0, -1), (0, 1)] : List (Int × Int)).foldl (bfsStep m cur) (q, pm)

/-- The `while q:` loop of `bfs_solve`, with fuel; within the fuel proved
sufficient it returns `some path` on dequeuing the goal and `none` when the
queue empties. -/
def bfsLoop (m : Maze) (goal : Int × Int) : Nat → List (Int × Int) → ParentMap →
    Option (List (Int × Int))
  | 0, _, _ => none
  | fuel + 1, q, pm =>
    match q with
    | [] => none
    | cur :: qrest =>
      if cur = goal then some ((buildPath pm.length pm cur).reverse)
      else
        let nxt := bfsExpand m cur qrest pm
        bfsLoop m goal fuel nxt.1 nxt.2

/-- `Maze.bfs_solve`: validate both endpoints, then run the BFS loop with
fuel `2·grid_h·grid_w + 1`, an upper bound on the loop's step count that the
development proves sufficient. -/
def Maze.bfs_solve (m : Maze) (start_grid goal_grid : Int × Int) :
    Option (List (Int × Int)) :=
  if ¬(0 ≤ start_grid.1 ∧ start_grid.1 < (m.grid_h : Int) ∧
        0 ≤ start_grid.2 ∧ start_grid.2 < (m.grid_w : Int)) then none
  else if ¬(0 ≤ goal_grid.1 ∧ goal_grid.1 < (m.grid_h : Int) ∧
        0 ≤ goal_grid.2 ∧ goal_grid.2 < (m.grid_w : Int)) then none
  else if gridAt m.grid start_grid.1 start_grid.2 ≠ 0 then none
  else if gridAt m.grid goal_grid.1 goal_grid.2 ≠ 0 then none
  else bfsLoop m goal_grid (2 * m.grid_h * m.grid_w + 1) [start_grid] [(start_grid, none)]

/-! ## Specification-level definitions -/

/-- 4-connectedness of two integer pairs (Manhattan distance exactly 1),
used both for logical cells and for wall-grid positions. -/
def adjStep (a b : Int × Int) : Prop :=
  (a.1 = b.1 ∧ (a.2 = b.2 + 1 ∨ b.2 = a.2 + 1)) ∨
  (a.2 = b.2 ∧ (a.1 = b.1 + 1 ∨ b.1 = a.1 + 1))

/-- The wall-grid midpoint between the centers of two 4-adjacent cells:
`((2a₁+1) + (2b₁+1)) // 2 = a₁ + b₁ + 1`, and likewise for columns. -/
def midOf (a b : Cell) : Int × Int := (a.1 + b.1 + 1, a.2 + b.2 + 1)

/-- The right neighbour of a cell. -/
def rightOf (a : Cell) : Cell := (a.1, a.2 + 1)

/-- The down neighbour of a cell. -/
def downOf (a : Cell) : Cell := (a.1 + 1, a.2)

/-- Every inter-cell boundary of the maze, one canonical orientation per
unordered pair: from each allowed cell to its allowed right and down
neighbour. -/
def interEdges (m : Maze) : List (Cell × Cell) :=
  m.cells.flatMap (fun a =>
    [rightOf a, downOf a].filterMap (fun b => if b ∈ m.cells then some (a, b) else none))

/-- The open (carved) inter-cell boundaries: those whose midpoint holds a
passage in the wall grid. -/
def openEdges (m : Maze) : List (Cell × Cell) :=
  (interEdges m).filter (fun e => gridAt m.grid (midOf e.1 e.2).1 (midOf e.1 e.2).2 == 0)

/-- Adjacency of the sub-graph induced by allowed cell centers and carved
midpoint passages. -/
def mazeAdj (m : Maze) (a b : Cell) : Prop :=
  a ∈ m.cells ∧ b ∈ m.cells ∧ adjStep a b ∧
    gridAt m.grid (midOf a b).1 (midOf a b).2 = 0

/-- That sub-graph, as a `SimpleGraph` on the cell coordinate type (cells
outside the allowed set are isolated vertices). -/
def mazeGraph (m : Maze) : SimpleGraph Cell where
  Adj a b := mazeAdj m a b
  symm := by
    intro a b hab
    obtain ⟨ha, hb, hadj, hmid⟩ := hab
    refine ⟨hb, ha, ?_, ?_⟩
    · unfold adjStep at hadj ⊢
      rcases hadj with ⟨h1, h2⟩ | ⟨h1, h2⟩
      · exact Or.inl ⟨h1.symm, h2.symm⟩
      · exact Or.inr ⟨h1.symm, h2.symm⟩
    · have : midOf b a = midOf a b := by
        unfold midOf
        refine Prod.ext ?_ ?_ <;> simp <;> ring
      rw [this]
      exact hmid
  loopless := by
    intro a ha
    obtain ⟨-, -, hadj, -⟩ := ha
    unfold adjStep at hadj
    omega

/-- Adjacency of allowed cells irrespective of walls (the mask-induced
cell graph). -/
def allowedAdj (m : Maze) (a b : Cell) : Prop :=
  a ∈ m.cells ∧ b ∈ m.cells ∧ adjStep a b

/-- The allowed-cell set is nonempty and its adjacency graph is connected
(the amended hypothesis under which the generators produce spanning trees;
a mask with a disconnected allowed set refutes the unconditional claim). -/
def AllowedConnected (m : Maze) : Prop :=
  m.cells ≠ [] ∧ ∀ a ∈ m.cells, ∀ b ∈ m.cells, Relation.ReflTransGen (allowedAdj m) a b

/-- Carved-passage adjacency avoiding one particular boundary `e` (used to
state that every carved boundary is a bridge, i.e. acyclicity). -/
def mazeAdjExc (m : Maze) (e : Cell × Cell) (a b : Cell) : Prop :=
  mazeAdj m a b ∧ midOf a b ≠ midOf e.1 e.2

/-- The generated sub-graph is a spanning tree over the allowed-cell set:
connected on allowed cells, acyclic, and with exactly `|cells| - 1` open
inter-cell boundaries. -/
def SpanningTree (m : Maze) : Prop :=
  (∀ a ∈ m.cells, ∀ b ∈ m.cells, (mazeGraph m).Reachable a b) ∧
  (mazeGraph m).IsAcyclic ∧
  (openEdges m).length + 1 = m.cells.length

/-- Rectangular well-formedness of a wall grid. -/
def GridRect (g : Grid) (H W : Nat) : Prop :=
  g.length = H ∧ ∀ row ∈ g, row.length = W

/-- The carve calls (`remove_wall_between` arguments) issued by the
backtracker loop, in order: the ghost trace mirroring `btLoop`. -/
def btLoopCarves (rng : Rng) (strategy : Strategy) : Nat → BTState → List (Cell × Cell)
  | 0, _ => []
  | fuel + 1, s =>
    if s.stack = [] then []
    else
      let pick := chooseIdx strategy rng s.k s.stack.length
      let idx := pick.1
      let k1 := pick.2
      let cell := s.stack.getD idx default
      let neighbors := btNeighbors s.maze s.visited cell
      match neighbors with
      | [] => btLoopCarves rng strategy fuel { s with stack := s.stack.eraseIdx idx, k := k1 }
      | _ :: _ =>
        let nb := pyChoice rng k1 neighbors
        (cell, nb) :: btLoopCarves rng strategy fuel
          { maze := s.maze.remove_wall_between cell nb
            visited := nb :: s.visited
            stack := s.stack ++ [nb]
            k := k1 + 1 }

/-- The carve calls issued by `generate_recursive_backtracker`. -/
def Maze.backtrackerCarves (m : Maze) (seedStream : Nat → Rng) (rngIn : Rng)
    (seed : Option Nat) (strategy : Strategy) (fuel : Nat) : List (Cell × Cell) :=
  let rng := match seed with | some s => seedStream s | none => rngIn
  if m.cells = [] then []
  else
    let start := pyChoice rng 0 m.cells
    btLoopCarves rng strategy fuel { maze := m, visited := [start], stack := [start], k := 1 }

/-- The carve calls issued by the Kruskal edge loop. -/
def kruskalLoopCarves (fuel : Nat) : List (Cell × Cell) → (Cell → Cell) → List (Cell × Cell)
  | [], _ => []
  | (a, b) :: rest, parent =>
    let res := ufUnion fuel parent a b
    if res.1 then (a, b) :: kruskalLoopCarves fuel rest res.2
    else kruskalLoopCarves fuel rest res.2

/-- The carve calls issued by `generate_kruskal`. -/
def Maze.kruskalCarves (m : Maze) (seedStream : Nat → Rng) (rngIn : Rng)
    (seed : Option Nat) : List (Cell × Cell) :=
  let rng := match seed with | some s => seedStream s | none => rngIn
  let edges := m.kruskalEdges
  let shuffled := pyShuffle rng 0 edges
  kruskalLoopCarves m.cells.length shuffled.1 (fun x => x)

/-- Iterated parent pointer of the union-find structure. -/
def pIter (p : Cell → Cell) : Nat → Cell → Cell
  | 0, x => x
  | n + 1, x => pIter p n (p x)

/-- `x`'s parent chain eventually reaches `r`. -/
def pReaches (p : Cell → Cell) (x r : Cell) : Prop := ∃ n, pIter p n x = r

/-- `x` and `y` lie in the same union-find class: their chains reach a
common root. -/
def ufEquiv (p : Cell → Cell) (x y : Cell) : Prop :=
  ∃ r, pReaches p x r ∧ pReaches p y r ∧ p r = r

/-- A wall-grid position that is in bounds and holds a passage. -/
def posOk (m : Maze) (p : Int × Int) : Prop :=
  0 ≤ p.1 ∧ p.1 < (m.grid_h : Int) ∧ 0 ≤ p.2 ∧ p.2 < (m.grid_w : Int) ∧
    gridAt m.grid p.1 p.2 = 0

/-- Adjacency of the BFS search graph: 4-connected in-bounds passage
positions. -/
def gridAdj (m : Maze) (p q : Int × Int) : Prop := posOk m p ∧ posOk m q ∧ adjStep p q

/-- `l` is an ordered sequence of 4-connected in-bounds passage positions
from `s` to `g` inclusive. -/
def IsPathList (m : Maze) (s g : Int × Int) (l : List (Int × Int)) : Prop :=
  l.head? = some s ∧ l.getLast? = some g ∧ l.Chain' (gridAdj m) ∧ ∀ x ∈ l, posOk m x

/-- `t` is reachable from `s` in exactly `n` passage steps. -/
inductive ReachInN (m : Maze) (s : Int × Int) : Nat → (Int × Int) → Prop where
  | zero : posOk m s → ReachInN m s 0 s
  | succ {n : Nat} {y t : Int × Int} : ReachInN m s n y → gridAdj m y t → ReachInN m s (n + 1) t

/-- The canonical (right/down) orientation of an adjacent cell pair. -/
def canonEdge (a b : Cell) : Cell × Cell :=
  if b = rightOf a ∨ b = downOf a then (a, b) else (b, a)

/-- Standing well-formedness facts about a maze, true of every freshly
constructed maze and preserved by carving. -/
structure MazeCtx (m : Maze) : Prop where
  rect : GridRect m.grid (2 * m.h + 1) (2 * m.w + 1)
  nodup : m.cells.Nodup
  bounds : ∀ x ∈ m.cells, 0 ≤ x.1 ∧ x.1 < (m.h : Int) ∧ 0 ≤ x.2 ∧ x.2 < (m.w : Int)
  mem_iff : ∀ x : Cell, m.in_bounds_cell x.1 x.2 = true ↔ x ∈ m.cells

/-- The backtracker loop invariant: the visited set is a nodup subset of the
allowed cells containing the stack; fully-explored cells (visited but no
longer on the stack) have all their allowed neighbours visited; the open
inter-cell boundaries form a tree on the visited set (endpoints visited,
count `|visited| - 1`, mutually connecting, every boundary a bridge). -/
structure BTInv (s : BTState) : Prop where
  ctx : MazeCtx s.maze
  vis_nodup : s.visited.Nodup
  stack_nodup : s.stack.Nodup
  stack_sub : ∀ x ∈ s.stack, x ∈ s.visited
  vis_sub : ∀ x ∈ s.visited, x ∈ s.maze.cells
  closed : ∀ v ∈ s.visited, v ∉ s.stack → ∀ u : Cell, adjStep v u → u ∈ s.maze.cells →
    u ∈ s.visited
  open_sub : ∀ e ∈ openEdges s.maze, e.1 ∈ s.visited ∧ e.2 ∈ s.visited
  count : (openEdges s.maze).length + 1 = s.visited.length
  conn : ∀ x ∈ s.visited, ∀ y ∈ s.visited, Relation.ReflTransGen (mazeAdj s.maze) x y
  bridges : ∀ e ∈ openEdges s.maze,
    ¬ Relation.ReflTransGen (mazeAdjExc s.maze e) e.1 e.2

/-- `r` is the root of `x`: the parent chain from `x` reaches `r`, a
fixpoint. -/
def IsRoot (p : Cell → Cell) (x r : Cell) : Prop := pReaches p x r ∧ p r = r

/-- The Kruskal loop invariant: the parent map fixes everything outside the
allowed cells, maps allowed cells into allowed cells, and every chain
reaches a fixpoint; two cells share a root exactly when their centers are
connected through carved passages; the number of open boundaries plus the
number of union-find roots equals the number of allowed cells; and every
carved boundary is a bridge. -/
structure UFInv (m : Maze) (p : Cell → Cell) : Prop where
  ctx : MazeCtx m
  out_fix : ∀ x : Cell, x ∉ m.cells → p x = x
  into : ∀ x ∈ m.cells, p x ∈ m.cells
  reaches : ∀ x : Cell, ∃ n, p (pIter p n x) = pIter p n x
  equiv_iff : ∀ x y : Cell, ufEquiv p x y ↔ Relation.ReflTransGen (mazeAdj m) x y
  count : (openEdges m).length +
    (m.cells.filter (fun x => p x == x)).length = m.cells.length
  bridges : ∀ e ∈ openEdges m, ¬ Relation.ReflTransGen (mazeAdjExc m e) e.1 e.2

/-- The BFS loop invariant, with a level assignment `lv` and the current
front level `d`: the predecessor map is a nodup association list of passage
positions rooted at `s`; each entry's level is exactly its shortest-path
distance from `s`; the queue splits into a front block at level `d` and a
back block at level `d + 1`; every position within distance `d` is already
recorded; and every recorded position no longer queued has all its
neighbours recorded. -/
structure BFSInv (m : Maze) (s : Int × Int) (q : List (Int × Int)) (pm : ParentMap)
    (lv : (Int × Int) → Nat) (d : Nat) : Prop where
  keys_nodup : (pm.map Prod.fst).Nodup
  start_key : List.lookup s pm = some none
  start_lv : lv s = 0
  none_start : ∀ k : Int × Int, List.lookup k pm = some none → k = s
  keys_posOk : ∀ kv ∈ pm, posOk m kv.1
  q_sub : ∀ x ∈ q, (List.lookup x pm).isSome = true
  q_nodup : q.Nodup
  parent_spec : ∀ k p : Int × Int, List.lookup k pm = some (some p) →
    (List.lookup p pm).isSome = true ∧ gridAdj m p k ∧ lv k = lv p + 1
  lv_correct : ∀ kv ∈ pm, ReachInN m s (lv kv.1) kv.1
  lv_minimal : ∀ kv ∈ pm, ∀ n : Nat, ReachInN m s n kv.1 → lv kv.1 ≤ n
  split : ∃ q1 q2, q = q1 ++ q2 ∧ (∀ x ∈ q1, lv x = d) ∧ (∀ x ∈ q2, lv x = d + 1)
  covered : ∀ (t : Int × Int) (n : Nat), ReachInN m s n t → n ≤ d →
    (List.lookup t pm).isSome = true
  processed : ∀ kv ∈ pm, kv.1 ∉ q → ∀ t : Int × Int, gridAdj m kv.1 t →
    (List.lookup t pm).isSome = true

/-! ## Basic list and grid lemmas -/

theorem getD_set {α : Type} (l : List α) (i j : Nat) (v d : α) :
    (l.set i v).getD j d = if i = j ∧ i < l.length then v else l.getD j d := by
  rw [List.getD_eq_getElem?_getD, List.getD_eq_getElem?_getD, List.getElem?_set]
  by_cases hij : i = j
  · subst hij
    by_cases hi : i < l.length
    · simp [hi]
    · simp [hi, List.getElem?_eq_none (not_lt.1 hi)]
  · simp [hij]

theorem pySetElem_length {α : Type} (l : List α) (i : Int) (v : α) :
    (pySetElem l i v).length = l.length := by
  simp only [pySetElem]
  split <;> split <;> simp

theorem gridRect_replicate (H W : Nat) :
    GridRect (List.replicate H (List.replicate W (1 : Nat))) H W := by
  refine ⟨by simp, ?_⟩
  intro row hrow
  rw [List.eq_of_mem_replicate hrow]
  simp

theorem gridAt_replicate (H W : Nat) (r c : Int) :
    gridAt (List.replicate H (List.replicate W (1 : Nat))) r c = 1 := by
  unfold gridAt
  have houter : (List.replicate H (List.replicate W (1 : Nat))).getD r.toNat [] =
      (if r.toNat < H then List.replicate W 1 else []) := by
    rcases lt_or_ge r.toNat H with h | h
    · rw [if_pos h, List.getD_eq_getElem _ _ (by simpa using h), List.getElem_replicate]
    · rw [if_neg (not_lt.2 h)]
      exact List.getD_eq_default _ _ (by simpa using h)
  rw [houter]
  split
  · rcases lt_or_ge c.toNat W with h2 | h2
    · rw [List.getD_eq_getElem _ _ (by simpa using h2), List.getElem_replicate]
    · exact List.getD_eq_default _ _ (by simpa using h2)
  · simp

theorem gridRect_gridSet {g : Grid} {H W : Nat} (hg : GridRect g H W) (r c : Int) (v : Nat) :
    GridRect (gridSet g r c v) H W := by
  obtain ⟨hlen, hrow⟩ := hg
  unfold gridSet
  by_cases h0 : 0 ≤ (if r < 0 then r + (g.length : Int) else r)
  · rw [if_pos h0]
    by_cases hjl : (if r < 0 then r + (g.length : Int) else r).toNat < g.length
    · refine ⟨by simpa using hlen, ?_⟩
      intro row hmem
      rcases List.mem_or_eq_of_mem_set hmem with h | h
      · exact hrow _ h
      · subst h
        rw [pySetElem_length]
        exact hrow _ (by rw [List.getD_eq_getElem _ _ hjl]; exact List.getElem_mem hjl)
    · rw [List.set_eq_of_length_le (not_lt.1 hjl)]
      exact ⟨hlen, hrow⟩
  · rw [if_neg h0]
    exact ⟨hlen, hrow⟩

theorem gridAt_gridSet {g : Grid} {H W : Nat} (hg : GridRect g H W)
    {r c : Int} (hr0 : 0 ≤ r) (hrH : r < (H : Int)) (hc0 : 0 ≤ c) (hcW : c < (W : Int))
    (v : Nat) {r' c' : Int} (hr' : 0 ≤ r') (hc' : 0 ≤ c') :
    gridAt (gridSet g r c v) r' c' = if r' = r ∧ c' = c then v else gridAt g r' c' := by
  obtain ⟨hlen, hrow⟩ := hg
  have hjr : (if r < 0 then r + (g.length : Int) else r) = r := if_neg (by omega)
  have hrlen : r.toNat < g.length := by omega
  have hrowlen : (g.getD r.toNat []).length = W := by
    rw [List.getD_eq_getElem _ _ hrlen]
    exact hrow _ (List.getElem_mem hrlen)
  have hjc : (if c < 0 then c + ((g.getD r.toNat []).length : Int) else c) = c :=
    if_neg (by omega)
  unfold gridSet
  rw [hjr, if_pos hr0]
  unfold gridAt
  rw [getD_set]
  by_cases heqr : r'.toNat = r.toNat
  · rw [if_pos ⟨heqr.symm, hrlen⟩]
    unfold pySetElem
    rw [hjc, if_pos hc0, getD_set]
    by_cases heqc : c'.toNat = c.toNat
    · rw [if_pos ⟨heqc.symm, by omega⟩, if_pos ⟨by omega, by omega⟩]
    · rw [if_neg (by omega), if_neg (by omega), heqr]
  · rw [if_neg (by omega), if_neg (by omega)]

theorem gridAt_gridSet_zero {g : Grid} (r c : Int) {i j : Int} (h : gridAt g i j = 0) :
    gridAt (gridSet g r c 0) i j = 0 := by
  unfold gridSet
  by_cases h0 : 0 ≤ (if r < 0 then r + (g.length : Int) else r)
  · rw [if_pos h0]
    unfold gridAt at h ⊢
    rw [getD_set]
    by_cases hsel : (if r < 0 then r + (g.length : Int) else r).toNat = i.toNat ∧
        (if r < 0 then r + (g.length : Int) else r).toNat < g.length
    · rw [if_pos hsel]
      obtain ⟨hsel1, hsel2⟩ := hsel
      rw [hsel1]
      simp only [pySetElem]
      generalize (if c < 0 then c + ((g.getD i.toNat []).length : Int) else c) = jc
      by_cases hc0 : 0 ≤ jc
      · rw [if_pos hc0, getD_set]
        split
        · rfl
        · exact h
      · rw [if_neg hc0]
        exact h
    · rw [if_neg hsel]
      exact h
  · rw [if_neg h0]
    exact h

/-! ## Characterization of `Maze.__init__` -/

theorem foldl_append_eq {α β : Type} (f : α → List β) (l : List α) (acc : List β) :
    l.foldl (fun a x => a ++ f x) acc = acc ++ (l.map f).flatten := by
  induction l generalizing acc with
  | nil => simp
  | cons x xs ih => simp [ih, List.append_assoc]

theorem cells_init_eq (w h : Nat) (mask : Option (Int → Int → Bool)) :
    (Maze.init w h mask).cells = (List.range h).foldl (fun (acc : List Cell) (r : Nat) =>
      acc ++ (List.range w).filterMap (fun (c : Nat) =>
        if maskAllows mask (r : Int) (c : Int) then some ((r : Int), (c : Int)) else none)) [] :=
  rfl

theorem grid_init_eq (w h : Nat) (mask : Option (Int → Int → Bool)) :
    (Maze.init w h mask).grid = (List.range h).foldl (fun (g : Grid) (r : Nat) =>
      (List.range w).foldl (fun (g : Grid) (c : Nat) =>
        if maskAllows mask (r : Int) (c : Int) then
          gridSet g ((r : Int) * 2 + 1) ((c : Int) * 2 + 1) 0
        else g) g) (List.replicate (2 * h + 1) (List.replicate (2 * w + 1) 1)) :=
  rfl

theorem mem_cells_init (w h : Nat) (mask : Option (Int → Int → Bool)) (x : Cell) :
    x ∈ (Maze.init w h mask).cells ↔
      ∃ r c : Nat, r < h ∧ c < w ∧ maskAllows mask (r : Int) (c : Int) = true ∧
        x = ((r : Int), (c : Int)) := by
  rw [cells_init_eq, foldl_append_eq, List.nil_append, List.mem_flatten]
  constructor
  · rintro ⟨l, hl, hx⟩
    obtain ⟨r, hr, rfl⟩ := List.mem_map.1 hl
    obtain ⟨c, hc, hcx⟩ := List.mem_filterMap.1 hx
    rw [List.mem_range] at hr hc
    by_cases hm : maskAllows mask (r : Int) (c : Int) = true
    · rw [if_pos hm] at hcx
      exact ⟨r, c, hr, hc, hm, (Option.some_inj.1 hcx).symm⟩
    · rw [if_neg hm] at hcx
      cases hcx
  · rintro ⟨r, c, hr, hc, hm, rfl⟩
    exact ⟨_, List.mem_map.2 ⟨r, List.mem_range.2 hr, rfl⟩,
      List.mem_filterMap.2 ⟨c, List.mem_range.2 hc, by rw [if_pos hm]⟩⟩

theorem mem_cells_init_iff (w h : Nat) (mask : Option (Int → Int → Bool)) (x : Cell) :
    x ∈ (Maze.init w h mask).cells ↔
      0 ≤ x.1 ∧ x.1 < (h : Int) ∧ 0 ≤ x.2 ∧ x.2 < (w : Int) ∧
        maskAllows mask x.1 x.2 = true := by
  rw [mem_cells_init]
  constructor
  · rintro ⟨r, c, hr, hc, hm, rfl⟩
    refine ⟨by simp, by simpa using hr, by simp, by simpa using hc, hm⟩
  · rintro ⟨h1, h2, h3, h4, h5⟩
    refine ⟨x.1.toNat, x.2.toNat, by omega, by omega, ?_, ?_⟩
    · rwa [Int.toNat_of_nonneg h1, Int.toNat_of_nonneg h3]
    · rw [Int.toNat_of_nonneg h1, Int.toNat_of_nonneg h3]

theorem in_bounds_cell_init (w h : Nat) (mask : Option (Int → Int → Bool)) (x : Cell) :
    (Maze.init w h mask).in_bounds_cell x.1 x.2 = true ↔ x ∈ (Maze.init w h mask).cells := by
  rw [mem_cells_init_iff]
  show (decide _ && maskAllows mask x.1 x.2) = true ↔ _
  rw [Bool.and_eq_true, decide_eq_true_eq]
  tauto

theorem cells_init_nodup (w h : Nat) (mask : Option (Int → Int → Bool)) :
    (Maze.init w h mask).cells.Nodup := by
  rw [cells_init_eq, foldl_append_eq, List.nil_append, List.nodup_flatten]
  constructor
  · intro l hl
    obtain ⟨r, hr, rfl⟩ := List.mem_map.1 hl
    refine (List.nodup_range w).filterMap ?_
    intro a a' b hb hb'
    by_cases hm : maskAllows mask (r : Int) (a : Int) = true
    · by_cases hm' : maskAllows mask (r : Int) (a' : Int) = true
      · rw [Option.mem_def, if_pos hm] at hb
        rw [Option.mem_def, if_pos hm'] at hb'
        have e1 := Option.some_inj.1 hb
        have e2 := Option.some_inj.1 hb'
        have : ((a : Int)) = (a' : Int) := congrArg Prod.snd (e1.trans e2.symm)
        exact_mod_cast this
      · rw [Option.mem_def, if_neg hm'] at hb'
        cases hb'
    · rw [Option.mem_def, if_neg hm] at hb
      cases hb
  · rw [List.pairwise_map]
    refine (List.pairwise_lt_range h).imp ?_
    intro a b hab
    intro x hx hx'
    obtain ⟨c, _, hcx⟩ := List.mem_filterMap.1 hx
    obtain ⟨c', _, hcx'⟩ := List.mem_filterMap.1 hx'
    have h1 : x.1 = (a : Int) := by
      by_cases hm : maskAllows mask (a : Int) (c : Int) = true
      · rw [if_pos hm] at hcx
        rw [← Option.some_inj.1 hcx]
      · rw [if_neg hm] at hcx
        cases hcx
    have h2 : x.1 = (b : Int) := by
      by_cases hm : maskAllows mask (b : Int) (c' : Int) = true
      · rw [if_pos hm] at hcx'
        rw [← Option.some_inj.1 hcx']
      · rw [if_neg hm] at hcx'
        cases hcx'
    rw [h1] at h2
    have : a = b := by exact_mod_cast h2
    omega

theorem initInner_spec (mask : Option (Int → Int → Bool)) (h w r : Nat) (hr : r < h)
    (cs : List Nat) :
    ∀ g : Grid, GridRect g (2 * h + 1) (2 * w + 1) → (∀ c ∈ cs, c < w) →
    GridRect (cs.foldl (fun (g : Grid) (c : Nat) =>
        if maskAllows mask (r : Int) (c : Int) then
          gridSet g ((r : Int) * 2 + 1) ((c : Int) * 2 + 1) 0
        else g) g) (2 * h + 1) (2 * w + 1) ∧
    (∀ i j : Int, 0 ≤ i → 0 ≤ j →
      gridAt (cs.foldl (fun (g : Grid) (c : Nat) =>
        if maskAllows mask (r : Int) (c : Int) then
          gridSet g ((r : Int) * 2 + 1) ((c : Int) * 2 + 1) 0
        else g) g) i j =
        if ∃ c ∈ cs, maskAllows mask (r : Int) (c : Int) = true ∧
            i = (r : Int) * 2 + 1 ∧ j = (c : Int) * 2 + 1 then 0
        else gridAt g i j) := by
  induction cs with
  | nil =>
    intro g hg _
    refine ⟨hg, ?_⟩
    intro i j _ _
    simp
  | cons c cs ih =>
    intro g hg hcs
    have hcw : c < w := hcs c (by simp)
    have hcs' : ∀ x ∈ cs, x < w := fun x hx => hcs x (by simp [hx])
    rw [List.foldl_cons]
    by_cases hm : maskAllows mask (r : Int) (c : Int) = true
    · rw [if_pos hm]
      have hg1 := gridRect_gridSet hg ((r : Int) * 2 + 1) ((c : Int) * 2 + 1) 0
      obtain ⟨ihrect, ihat⟩ := ih _ hg1 hcs'
      refine ⟨ihrect, ?_⟩
      intro i j hi hj
      rw [ihat i j hi hj,
        gridAt_gridSet hg (by omega) (by push_cast; omega) (by omega) (by push_cast; omega) 0
          hi hj]
      by_cases hA : ∃ x ∈ cs, maskAllows mask (r : Int) (x : Int) = true ∧
          i = (r : Int) * 2 + 1 ∧ j = (x : Int) * 2 + 1
      · rw [if_pos hA]
        obtain ⟨x, hx, hmx, hix, hjx⟩ := hA
        rw [if_pos ⟨x, List.mem_cons_of_mem _ hx, hmx, hix, hjx⟩]
      · rw [if_neg hA]
        by_cases hB : i = (r : Int) * 2 + 1 ∧ j = (c : Int) * 2 + 1
        · rw [if_pos hB, if_pos ⟨c, List.mem_cons_self _ _, hm, hB.1, hB.2⟩]
        · rw [if_neg hB, if_neg ?_]
          rintro ⟨x, hx, hmx, hix, hjx⟩
          rcases List.mem_cons.1 hx with rfl | hx'
          · exact hB ⟨hix, hjx⟩
          · exact hA ⟨x, hx', hmx, hix, hjx⟩
    · rw [if_neg hm]
      obtain ⟨ihrect, ihat⟩ := ih _ hg hcs'
      refine ⟨ihrect, ?_⟩
      intro i j hi hj
      rw [ihat i j hi hj]
      by_cases hA : ∃ x ∈ cs, maskAllows mask (r : Int) (x : Int) = true ∧
          i = (r : Int) * 2 + 1 ∧ j = (x : Int) * 2 + 1
      · rw [if_pos hA]
        obtain ⟨x, hx, hmx, hix, hjx⟩ := hA
        rw [if_pos ⟨x, List.mem_cons_of_mem _ hx, hmx, hix, hjx⟩]
      · rw [if_neg hA, if_neg ?_]
        rintro ⟨x, hx, hmx, hix, hjx⟩
        rcases List.mem_cons.1 hx with rfl | hx'
        · exact hm hmx
        · exact hA ⟨x, hx', hmx, hix, hjx⟩

theorem initRows_spec (mask : Option (Int → Int → Bool)) (h w : Nat) (rs : List Nat) :
    ∀ g : Grid, GridRect g (2 * h + 1) (2 * w + 1) → (∀ r ∈ rs, r < h) →
    GridRect (rs.foldl (fun (g : Grid) (r : Nat) =>
        (List.range w).foldl (fun (g : Grid) (c : Nat) =>
          if maskAllows mask (r : Int) (c : Int) then
            gridSet g ((r : Int) * 2 + 1) ((c : Int) * 2 + 1) 0
          else g) g) g) (2 * h + 1) (2 * w + 1) ∧
    (∀ i j : Int, 0 ≤ i → 0 ≤ j →
      gridAt (rs.foldl (fun (g : Grid) (r : Nat) =>
        (List.range w).foldl (fun (g : Grid) (c : Nat) =>
          if maskAllows mask (r : Int) (c : Int) then
            gridSet g ((r : Int) * 2 + 1) ((c : Int) * 2 + 1) 0
          else g) g) g) i j =
        if ∃ r ∈ rs, ∃ c ∈ List.range w, maskAllows mask (r : Int) (c : Int) = true ∧
            i = (r : Int) * 2 + 1 ∧ j = (c : Int) * 2 + 1 then 0
        else gridAt g i j) := by
  induction rs with
  | nil =>
    intro g hg _
    refine ⟨hg, ?_⟩
    intro i j _ _
    simp
  | cons r rs ih =>
    intro g hg hrs
    have hrh : r < h := hrs r (by simp)
    have hrs' : ∀ x ∈ rs, x < h := fun x hx => hrs x (by simp [hx])
    rw [List.foldl_cons]
    obtain ⟨rect1, at1⟩ := initInner_spec mask h w r hrh (List.range w) g hg
      (fun c hc => List.mem_range.1 hc)
    obtain ⟨ihrect, ihat⟩ := ih _ rect1 hrs'
    refine ⟨ihrect, ?_⟩
    intro i j hi hj
    rw [ihat i j hi hj]
    by_cases hA : ∃ x ∈ rs, ∃ c ∈ List.range w, maskAllows mask (x : Int) (c : Int) = true ∧
        i = (x : Int) * 2 + 1 ∧ j = (c : Int) * 2 + 1
    · rw [if_pos hA]
      obtain ⟨x, hx, hcx⟩ := hA
      rw [if_pos ⟨x, List.mem_cons_of_mem _ hx, hcx⟩]
    · rw [if_neg hA, at1 i j hi hj]
      by_cases hB : ∃ c ∈ List.range w, maskAllows mask (r : Int) (c : Int) = true ∧
          i = (r : Int) * 2 + 1 ∧ j = (c : Int) * 2 + 1
      · rw [if_pos hB, if_pos ⟨r, List.mem_cons_self _ _, hB⟩]
      · rw [if_neg hB, if_neg ?_]
        rintro ⟨x, hx, hcx⟩
        rcases List.mem_cons.1 hx with rfl | hx'
        · exact hB hcx
        · exact hA ⟨x, hx', hcx⟩

theorem init_grid_rect (w h : Nat) (mask : Option (Int → Int → Bool)) :
    GridRect (Maze.init w h mask).grid (2 * h + 1) (2 * w + 1) := by
  rw [grid_init_eq]
  exact (initRows_spec mask h w (List.range h) _ (gridRect_replicate _ _)
    (fun r hr => List.mem_range.1 hr)).1

theorem init_gridAt (w h : Nat) (mask : Option (Int → Int → Bool)) (i j : Int)
    (hi : 0 ≤ i) (hj : 0 ≤ j) :
    gridAt (Maze.init w h mask).grid i j =
      if ∃ r ∈ List.range h, ∃ c ∈ List.range w,
          maskAllows mask (r : Int) (c : Int) = true ∧
          i = (r : Int) * 2 + 1 ∧ j = (c : Int) * 2 + 1 then 0
      else 1 := by
  rw [grid_init_eq]
  rw [(initRows_spec mask h w (List.range h) _ (gridRect_replicate _ _)
    (fun r hr => List.mem_range.1 hr)).2 i j hi hj]
  rw [gridAt_replicate]

/-! ## `remove_wall_between` and edge lemmas -/

theorem remove_wall_grid (m : Maze) (a b : Cell) :
    (m.remove_wall_between a b).grid = gridSet m.grid (a.1 + b.1 + 1) (a.2 + b.2 + 1) 0 := by
  show gridSet m.grid ((a.1 * 2 + 1 + (b.1 * 2 + 1)).fdiv 2)
      ((a.2 * 2 + 1 + (b.2 * 2 + 1)).fdiv 2) 0 = _
  have h1 : a.1 * 2 + 1 + (b.1 * 2 + 1) = 2 * (a.1 + b.1 + 1) := by ring
  have h2 : a.2 * 2 + 1 + (b.2 * 2 + 1) = 2 * (a.2 + b.2 + 1) := by ring
  rw [h1, h2, Int.mul_fdiv_cancel_left _ (by norm_num), Int.mul_fdiv_cancel_left _ (by norm_num)]

theorem remove_wall_cells (m : Maze) (a b : Cell) :
    (m.remove_wall_between a b).cells = m.cells := rfl

theorem remove_wall_w (m : Maze) (a b : Cell) :
    (m.remove_wall_between a b).w = m.w := rfl

theorem remove_wall_h (m : Maze) (a b : Cell) :
    (m.remove_wall_between a b).h = m.h := rfl

theorem remove_wall_mask (m : Maze) (a b : Cell) :
    (m.remove_wall_between a b).mask = m.mask := rfl

theorem mem_interEdges (m : Maze) (e : Cell × Cell) :
    e ∈ interEdges m ↔
      e.1 ∈ m.cells ∧ e.2 ∈ m.cells ∧ (e.2 = rightOf e.1 ∨ e.2 = downOf e.1) := by
  unfold interEdges
  rw [List.mem_flatMap]
  constructor
  · rintro ⟨a, ha, he⟩
    obtain ⟨b, hb, hbe⟩ := List.mem_filterMap.1 he
    by_cases hbc : b ∈ m.cells
    · rw [if_pos hbc] at hbe
      obtain rfl := (Option.some_inj.1 hbe).symm
      rcases List.mem_cons.1 hb with h | h
      · exact ⟨ha, hbc, Or.inl h⟩
      · rcases List.mem_cons.1 h with h' | h'
        · exact ⟨ha, hbc, Or.inr h'⟩
        · cases h'
    · rw [if_neg hbc] at hbe
      cases hbe
  · rintro ⟨h1, h2, h3⟩
    refine ⟨e.1, h1, List.mem_filterMap.2 ⟨e.2, ?_, ?_⟩⟩
    · rcases h3 with h | h
      · rw [h]; exact List.mem_cons_self _ _
      · rw [h]; exact List.mem_cons_of_mem _ (List.mem_cons_self _ _)
    · rw [if_pos h2]

theorem openEdges_sub (m : Maze) : ∀ e ∈ openEdges m, e ∈ interEdges m := by
  intro e he
  exact List.mem_of_mem_filter he

theorem mem_openEdges (m : Maze) (e : Cell × Cell) :
    e ∈ openEdges m ↔ e ∈ interEdges m ∧
      gridAt m.grid (midOf e.1 e.2).1 (midOf e.1 e.2).2 = 0 := by
  unfold openEdges
  rw [List.mem_filter]
  constructor
  · rintro ⟨h1, h2⟩
    exact ⟨h1, by simpa using h2⟩
  · rintro ⟨h1, h2⟩
    exact ⟨h1, by simpa using h2⟩

/-- C4 and the initial-midpoint fact: no inter-cell boundary is open at
construction. -/
theorem openEdges_init (w h : Nat) (mask : Option (Int → Int → Bool)) :
    openEdges (Maze.init w h mask) = [] := by
  unfold openEdges
  rw [List.filter_eq_nil_iff]
  intro e he
  obtain ⟨h1, h2, h3⟩ := (mem_interEdges _ e).1 he
  obtain ⟨ha1, ha2, ha3, ha4, ha5⟩ := (mem_cells_init_iff w h mask e.1).1 h1
  simp only [Bool.not_eq_true, beq_eq_false_iff_ne, ne_eq]
  intro hmid
  rw [init_gridAt w h mask _ _ (by rcases h3 with h | h <;> rw [h] <;>
    simp [midOf, rightOf, downOf] <;> omega) (by rcases h3 with h | h <;> rw [h] <;>
    simp [midOf, rightOf, downOf] <;> omega)] at hmid
  split at hmid
  · rename_i hcond
    obtain ⟨r, hr, c, hc, hm, hir, hjc⟩ := hcond
    rcases h3 with h | h <;> rw [h] at hir hjc <;>
      simp only [midOf, rightOf, downOf] at hir hjc <;> omega
  · exact absurd hmid (by norm_num)

theorem in_bounds_cell_iff (m : Maze) (r c : Int) :
    m.in_bounds_cell r c = true ↔
      (0 ≤ r ∧ r < (m.h : Int) ∧ 0 ≤ c ∧ c < (m.w : Int)) ∧ maskAllows m.mask r c = true := by
  unfold Maze.in_bounds_cell
  rw [Bool.and_eq_true, decide_eq_true_eq]

/-- C4: for every width, height and mask, immediately after `Maze`
construction every allowed cell's center `(2r+1, 2c+1)` is PASSAGE, every
disallowed cell's center is WALL, and every other position of the
`(2h+1) × (2w+1)` wall grid is WALL. -/
theorem C4_init_grid (w h : Nat) (mask : Option (Int → Int → Bool)) :
    (∀ r c : Nat, r < h → c < w →
      gridAt (Maze.init w h mask).grid ((r : Int) * 2 + 1) ((c : Int) * 2 + 1) =
        (if maskAllows mask (r : Int) (c : Int) = true then 0 else 1)) ∧
    (∀ i j : Nat, i < 2 * h + 1 → j < 2 * w + 1 →
      (¬ ∃ r c : Nat, r < h ∧ c < w ∧ (i : Int) = (r : Int) * 2 + 1 ∧
        (j : Int) = (c : Int) * 2 + 1) →
      gridAt (Maze.init w h mask).grid (i : Int) (j : Int) = 1) := by
  constructor
  · intro r c hr hc
    rw [init_gridAt w h mask ((r : Int) * 2 + 1) ((c : Int) * 2 + 1) (by omega) (by omega)]
    by_cases hm : maskAllows mask (r : Int) (c : Int) = true
    · rw [if_pos hm, if_pos ⟨r, List.mem_range.2 hr, c, List.mem_range.2 hc, hm, rfl, rfl⟩]
    · rw [if_neg hm, if_neg ?_]
      rintro ⟨r', hr', c', hc', hm', hir, hjc⟩
      have h1 : r' = r := by omega
      have h2 : c' = c := by omega
      subst h1
      subst h2
      exact hm hm'
  · intro i j hi hj hnot
    rw [init_gridAt w h mask (i : Int) (j : Int) (by omega) (by omega), if_neg ?_]
    rintro ⟨r, hr, c, hc, hm, hir, hjc⟩
    exact hnot ⟨r, c, List.mem_range.1 hr, List.mem_range.1 hc, hir, hjc⟩

theorem C4_init_grid_witness :
    gridAt (Maze.init 2 2 none).grid ((2 : Nat) : Int) ((2 : Nat) : Int) = 1 ∧
    gridAt (Maze.init 2 2 none).grid (((1 : Nat) : Int) * 2 + 1) (((0 : Nat) : Int) * 2 + 1) =
      (if maskAllows none ((1 : Nat) : Int) ((0 : Nat) : Int) = true then 0 else 1) := by
  constructor
  · exact (C4_init_grid 2 2 none).2 2 2 (by omega) (by omega)
      (by rintro ⟨r, c, hr, hc, hir, hjc⟩; omega)
  · exact (C4_init_grid 2 2 none).1 1 0 (by omega) (by omega)

/-- C10: for 4-adjacent in-bounds allowed cells `a` and `b`, the midpoint
grid index computed by `remove_wall_between` lies strictly inside the
`(2h+1) × (2w+1)` grid, and (on a rectangular grid of those dimensions) the
write lands inside the grid: the written position really holds PASSAGE
afterwards, so the operation cannot fail. -/
theorem C10_midpoint_in_bounds (m : Maze) (a b : Cell)
    (ha : m.in_bounds_cell a.1 a.2 = true) (hb : m.in_bounds_cell b.1 b.2 = true)
    (hadj : adjStep a b) :
    (0 < ((m.cell_to_grid a.1 a.2).1 + (m.cell_to_grid b.1 b.2).1).fdiv 2 ∧
      ((m.cell_to_grid a.1 a.2).1 + (m.cell_to_grid b.1 b.2).1).fdiv 2 < (m.grid_h : Int) - 1) ∧
    (0 < ((m.cell_to_grid a.1 a.2).2 + (m.cell_to_grid b.1 b.2).2).fdiv 2 ∧
      ((m.cell_to_grid a.1 a.2).2 + (m.cell_to_grid b.1 b.2).2).fdiv 2 < (m.grid_w : Int) - 1) ∧
    (GridRect m.grid m.grid_h m.grid_w →
      gridAt (m.remove_wall_between a b).grid
        (((m.cell_to_grid a.1 a.2).1 + (m.cell_to_grid b.1 b.2).1).fdiv 2)
        (((m.cell_to_grid a.1 a.2).2 + (m.cell_to_grid b.1 b.2).2).fdiv 2) = 0) := by
  rw [in_bounds_cell_iff] at ha hb
  obtain ⟨⟨ha1, ha2, ha3, ha4⟩, -⟩ := ha
  obtain ⟨⟨hb1, hb2, hb3, hb4⟩, -⟩ := hb
  have hr : ((m.cell_to_grid a.1 a.2).1 + (m.cell_to_grid b.1 b.2).1).fdiv 2 =
      a.1 + b.1 + 1 := by
    show (a.1 * 2 + 1 + (b.1 * 2 + 1)).fdiv 2 = _
    have h1 : a.1 * 2 + 1 + (b.1 * 2 + 1) = 2 * (a.1 + b.1 + 1) := by ring
    rw [h1, Int.mul_fdiv_cancel_left _ (by norm_num)]
  have hc : ((m.cell_to_grid a.1 a.2).2 + (m.cell_to_grid b.1 b.2).2).fdiv 2 =
      a.2 + b.2 + 1 := by
    show (a.2 * 2 + 1 + (b.2 * 2 + 1)).fdiv 2 = _
    have h1 : a.2 * 2 + 1 + (b.2 * 2 + 1) = 2 * (a.2 + b.2 + 1) := by ring
    rw [h1, Int.mul_fdiv_cancel_left _ (by norm_num)]
  rw [hr, hc]
  refine ⟨⟨by omega, ?_⟩, ⟨by omega, ?_⟩, ?_⟩
  · show _ < ((2 * m.h + 1 : Nat) : Int) - 1
    push_cast
    omega
  · show _ < ((2 * m.w + 1 : Nat) : Int) - 1
    push_cast
    omega
  · intro hrect
    rw [remove_wall_grid,
      gridAt_gridSet hrect (by omega) (by show _ < ((2 * m.h + 1 : Nat) : Int); push_cast; omega)
        (by omega) (by show _ < ((2 * m.w + 1 : Nat) : Int); push_cast; omega) 0
        (by omega) (by omega),
      if_pos ⟨rfl, rfl⟩]

theorem C10_midpoint_in_bounds_witness :
    (0 < (((Maze.init 2 2 none).cell_to_grid 0 0).1 +
        ((Maze.init 2 2 none).cell_to_grid 0 1).1).fdiv 2 ∧
      (((Maze.init 2 2 none).cell_to_grid 0 0).1 +
        ((Maze.init 2 2 none).cell_to_grid 0 1).1).fdiv 2 <
        ((Maze.init 2 2 none).grid_h : Int) - 1) ∧
    (0 < (((Maze.init 2 2 none).cell_to_grid 0 0).2 +
        ((Maze.init 2 2 none).cell_to_grid 0 1).2).fdiv 2 ∧
      (((Maze.init 2 2 none).cell_to_grid 0 0).2 +
        ((Maze.init 2 2 none).cell_to_grid 0 1).2).fdiv 2 <
        ((Maze.init 2 2 none).grid_w : Int) - 1) ∧
    (GridRect (Maze.init 2 2 none).grid (Maze.init 2 2 none).grid_h
        (Maze.init 2 2 none).grid_w →
      gridAt ((Maze.init 2 2 none).remove_wall_between (0, 0) (0, 1)).grid
        ((((Maze.init 2 2 none).cell_to_grid 0 0).1 +
          ((Maze.init 2 2 none).cell_to_grid 0 1).1).fdiv 2)
        ((((Maze.init 2 2 none).cell_to_grid 0 0).2 +
          ((Maze.init 2 2 none).cell_to_grid 0 1).2).fdiv 2) = 0) :=
  C10_midpoint_in_bounds (Maze.init 2 2 none) (0, 0) (0, 1) (by decide) (by decide)
    (by unfold adjStep; norm_num)

/-- C6: `bfs_solve` returns the no-path result (`none`) as soon as either
endpoint is out of the wall-grid bounds or not marked PASSAGE.  In this
embedding `bfs_solve` returns only the optional path and never produces a
grid, so the wall grid is left unchanged by construction. -/
theorem C6_bfs_invalid (m : Maze) (s g : Int × Int)
    (h : ¬(0 ≤ s.1 ∧ s.1 < (m.grid_h : Int) ∧ 0 ≤ s.2 ∧ s.2 < (m.grid_w : Int)) ∨
         ¬(0 ≤ g.1 ∧ g.1 < (m.grid_h : Int) ∧ 0 ≤ g.2 ∧ g.2 < (m.grid_w : Int)) ∨
         gridAt m.grid s.1 s.2 ≠ 0 ∨ gridAt m.grid g.1 g.2 ≠ 0) :
    m.bfs_solve s g = none := by
  unfold Maze.bfs_solve
  split_ifs with h1 h2 h3 h4 <;>
    first
      | rfl
      | (exfalso; rcases h with h | h | h | h <;> simp_all)

theorem C6_bfs_invalid_witness :
    (Maze.init 1 1 none).bfs_solve (-1, 1) (1, 1) = none :=
  C6_bfs_invalid (Maze.init 1 1 none) (-1, 1) (1, 1) (Or.inl (by decide))

/-- C3: determinism.  When a seed is supplied, `random.seed(seed)` replaces
the global generator state, so the result depends only on
(seed, strategy, mask, dimensions): two runs of the same generator from any
two incoming random-source states produce identical results, and in
particular wall grids identical in every position. -/
theorem C3_deterministic (w h : Nat) (mask : Option (Int → Int → Bool))
    (seedStream : Nat → Rng) (s : Nat) (strategy : Strategy) (fuel : Nat) (rng1 rng2 : Rng) :
    (Maze.init w h mask).generate_recursive_backtracker seedStream rng1 (some s) strategy fuel
      = (Maze.init w h mask).generate_recursive_backtracker seedStream rng2 (some s) strategy
          fuel ∧
    (Maze.init w h mask).generate_kruskal seedStream rng1 (some s)
      = (Maze.init w h mask).generate_kruskal seedStream rng2 (some s) :=
  ⟨rfl, rfl⟩

/-- C9: on a maze whose allowed-cell set is empty (in particular when
`width = 0` or `height = 0`), both generators return normally and leave
every grid position unchanged: the backtracker exits before picking a start
cell and Kruskal folds over an empty edge list. -/
theorem C9_empty_noop (m : Maze) (hc : m.cells = []) (seedStream : Nat → Rng) (rngIn : Rng)
    (seed : Option Nat) (strategy : Strategy) (fuel : Nat) :
    m.generate_recursive_backtracker seedStream rngIn seed strategy fuel = some m ∧
    m.generate_kruskal seedStream rngIn seed = m := by
  constructor
  · unfold Maze.generate_recursive_backtracker
    rw [if_pos hc]
  · have hk : m.kruskalEdges = [] := by
      unfold Maze.kruskalEdges
      rw [hc]
      rfl
    unfold Maze.generate_kruskal
    rw [hk]
    show kruskalLoop _ (shuffleAux _ _ (([] : List (Cell × Cell)).length - 1) []).1 _ m = m
    rw [show (([] : List (Cell × Cell)).length - 1) = 0 from rfl]
    rfl

theorem C9_empty_noop_witness :
    (Maze.init 0 3 none).generate_recursive_backtracker (fun _ _ => 0) (fun _ => 0) none
        Strategy.last 5 = some (Maze.init 0 3 none) ∧
    (Maze.init 0 3 none).generate_kruskal (fun _ _ => 0) (fun _ => 0) none =
      Maze.init 0 3 none :=
  C9_empty_noop (Maze.init 0 3 none) (by rfl) (fun _ _ => 0) (fun _ => 0) none
    Strategy.last 5

/-! ## Monotonicity of carving -/

theorem btLoop_zero_empty (rng : Rng) (strategy : Strategy) (s : BTState)
    (h : s.stack = []) : btLoop rng strategy 0 s = some s := by
  simp [btLoop, h]

theorem btLoop_zero_ne (rng : Rng) (strategy : Strategy) (s : BTState)
    (h : ¬s.stack = []) : btLoop rng strategy 0 s = none := by
  simp [btLoop, h]

theorem btLoop_succ_empty (rng : Rng) (strategy : Strategy) (fuel : Nat) (s : BTState)
    (h : s.stack = []) : btLoop rng strategy (fuel + 1) s = some s := by
  simp [btLoop, h]

theorem btLoop_succ_no_nb (rng : Rng) (strategy : Strategy) (fuel : Nat) (s : BTState)
    (h : ¬s.stack = [])
    (hnb : btNeighbors s.maze s.visited
      (s.stack.getD (chooseIdx strategy rng s.k s.stack.length).1 default) = []) :
    btLoop rng strategy (fuel + 1) s = btLoop rng strategy fuel
      { s with stack := s.stack.eraseIdx (chooseIdx strategy rng s.k s.stack.length).1,
               k := (chooseIdx strategy rng s.k s.stack.length).2 } := by
  have hnb' := hnb
  rw [List.getD_eq_getElem?_getD] at hnb'
  simp [btLoop, h, hnb']

theorem btLoop_succ_carve (rng : Rng) (strategy : Strategy) (fuel : Nat) (s : BTState)
    (h : ¬s.stack = []) {nb0 : Cell} {rest : List Cell}
    (hnb : btNeighbors s.maze s.visited
      (s.stack.getD (chooseIdx strategy rng s.k s.stack.length).1 default) = nb0 :: rest) :
    btLoop rng strategy (fuel + 1) s = btLoop rng strategy fuel
      { maze := s.maze.remove_wall_between
          (s.stack.getD (chooseIdx strategy rng s.k s.stack.length).1 default)
          (pyChoice rng (chooseIdx strategy rng s.k s.stack.length).2 (nb0 :: rest)),
        visited := pyChoice rng (chooseIdx strategy rng s.k s.stack.length).2 (nb0 :: rest)
          :: s.visited,
        stack := s.stack ++
          [pyChoice rng (chooseIdx strategy rng s.k s.stack.length).2 (nb0 :: rest)],
        k := (chooseIdx strategy rng s.k s.stack.length).2 + 1 } := by
  have hnb' := hnb
  rw [List.getD_eq_getElem?_getD] at hnb'
  simp [btLoop, h, hnb']

theorem kruskalLoop_cons_true (fuel : Nat) (a b : Cell) (rest : List (Cell × Cell))
    (parent : Cell → Cell) (m : Maze) (hu : (ufUnion fuel parent a b).1 = true) :
    kruskalLoop fuel ((a, b) :: rest) parent m =
      kruskalLoop fuel rest (ufUnion fuel parent a b).2 (m.remove_wall_between a b) := by
  simp [kruskalLoop, hu]

theorem kruskalLoop_cons_false (fuel : Nat) (a b : Cell) (rest : List (Cell × Cell))
    (parent : Cell → Cell) (m : Maze) (hu : (ufUnion fuel parent a b).1 = false) :
    kruskalLoop fuel ((a, b) :: rest) parent m =
      kruskalLoop fuel rest (ufUnion fuel parent a b).2 m := by
  simp [kruskalLoop, hu]

theorem btLoop_grid_mono (rng : Rng) (strategy : Strategy) :
    ∀ (fuel : Nat) (s s' : BTState), btLoop rng strategy fuel s = some s' →
      ∀ i j : Int, gridAt s.maze.grid i j = 0 → gridAt s'.maze.grid i j = 0 := by
  intro fuel
  induction fuel with
  | zero =>
    intro s s' hbt i j h0
    by_cases hstk : s.stack = []
    · rw [btLoop_zero_empty rng strategy s hstk] at hbt
      obtain rfl := Option.some_inj.1 hbt
      exact h0
    · rw [btLoop_zero_ne rng strategy s hstk] at hbt
      cases hbt
  | succ fuel ih =>
    intro s s' hbt i j h0
    by_cases hstk : s.stack = []
    · rw [btLoop_succ_empty rng strategy fuel s hstk] at hbt
      obtain rfl := Option.some_inj.1 hbt
      exact h0
    · rcases hnb : btNeighbors s.maze s.visited
          (s.stack.getD (chooseIdx strategy rng s.k s.stack.length).1 default) with
        _ | ⟨nb0, rest⟩
      · rw [btLoop_succ_no_nb rng strategy fuel s hstk hnb] at hbt
        exact ih _ _ hbt i j h0
      · rw [btLoop_succ_carve rng strategy fuel s hstk hnb] at hbt
        refine ih _ _ hbt i j ?_
        rw [remove_wall_grid]
        exact gridAt_gridSet_zero _ _ h0

theorem kruskalLoop_grid_mono (fuel : Nat) :
    ∀ (edges : List (Cell × Cell)) (parent : Cell → Cell) (m : Maze) (i j : Int),
      gridAt m.grid i j = 0 → gridAt (kruskalLoop fuel edges parent m).grid i j = 0 := by
  intro edges
  induction edges with
  | nil =>
    intro parent m i j h0
    exact h0
  | cons e rest ih =>
    intro parent m i j h0
    obtain ⟨a, b⟩ := e
    cases hu : (ufUnion fuel parent a b).1
    · rw [kruskalLoop_cons_false fuel a b rest parent m hu]
      exact ih _ _ i j h0
    · rw [kruskalLoop_cons_true fuel a b rest parent m hu]
      refine ih _ _ i j ?_
      rw [remove_wall_grid]
      exact gridAt_gridSet_zero _ _ h0

/-- C8: carving is monotonic during generation: from any state of either
generator's loop, a grid position holding PASSAGE still holds PASSAGE in
the loop's result (every write performed by the loops writes PASSAGE and
nothing ever writes WALL). -/
theorem C8_monotonic :
    (∀ (rng : Rng) (strategy : Strategy) (fuel : Nat) (s s' : BTState),
        btLoop rng strategy fuel s = some s' →
        ∀ i j : Int, gridAt s.maze.grid i j = 0 → gridAt s'.maze.grid i j = 0) ∧
    (∀ (fuel : Nat) (edges : List (Cell × Cell)) (parent : Cell → Cell) (m : Maze)
        (i j : Int),
        gridAt m.grid i j = 0 → gridAt (kruskalLoop fuel edges parent m).grid i j = 0) :=
  ⟨btLoop_grid_mono, kruskalLoop_grid_mono⟩

theorem C8_monotonic_witness :
    gridAt ((⟨Maze.init 1 1 none, [], [], 0⟩ : BTState)).maze.grid 1 1 = 0 ∧
    gridAt (kruskalLoop 0 [] (fun x => x) (Maze.init 1 1 none)).grid 1 1 = 0 :=
  ⟨C8_monotonic.1 (fun _ => 0) Strategy.last 0 ⟨Maze.init 1 1 none, [], [], 0⟩
      ⟨Maze.init 1 1 none, [], [], 0⟩ rfl 1 1 (by decide),
    C8_monotonic.2 0 [] (fun x => x) (Maze.init 1 1 none) 1 1 (by decide)⟩

/-! ## Adjacency, midpoints, and edge bookkeeping -/

theorem reflTransGen_union_pair {α : Type} {R S : α → α → Prop} {u v : α}
    (hS : ∀ x y, S x y → R x y ∨ (x = u ∧ y = v) ∨ (x = v ∧ y = u)) :
    ∀ {a b : α}, Relation.ReflTransGen S a b →
      Relation.ReflTransGen R a b ∨
      (Relation.ReflTransGen R a u ∧ Relation.ReflTransGen R v b) ∨
      (Relation.ReflTransGen R a v ∧ Relation.ReflTransGen R u b) := by
  intro a b h
  induction h with
  | refl => exact Or.inl Relation.ReflTransGen.refl
  | tail _ hstep ih =>
    rcases hS _ _ hstep with hR | ⟨he1, he2⟩ | ⟨he1, he2⟩
    · rcases ih with h1 | ⟨h1, h2⟩ | ⟨h1, h2⟩
      · exact Or.inl (h1.tail hR)
      · exact Or.inr (Or.inl ⟨h1, h2.tail hR⟩)
      · exact Or.inr (Or.inr ⟨h1, h2.tail hR⟩)
    · subst he1
      subst he2
      rcases ih with h1 | ⟨h1, h2⟩ | ⟨h1, h2⟩
      · exact Or.inr (Or.inl ⟨h1, Relation.ReflTransGen.refl⟩)
      · exact Or.inr (Or.inl ⟨h1, Relation.ReflTransGen.refl⟩)
      · exact Or.inl h1
    · subst he1
      subst he2
      rcases ih with h1 | ⟨h1, h2⟩ | ⟨h1, h2⟩
      · exact Or.inr (Or.inr ⟨h1, Relation.ReflTransGen.refl⟩)
      · exact Or.inl h1
      · exact Or.inr (Or.inr ⟨h1, Relation.ReflTransGen.refl⟩)

theorem adjStep_symm {a b : Cell} (h : adjStep a b) : adjStep b a := by
  unfold adjStep at *
  omega

theorem adjStep_irrefl (a : Cell) : ¬adjStep a a := by
  unfold adjStep
  omega

theorem midOf_comm (a b : Cell) : midOf a b = midOf b a := by
  unfold midOf
  refine Prod.ext ?_ ?_ <;> simp <;> ring

theorem adjStep_rightOf (a : Cell) : adjStep a (rightOf a) := by
  unfold adjStep rightOf
  simp

theorem adjStep_downOf (a : Cell) : adjStep a (downOf a) := by
  unfold adjStep downOf
  simp

theorem midOf_inj_adj {a b x y : Cell} (h1 : adjStep a b) (h2 : adjStep x y)
    (hm : midOf a b = midOf x y) : (x = a ∧ y = b) ∨ (x = b ∧ y = a) := by
  have e1 : a.1 + b.1 + 1 = x.1 + y.1 + 1 := congrArg Prod.fst hm
  have e2 : a.2 + b.2 + 1 = x.2 + y.2 + 1 := congrArg Prod.snd hm
  unfold adjStep at h1 h2
  rw [Prod.ext_iff, Prod.ext_iff, Prod.ext_iff, Prod.ext_iff]
  omega

theorem adjStep_cases {a b : Cell} (h : adjStep a b) :
    (b = rightOf a ∨ b = downOf a) ∨ (a = rightOf b ∨ a = downOf b) := by
  unfold adjStep at h
  unfold rightOf downOf
  rw [Prod.ext_iff, Prod.ext_iff, Prod.ext_iff, Prod.ext_iff]
  omega

theorem canonEdge_spec {a b : Cell} (h : adjStep a b) :
    ((canonEdge a b).2 = rightOf (canonEdge a b).1 ∨
      (canonEdge a b).2 = downOf (canonEdge a b).1) ∧
    midOf (canonEdge a b).1 (canonEdge a b).2 = midOf a b ∧
    (((canonEdge a b).1 = a ∧ (canonEdge a b).2 = b) ∨
      ((canonEdge a b).1 = b ∧ (canonEdge a b).2 = a)) := by
  unfold canonEdge
  split
  · rename_i hcond
    exact ⟨hcond, rfl, Or.inl ⟨rfl, rfl⟩⟩
  · rename_i hcond
    push_neg at hcond
    refine ⟨?_, midOf_comm b a, Or.inr ⟨rfl, rfl⟩⟩
    rcases adjStep_cases h with hc | hc
    · exact absurd hc (by tauto)
    · exact hc

theorem pyChoice_mem {α : Type} [Inhabited α] (rng : Rng) (k : Nat) (l : List α)
    (h : l ≠ []) : pyChoice rng k l ∈ l := by
  unfold pyChoice
  have hlen : 0 < l.length := List.length_pos.2 h
  have hlt : rng k % l.length < l.length := Nat.mod_lt _ hlen
  rw [List.getD_eq_getElem _ _ hlt]
  exact List.getElem_mem hlt

theorem chooseIdx_lt (strategy : Strategy) (rng : Rng) (k len : Nat) (h : 0 < len) :
    (chooseIdx strategy rng k len).1 < len := by
  cases strategy with
  | blend p =>
    show (if randFloat rng k < p then (len - 1, k + 1)
      else (randrange rng (k + 1) len, k + 2)).1 < len
    split
    · exact Nat.sub_lt h one_pos
    · exact Nat.mod_lt _ h
  | last => exact Nat.sub_lt h one_pos
  | first => exact h
  | random => exact Nat.mod_lt _ h
  | other => exact Nat.sub_lt h one_pos

theorem getD_mem {α : Type} (l : List α) (i : Nat) (d : α) (h : i < l.length) :
    l.getD i d ∈ l := by
  rw [List.getD_eq_getElem _ _ h]
  exact List.getElem_mem h

theorem mem_btNeighbors {m : Maze} {visited : List Cell} {cell nb : Cell} :
    nb ∈ btNeighbors m visited cell ↔
      m.in_bounds_cell nb.1 nb.2 = true ∧ nb ∉ visited ∧ adjStep cell nb := by
  unfold btNeighbors
  rw [List.mem_filterMap]
  constructor
  · rintro ⟨d, hd, hnb⟩
    by_cases hcond : (m.in_bounds_cell (cell.1 + d.1) (cell.2 + d.2) &&
        !visited.contains (cell.1 + d.1, cell.2 + d.2)) = true
    · rw [if_pos hcond] at hnb
      obtain rfl := Option.some_inj.1 hnb
      rw [Bool.and_eq_true, Bool.not_eq_true'] at hcond
      refine ⟨hcond.1, ?_, ?_⟩
      · intro hmem
        have : ((cell.1 + d.1, cell.2 + d.2) : Cell) ∈ visited → False := by
          intro hmem2
          have hcontains : visited.contains ((cell.1 + d.1, cell.2 + d.2) : Cell) = true :=
            List.elem_iff.2 hmem2
          rw [hcontains] at hcond
          exact absurd hcond.2 (by simp)
        exact this hmem
      · fin_cases hd <;> (unfold adjStep; simp) <;> omega
    · rw [if_neg hcond] at hnb
      cases hnb
  · rintro ⟨hib, hnv, hadj⟩
    have hcontains : visited.contains nb = false := by
      rw [← Bool.not_eq_true]
      intro hc
      exact hnv (List.elem_iff.1 hc)
    have hd : nb = (cell.1 + -1, cell.2 + 0) ∨ nb = (cell.1 + 1, cell.2 + 0) ∨
        nb = (cell.1 + 0, cell.2 + -1) ∨ nb = (cell.1 + 0, cell.2 + 1) := by
      unfold adjStep at hadj
      rw [Prod.ext_iff, Prod.ext_iff, Prod.ext_iff, Prod.ext_iff]
      omega
    rcases hd with h | h | h | h
    · refine ⟨(-1, 0), by simp, ?_⟩
      rw [show ((cell.1 + (-1 : Int), cell.2 + (0 : Int)) : Cell) = nb from h.symm,
        if_pos (by rw [Bool.and_eq_true, Bool.not_eq_true']; exact ⟨hib, hcontains⟩)]
    · refine ⟨(1, 0), by simp, ?_⟩
      rw [show ((cell.1 + (1 : Int), cell.2 + (0 : Int)) : Cell) = nb from h.symm,
        if_pos (by rw [Bool.and_eq_true, Bool.not_eq_true']; exact ⟨hib, hcontains⟩)]
    · refine ⟨(0, -1), by simp, ?_⟩
      rw [show ((cell.1 + (0 : Int), cell.2 + (-1 : Int)) : Cell) = nb from h.symm,
        if_pos (by rw [Bool.and_eq_true, Bool.not_eq_true']; exact ⟨hib, hcontains⟩)]
    · refine ⟨(0, 1), by simp, ?_⟩
      rw [show ((cell.1 + (0 : Int), cell.2 + (1 : Int)) : Cell) = nb from h.symm,
        if_pos (by rw [Bool.and_eq_true, Bool.not_eq_true']; exact ⟨hib, hcontains⟩)]

theorem mem_filter_update {α : Type} {l : List α} {p q : α → Bool} {e : α}
    (he : e ∈ l) (hpe : p e = false) (hqe : q e = true)
    (hagree : ∀ x ∈ l, x ≠ e → q x = p x) (x : α) :
    x ∈ l.filter q ↔ x ∈ l.filter p ∨ x = e := by
  rw [List.mem_filter, List.mem_filter]
  constructor
  · rintro ⟨hx, hqx⟩
    by_cases hxe : x = e
    · exact Or.inr hxe
    · exact Or.inl ⟨hx, by rw [← hagree x hx hxe]; exact hqx⟩
  · rintro (⟨hx, hpx⟩ | rfl)
    · by_cases hxe : x = e
      · subst hxe
        rw [hpe] at hpx
        cases hpx
      · exact ⟨hx, by rw [hagree x hx hxe]; exact hpx⟩
    · exact ⟨he, hqe⟩

theorem length_filter_update {α : Type} {l : List α} {p q : α → Bool} {e : α}
    (hnd : l.Nodup) (he : e ∈ l) (hpe : p e = false) (hqe : q e = true)
    (hagree : ∀ x ∈ l, x ≠ e → q x = p x) :
    (l.filter q).length = (l.filter p).length + 1 := by
  induction l with
  | nil => cases he
  | cons a t ih =>
    rw [List.nodup_cons] at hnd
    rcases List.mem_cons.1 he with rfl | het
    · have ht : t.filter q = t.filter p :=
        List.filter_congr (fun x hx => hagree x (List.mem_cons_of_mem _ hx)
          (fun hc => hnd.1 (hc ▸ hx)))
      rw [List.filter_cons, List.filter_cons, hqe, hpe]
      simp [ht]
    · have hae : a ≠ e := fun hc => hnd.1 (hc ▸ het)
      have hrec := ih hnd.2 het (fun x hx hxe => hagree x (List.mem_cons_of_mem _ hx) hxe)
      rw [List.filter_cons, List.filter_cons, hagree a (List.mem_cons_self _ _) hae]
      split
      · simpa using hrec
      · exact hrec

theorem interEdges_congr {m1 m2 : Maze} (h : m1.cells = m2.cells) :
    interEdges m1 = interEdges m2 := by
  unfold interEdges
  rw [h]

theorem interEdges_nodup {m : Maze} (h : m.cells.Nodup) : (interEdges m).Nodup := by
  unfold interEdges
  rw [List.nodup_flatMap]
  constructor
  · intro a _
    refine List.Nodup.filterMap ?_ ?_
    · intro b b' x hx hx'
      by_cases hb : b ∈ m.cells
      · rw [if_pos hb] at hx
        by_cases hb' : b' ∈ m.cells
        · rw [if_pos hb'] at hx'
          rw [Option.mem_def] at hx hx'
          have e1 := Option.some_inj.1 hx
          have e2 := Option.some_inj.1 hx'
          have := e1.trans e2.symm
          exact congrArg Prod.snd this
        · rw [if_neg hb'] at hx'
          simp at hx'
      · rw [if_neg hb] at hx
        simp at hx
    · refine List.Nodup.cons ?_ (List.nodup_singleton _)
      intro hmem
      rw [List.mem_singleton] at hmem
      have h1 : a.1 = a.1 + 1 := by
        have := congrArg Prod.fst hmem
        simpa [rightOf, downOf] using this
      omega
  · refine h.imp ?_
    intro a b hab x hxa hxb
    obtain ⟨c, _, hc⟩ := List.mem_filterMap.1 hxa
    obtain ⟨c', _, hc'⟩ := List.mem_filterMap.1 hxb
    have h1 : x.1 = a := by
      by_cases hm : c ∈ m.cells
      · rw [if_pos hm] at hc
        rw [← Option.some_inj.1 hc]
      · rw [if_neg hm] at hc
        cases hc
    have h2 : x.1 = b := by
      by_cases hm : c' ∈ m.cells
      · rw [if_pos hm] at hc'
        rw [← Option.some_inj.1 hc']
      · rw [if_neg hm] at hc'
        cases hc'
    exact hab (h1 ▸ h2)

theorem mazeAdj_symm {m : Maze} {a b : Cell} (h : mazeAdj m a b) : mazeAdj m b a := by
  obtain ⟨h1, h2, h3, h4⟩ := h
  exact ⟨h2, h1, adjStep_symm h3, by rw [midOf_comm]; exact h4⟩

theorem openEdges_mazeAdj {m : Maze} {e : Cell × Cell} (he : e ∈ openEdges m) :
    mazeAdj m e.1 e.2 := by
  obtain ⟨hi, hmid⟩ := (mem_openEdges m e).1 he
  obtain ⟨h1, h2, h3⟩ := (mem_interEdges m e).1 hi
  refine ⟨h1, h2, ?_, hmid⟩
  rcases h3 with h | h <;> rw [h]
  · exact adjStep_rightOf _
  · exact adjStep_downOf _

theorem mazeAdj_mem_openEdges {m : Maze} {a b : Cell} (h : mazeAdj m a b) :
    canonEdge a b ∈ openEdges m := by
  obtain ⟨ha, hb, hadj, hmid⟩ := h
  obtain ⟨hcanon, hmid_eq, hends⟩ := canonEdge_spec hadj
  rw [mem_openEdges]
  constructor
  · rw [mem_interEdges]
    rcases hends with ⟨h1, h2⟩ | ⟨h1, h2⟩
    · exact ⟨by rw [h1]; exact ha, by rw [h2]; exact hb, hcanon⟩
    · exact ⟨by rw [h1]; exact hb, by rw [h2]; exact ha, hcanon⟩
  · rw [hmid_eq]
    exact hmid

theorem gridAt_carve {m : Maze} (hrect : GridRect m.grid (2 * m.h + 1) (2 * m.w + 1))
    {a b : Cell} (ha : 0 ≤ a.1 ∧ a.1 < (m.h : Int) ∧ 0 ≤ a.2 ∧ a.2 < (m.w : Int))
    (hb : 0 ≤ b.1 ∧ b.1 < (m.h : Int) ∧ 0 ≤ b.2 ∧ b.2 < (m.w : Int))
    {i j : Int} (hi : 0 ≤ i) (hj : 0 ≤ j) :
    gridAt (m.remove_wall_between a b).grid i j =
      if i = a.1 + b.1 + 1 ∧ j = a.2 + b.2 + 1 then 0 else gridAt m.grid i j := by
  rw [remove_wall_grid]
  exact gridAt_gridSet hrect (by omega)
    (by show _ < ((2 * m.h + 1 : Nat) : Int); push_cast; omega) (by omega)
    (by show _ < ((2 * m.w + 1 : Nat) : Int); push_cast; omega) 0 hi hj

theorem mazeAdj_mono_carve {m : Maze} {a b x y : Cell} (h : mazeAdj m x y) :
    mazeAdj (m.remove_wall_between a b) x y := by
  obtain ⟨hx, hy, hadj, hmid⟩ := h
  refine ⟨?_, ?_, hadj, ?_⟩
  · rw [remove_wall_cells]; exact hx
  · rw [remove_wall_cells]; exact hy
  · rw [remove_wall_grid]
    exact gridAt_gridSet_zero _ _ hmid

theorem midOf_nonneg {m : Maze} (hctx : MazeCtx m) {x y : Cell} (hx : x ∈ m.cells)
    (hy : y ∈ m.cells) : 0 ≤ (midOf x y).1 ∧ 0 ≤ (midOf x y).2 := by
  have h1 := hctx.bounds x hx
  have h2 := hctx.bounds y hy
  unfold midOf
  constructor <;> simp <;> omega

theorem mazeAdj_carve_iff {m : Maze} (hctx : MazeCtx m) {a b : Cell}
    (ha : a ∈ m.cells) (hb : b ∈ m.cells) (hadj : adjStep a b) (x y : Cell) :
    mazeAdj (m.remove_wall_between a b) x y ↔
      mazeAdj m x y ∨ ((x ∈ m.cells ∧ y ∈ m.cells ∧ adjStep x y) ∧
        ((x = a ∧ y = b) ∨ (x = b ∧ y = a))) := by
  constructor
  · rintro ⟨hx, hy, hxy, hmid⟩
    rw [remove_wall_cells] at hx hy
    obtain ⟨hm1, hm2⟩ := midOf_nonneg hctx hx hy
    rw [gridAt_carve hctx.rect (hctx.bounds a ha) (hctx.bounds b hb) hm1 hm2] at hmid
    split at hmid
    · rename_i heq
      refine Or.inr ⟨⟨hx, hy, hxy⟩, ?_⟩
      refine midOf_inj_adj hadj hxy ?_
      unfold midOf
      exact Prod.ext heq.1.symm heq.2.symm
    · exact Or.inl ⟨hx, hy, hxy, hmid⟩
  · rintro (h | ⟨⟨hx, hy, hxy⟩, (⟨rfl, rfl⟩ | ⟨rfl, rfl⟩)⟩)
    · exact mazeAdj_mono_carve h
    · refine ⟨by rw [remove_wall_cells]; exact hx, by rw [remove_wall_cells]; exact hy,
        hxy, ?_⟩
      obtain ⟨hm1, hm2⟩ := midOf_nonneg hctx hx hy
      rw [gridAt_carve hctx.rect (hctx.bounds x hx) (hctx.bounds y hy) hm1 hm2,
        if_pos ⟨rfl, rfl⟩]
    · refine ⟨by rw [remove_wall_cells]; exact hx, by rw [remove_wall_cells]; exact hy,
        hxy, ?_⟩
      obtain ⟨hm1, hm2⟩ := midOf_nonneg hctx hx hy
      rw [gridAt_carve hctx.rect (hctx.bounds y hy) (hctx.bounds x hx) hm1 hm2,
        if_pos ⟨by show x.1 + y.1 + 1 = y.1 + x.1 + 1; ring,
          by show x.2 + y.2 + 1 = y.2 + x.2 + 1; ring⟩]

theorem mazeCtx_carve {m : Maze} (hctx : MazeCtx m) (a b : Cell) :
    MazeCtx (m.remove_wall_between a b) := by
  refine ⟨?_, ?_, ?_, ?_⟩
  · rw [remove_wall_grid]
    show GridRect _ (2 * m.h + 1) (2 * m.w + 1)
    exact gridRect_gridSet hctx.rect _ _ _
  · rw [remove_wall_cells]
    exact hctx.nodup
  · rw [remove_wall_cells]
    exact hctx.bounds
  · intro x
    rw [remove_wall_cells]
    exact hctx.mem_iff x

theorem interEdges_adjStep {m : Maze} {x : Cell × Cell} (hx : x ∈ interEdges m) :
    adjStep x.1 x.2 := by
  obtain ⟨-, -, h⟩ := (mem_interEdges m x).1 hx
  rcases h with h | h <;> rw [h]
  · exact adjStep_rightOf _
  · exact adjStep_downOf _

theorem canonEdge_eq_of_interEdges {m : Maze} {a b : Cell} (hadj : adjStep a b)
    {x : Cell × Cell} (hx : x ∈ interEdges m)
    (hpair : (x.1 = a ∧ x.2 = b) ∨ (x.1 = b ∧ x.2 = a)) : x = canonEdge a b := by
  obtain ⟨-, -, hcanon⟩ := (mem_interEdges m x).1 hx
  unfold canonEdge
  split
  · rename_i hcond
    rcases hpair with ⟨h1, h2⟩ | ⟨h1, h2⟩
    · exact Prod.ext h1 h2
    · exfalso
      rw [h1, h2] at hcanon
      unfold rightOf downOf at hcond hcanon
      simp only [Prod.ext_iff] at hcond hcanon
      omega
  · rename_i hcond
    push_neg at hcond
    rcases hpair with ⟨h1, h2⟩ | ⟨h1, h2⟩
    · exfalso
      rw [h1, h2] at hcanon
      rcases hcanon with h | h
      · exact hcond.1 h
      · exact hcond.2 h
    · exact Prod.ext h1 h2

theorem canonEdge_mem_interEdges {m : Maze} {a b : Cell} (ha : a ∈ m.cells)
    (hb : b ∈ m.cells) (hadj : adjStep a b) : canonEdge a b ∈ interEdges m := by
  obtain ⟨hcanon, hmid_eq, hends⟩ := canonEdge_spec hadj
  rw [mem_interEdges]
  rcases hends with ⟨h1, h2⟩ | ⟨h1, h2⟩
  · exact ⟨by rw [h1]; exact ha, by rw [h2]; exact hb, hcanon⟩
  · exact ⟨by rw [h1]; exact hb, by rw [h2]; exact ha, hcanon⟩

theorem openEdges_carve {m : Maze} (hctx : MazeCtx m) {a b : Cell}
    (ha : a ∈ m.cells) (hb : b ∈ m.cells) (hadj : adjStep a b)
    (hwall : gridAt m.grid (midOf a b).1 (midOf a b).2 ≠ 0) :
    (∀ e, e ∈ openEdges (m.remove_wall_between a b) ↔
      e ∈ openEdges m ∨ e = canonEdge a b) ∧
    (openEdges (m.remove_wall_between a b)).length = (openEdges m).length + 1 := by
  have hie : interEdges (m.remove_wall_between a b) = interEdges m :=
    interEdges_congr (remove_wall_cells m a b)
  have hce_inter : canonEdge a b ∈ interEdges m := canonEdge_mem_interEdges ha hb hadj
  obtain ⟨hcanon, hmid_eq, hends⟩ := canonEdge_spec hadj
  have hpe : (gridAt m.grid (midOf (canonEdge a b).1 (canonEdge a b).2).1
      (midOf (canonEdge a b).1 (canonEdge a b).2).2 == 0) = false := by
    rw [hmid_eq]
    exact beq_eq_false_iff_ne.2 hwall
  have hqe : (gridAt (m.remove_wall_between a b).grid
      (midOf (canonEdge a b).1 (canonEdge a b).2).1
      (midOf (canonEdge a b).1 (canonEdge a b).2).2 == 0) = true := by
    rw [hmid_eq]
    obtain ⟨hm1, hm2⟩ := midOf_nonneg hctx ha hb
    rw [gridAt_carve hctx.rect (hctx.bounds a ha) (hctx.bounds b hb) hm1 hm2,
      if_pos ⟨rfl, rfl⟩]
    rfl
  have hagree : ∀ x ∈ interEdges m, x ≠ canonEdge a b →
      (gridAt (m.remove_wall_between a b).grid (midOf x.1 x.2).1 (midOf x.1 x.2).2 == 0)
        = (gridAt m.grid (midOf x.1 x.2).1 (midOf x.1 x.2).2 == 0) := by
    intro x hx hxe
    obtain ⟨hx1, hx2, hx3⟩ := (mem_interEdges m x).1 hx
    obtain ⟨hm1, hm2⟩ := midOf_nonneg hctx hx1 hx2
    rw [gridAt_carve hctx.rect (hctx.bounds a ha) (hctx.bounds b hb) hm1 hm2, if_neg ?_]
    rintro ⟨h1, h2⟩
    have hadjx : adjStep x.1 x.2 := interEdges_adjStep hx
    have hmeq : midOf a b = midOf x.1 x.2 := (Prod.ext h1 h2).symm
    exact hxe (canonEdge_eq_of_interEdges hadj hx (midOf_inj_adj hadj hadjx hmeq))
  constructor
  · intro e
    show e ∈ (interEdges (m.remove_wall_between a b)).filter _ ↔
      e ∈ (interEdges m).filter _ ∨ e = canonEdge a b
    rw [hie]
    exact mem_filter_update hce_inter hpe hqe hagree e
  · show ((interEdges (m.remove_wall_between a b)).filter _).length =
      ((interEdges m).filter _).length + 1
    rw [hie]
    exact length_filter_update (interEdges_nodup hctx.nodup) hce_inter hpe hqe hagree

/-! ## Backtracker invariant preservation -/

theorem btInv_start {m : Maze} (hctx : MazeCtx m) (hopen : openEdges m = [])
    {start : Cell} (hs : start ∈ m.cells) (k : Nat) :
    BTInv ⟨m, [start], [start], k⟩ := by
  refine ⟨hctx, List.nodup_singleton _, List.nodup_singleton _, ?_, ?_, ?_, ?_, ?_, ?_, ?_⟩
  · intro x hx
    exact hx
  · intro x hx
    rw [List.mem_singleton] at hx
    subst hx
    exact hs
  · intro v hv hnv u _ _
    exact absurd hv hnv
  · intro e he
    rw [hopen] at he
    cases he
  · rw [hopen]
    rfl
  · intro x hx y hy
    rw [List.mem_singleton] at hx hy
    subst hx
    subst hy
    exact Relation.ReflTransGen.refl
  · intro e he
    rw [hopen] at he
    cases he

theorem mazeAdj_vis {s : BTState} (hinv : BTInv s) {x y : Cell}
    (hxy : mazeAdj s.maze x y) : x ∈ s.visited ∧ y ∈ s.visited := by
  have hoe := mazeAdj_mem_openEdges hxy
  obtain ⟨hv1, hv2⟩ := hinv.open_sub _ hoe
  obtain ⟨-, -, hends⟩ := canonEdge_spec hxy.2.2.1
  rcases hends with ⟨h1, h2⟩ | ⟨h1, h2⟩
  · exact ⟨h1 ▸ hv1, h2 ▸ hv2⟩
  · exact ⟨h2 ▸ hv2, h1 ▸ hv1⟩

theorem rtg_mazeAdj_vis {s : BTState} (hinv : BTInv s) {x y : Cell}
    (h : Relation.ReflTransGen (mazeAdj s.maze) x y) (hne : x ≠ y) : y ∈ s.visited := by
  rcases h.cases_tail with h' | ⟨c, _, hcy⟩
  · exact absurd h'.symm hne
  · exact (mazeAdj_vis hinv hcy).2

theorem btInv_carve {s : BTState} (hinv : BTInv s) {cell nb : Cell}
    (hcell : cell ∈ s.stack)
    (hnb : s.maze.in_bounds_cell nb.1 nb.2 = true) (hnbv : nb ∉ s.visited)
    (hadj : adjStep cell nb) (k' : Nat) :
    BTInv ⟨s.maze.remove_wall_between cell nb, nb :: s.visited, s.stack ++ [nb], k'⟩ := by
  have hcellv : cell ∈ s.visited := hinv.stack_sub _ hcell
  have hcellc : cell ∈ s.maze.cells := hinv.vis_sub _ hcellv
  have hnbc : nb ∈ s.maze.cells := (hinv.ctx.mem_iff nb).1 hnb
  have hne : cell ≠ nb := fun hc => hnbv (hc ▸ hcellv)
  have hwall : gridAt s.maze.grid (midOf cell nb).1 (midOf cell nb).2 ≠ 0 := by
    intro h0
    have hoe : canonEdge cell nb ∈ openEdges s.maze :=
      mazeAdj_mem_openEdges ⟨hcellc, hnbc, hadj, h0⟩
    obtain ⟨hv1, hv2⟩ := hinv.open_sub _ hoe
    obtain ⟨-, -, hends⟩ := canonEdge_spec hadj
    rcases hends with ⟨h1, h2⟩ | ⟨h1, h2⟩
    · exact hnbv (h2 ▸ hv2)
    · exact hnbv (h1 ▸ hv1)
  obtain ⟨hmem_iff, hlen⟩ := openEdges_carve hinv.ctx hcellc hnbc hadj hwall
  have hnbs : nb ∉ s.stack := fun hc => hnbv (hinv.stack_sub _ hc)
  obtain ⟨hcanon, hmid_eq, hends⟩ := canonEdge_spec hadj
  have hexc_old : ∀ e x y, mazeAdjExc (s.maze.remove_wall_between cell nb) e x y →
      midOf e.1 e.2 = midOf cell nb →
      mazeAdj s.maze x y := by
    rintro e x y ⟨hxy, hmid⟩ hmide
    rcases (mazeAdj_carve_iff hinv.ctx hcellc hnbc hadj x y).1 hxy with h | ⟨⟨hx, hy, hxy'⟩, hp⟩
    · exact h
    · exfalso
      apply hmid
      rw [hmide]
      rcases hp with ⟨rfl, rfl⟩ | ⟨rfl, rfl⟩
      · rfl
      · exact midOf_comm _ _
  refine ⟨mazeCtx_carve hinv.ctx cell nb, List.nodup_cons.2 ⟨hnbv, hinv.vis_nodup⟩, ?_, ?_,
    ?_, ?_, ?_, ?_, ?_, ?_⟩
  · exact hinv.stack_nodup.append (List.nodup_singleton _)
      (fun x hx hx' => hnbs ((List.mem_singleton.1 hx') ▸ hx))
  · intro x hx
    rcases List.mem_append.1 hx with h | h
    · exact List.mem_cons_of_mem _ (hinv.stack_sub _ h)
    · rw [List.mem_singleton] at h
      subst h
      exact List.mem_cons_self _ _
  · intro x hx
    rw [remove_wall_cells]
    rcases List.mem_cons.1 hx with rfl | h
    · exact hnbc
    · exact hinv.vis_sub _ h
  · intro v hv hnv u hadju hucells
    rw [remove_wall_cells] at hucells
    rcases List.mem_cons.1 hv with rfl | hv'
    · exact absurd (List.mem_append.2 (Or.inr (List.mem_singleton.2 rfl))) hnv
    · have hvs : v ∉ s.stack := fun hc => hnv (List.mem_append.2 (Or.inl hc))
      exact List.mem_cons_of_mem _ (hinv.closed v hv' hvs u hadju hucells)
  · intro e he
    rcases (hmem_iff e).1 he with h | rfl
    · obtain ⟨h1, h2⟩ := hinv.open_sub _ h
      exact ⟨List.mem_cons_of_mem _ h1, List.mem_cons_of_mem _ h2⟩
    · rcases hends with ⟨h1, h2⟩ | ⟨h1, h2⟩
      · exact ⟨by rw [h1]; exact List.mem_cons_of_mem _ hcellv,
          by rw [h2]; exact List.mem_cons_self _ _⟩
      · exact ⟨by rw [h1]; exact List.mem_cons_self _ _,
          by rw [h2]; exact List.mem_cons_of_mem _ hcellv⟩
  · show (openEdges (s.maze.remove_wall_between cell nb)).length + 1 =
      (nb :: s.visited).length
    rw [hlen, List.length_cons, ← hinv.count]
  · have hlift : ∀ x y, Relation.ReflTransGen (mazeAdj s.maze) x y →
        Relation.ReflTransGen (mazeAdj (s.maze.remove_wall_between cell nb)) x y :=
      fun x y h => h.mono (fun a b hab => mazeAdj_mono_carve hab)
    have hcn : mazeAdj (s.maze.remove_wall_between cell nb) cell nb :=
      (mazeAdj_carve_iff hinv.ctx hcellc hnbc hadj cell nb).2
        (Or.inr ⟨⟨hcellc, hnbc, hadj⟩, Or.inl ⟨rfl, rfl⟩⟩)
    intro x hx y hy
    rcases List.mem_cons.1 hx with rfl | hx'
    · rcases List.mem_cons.1 hy with rfl | hy'
      · exact Relation.ReflTransGen.refl
      · exact (Relation.ReflTransGen.single
          (mazeAdj_symm hcn)).trans (hlift _ _ (hinv.conn cell hcellv y hy'))
    · rcases List.mem_cons.1 hy with rfl | hy'
      · exact (hlift _ _ (hinv.conn x hx' cell hcellv)).trans
          (Relation.ReflTransGen.single hcn)
      · exact hlift _ _ (hinv.conn x hx' y hy')
  · intro e he hreach
    rcases (hmem_iff e).1 he with holde | rfl
    · have hS : ∀ x y, mazeAdjExc (s.maze.remove_wall_between cell nb) e x y →
          mazeAdjExc s.maze e x y ∨ (x = cell ∧ y = nb) ∨ (x = nb ∧ y = cell) := by
        rintro x y ⟨hxy, hmid⟩
        rcases (mazeAdj_carve_iff hinv.ctx hcellc hnbc hadj x y).1 hxy with h | ⟨-, hp⟩
        · exact Or.inl ⟨h, hmid⟩
        · exact Or.inr hp
      have he1 : e.1 ∈ s.visited := (hinv.open_sub _ holde).1
      have he2 : e.2 ∈ s.visited := (hinv.open_sub _ holde).2
      rcases reflTransGen_union_pair hS hreach with h | ⟨h1, h2⟩ | ⟨h1, h2⟩
      · exact hinv.bridges e holde h
      · have h2' : Relation.ReflTransGen (mazeAdj s.maze) nb e.2 :=
          h2.mono (fun a b hab => hab.1)
        rcases h2'.cases_head with h' | ⟨c, hc, -⟩
        · exact hnbv (h' ▸ he2)
        · exact hnbv (mazeAdj_vis hinv hc).1
      · have h2' : Relation.ReflTransGen (mazeAdj s.maze) cell e.2 :=
          h2.mono (fun a b hab => hab.1)
        have h1' : Relation.ReflTransGen (mazeAdj s.maze) e.1 nb :=
          h1.mono (fun a b hab => hab.1)
        rcases h1'.cases_tail with h' | ⟨c, -, hc⟩
        · exact hnbv (h'.symm ▸ he1)
        · exact hnbv (mazeAdj_vis hinv hc).2
    · have hstep : ∀ x y,
          mazeAdjExc (s.maze.remove_wall_between cell nb) (canonEdge cell nb) x y →
          mazeAdj s.maze x y := fun x y hxy => hexc_old _ x y hxy hmid_eq
      have hr : Relation.ReflTransGen (mazeAdj s.maze) (canonEdge cell nb).1
          (canonEdge cell nb).2 := hreach.mono hstep
      rcases hends with ⟨h1, h2⟩ | ⟨h1, h2⟩
      · rw [h1, h2] at hr
        rcases hr.cases_tail with h' | ⟨c, -, hc⟩
        · exact hne h'.symm
        · exact hnbv (mazeAdj_vis hinv hc).2
      · rw [h1, h2] at hr
        rcases hr.cases_head with h' | ⟨c, hc, -⟩
        · exact hne h'.symm
        · exact hnbv (mazeAdj_vis hinv hc).1

theorem btInv_pop {s : BTState} (hinv : BTInv s) {idx : Nat} (hidx : idx < s.stack.length)
    (hnonb : btNeighbors s.maze s.visited (s.stack.getD idx default) = []) (k' : Nat) :
    BTInv ⟨s.maze, s.visited, s.stack.eraseIdx idx, k'⟩ := by
  refine ⟨hinv.ctx, hinv.vis_nodup, List.Nodup.eraseIdx idx hinv.stack_nodup, ?_, hinv.vis_sub,
    ?_, hinv.open_sub, hinv.count, hinv.conn, hinv.bridges⟩
  · intro x hx
    exact hinv.stack_sub _ (List.mem_of_mem_eraseIdx hx)
  · intro v hv hnv u hadju hucells
    by_cases hvs : v ∈ s.stack
    · have hvidx : v = s.stack.getD idx default := by
        obtain ⟨i, hi, hiv⟩ := List.getElem_of_mem hvs
        by_cases hii : i = idx
        · subst hii
          rw [List.getD_eq_getElem _ _ hi, hiv]
        · exact absurd (List.mem_eraseIdx_iff_getElem.2 ⟨i, hi, hii, hiv⟩) hnv
      by_cases huv : u ∈ s.visited
      · exact huv
      · exfalso
        have hub : s.maze.in_bounds_cell u.1 u.2 = true := (hinv.ctx.mem_iff u).2 hucells
        have : u ∈ btNeighbors s.maze s.visited (s.stack.getD idx default) :=
          mem_btNeighbors.2 ⟨hub, huv, by rw [← hvidx]; exact hadju⟩
        rw [hnonb] at this
        cases this
    · exact hinv.closed v hv hvs u hadju hucells

theorem btLoop_inv (rng : Rng) (strategy : Strategy) :
    ∀ (fuel : Nat) (s s' : BTState), BTInv s → btLoop rng strategy fuel s = some s' →
      BTInv s' := by
  intro fuel
  induction fuel with
  | zero =>
    intro s s' hinv hbt
    by_cases hstk : s.stack = []
    · rw [btLoop_zero_empty rng strategy s hstk] at hbt
      obtain rfl := Option.some_inj.1 hbt
      exact hinv
    · rw [btLoop_zero_ne rng strategy s hstk] at hbt
      cases hbt
  | succ fuel ih =>
    intro s s' hinv hbt
    by_cases hstk : s.stack = []
    · rw [btLoop_succ_empty rng strategy fuel s hstk] at hbt
      obtain rfl := Option.some_inj.1 hbt
      exact hinv
    · have hlen : 0 < s.stack.length := List.length_pos.2 hstk
      have hidx := chooseIdx_lt strategy rng s.k s.stack.length hlen
      rcases hnb : btNeighbors s.maze s.visited
          (s.stack.getD (chooseIdx strategy rng s.k s.stack.length).1 default) with
        _ | ⟨nb0, rest⟩
      · rw [btLoop_succ_no_nb rng strategy fuel s hstk hnb] at hbt
        exact ih _ _ (btInv_pop hinv hidx hnb _) hbt
      · rw [btLoop_succ_carve rng strategy fuel s hstk hnb] at hbt
        have hmem : pyChoice rng (chooseIdx strategy rng s.k s.stack.length).2 (nb0 :: rest)
            ∈ btNeighbors s.maze s.visited
              (s.stack.getD (chooseIdx strategy rng s.k s.stack.length).1 default) := by
          rw [hnb]
          exact pyChoice_mem _ _ _ (by simp)
        obtain ⟨hb1, hb2, hb3⟩ := mem_btNeighbors.1 hmem
        exact ih _ _ (btInv_carve hinv
          (getD_mem s.stack _ default hidx) hb1 hb2 hb3 _) hbt

theorem btLoop_some_empty (rng : Rng) (strategy : Strategy) :
    ∀ (fuel : Nat) (s s' : BTState), btLoop rng strategy fuel s = some s' →
      s'.stack = [] := by
  intro fuel
  induction fuel with
  | zero =>
    intro s s' hbt
    by_cases hstk : s.stack = []
    · rw [btLoop_zero_empty rng strategy s hstk] at hbt
      obtain rfl := Option.some_inj.1 hbt
      exact hstk
    · rw [btLoop_zero_ne rng strategy s hstk] at hbt
      cases hbt
  | succ fuel ih =>
    intro s s' hbt
    by_cases hstk : s.stack = []
    · rw [btLoop_succ_empty rng strategy fuel s hstk] at hbt
      obtain rfl := Option.some_inj.1 hbt
      exact hstk
    · rcases hnb : btNeighbors s.maze s.visited
          (s.stack.getD (chooseIdx strategy rng s.k s.stack.length).1 default) with
        _ | ⟨nb0, rest⟩
      · rw [btLoop_succ_no_nb rng strategy fuel s hstk hnb] at hbt
        exact ih _ _ hbt
      · rw [btLoop_succ_carve rng strategy fuel s hstk hnb] at hbt
        exact ih _ _ hbt

theorem btLoop_cells (rng : Rng) (strategy : Strategy) :
    ∀ (fuel : Nat) (s s' : BTState), btLoop rng strategy fuel s = some s' →
      s'.maze.cells = s.maze.cells := by
  intro fuel
  induction fuel with
  | zero =>
    intro s s' hbt
    by_cases hstk : s.stack = []
    · rw [btLoop_zero_empty rng strategy s hstk] at hbt
      obtain rfl := Option.some_inj.1 hbt
      rfl
    · rw [btLoop_zero_ne rng strategy s hstk] at hbt
      cases hbt
  | succ fuel ih =>
    intro s s' hbt
    by_cases hstk : s.stack = []
    · rw [btLoop_succ_empty rng strategy fuel s hstk] at hbt
      obtain rfl := Option.some_inj.1 hbt
      rfl
    · rcases hnb : btNeighbors s.maze s.visited
          (s.stack.getD (chooseIdx strategy rng s.k s.stack.length).1 default) with
        _ | ⟨nb0, rest⟩
      · rw [btLoop_succ_no_nb rng strategy fuel s hstk hnb] at hbt
        exact ih { s with
          stack := s.stack.eraseIdx (chooseIdx strategy rng s.k s.stack.length).1,
          k := (chooseIdx strategy rng s.k s.stack.length).2 } s' hbt
      · rw [btLoop_succ_carve rng strategy fuel s hstk hnb] at hbt
        rw [ih _ _ hbt]
        exact remove_wall_cells _ _ _

theorem btLoop_terminates (rng : Rng) (strategy : Strategy) :
    ∀ (fuel : Nat) (s : BTState), BTInv s →
      2 * (s.maze.cells.length - s.visited.length) + s.stack.length ≤ fuel →
      ∃ s', btLoop rng strategy fuel s = some s' := by
  intro fuel
  induction fuel with
  | zero =>
    intro s hinv hm
    have hstk : s.stack = [] := by
      by_contra hne
      have : 0 < s.stack.length := List.length_pos.2 hne
      omega
    exact ⟨s, btLoop_zero_empty rng strategy s hstk⟩
  | succ fuel ih =>
    intro s hinv hm
    by_cases hstk : s.stack = []
    · exact ⟨s, btLoop_succ_empty rng strategy fuel s hstk⟩
    · have hlen : 0 < s.stack.length := List.length_pos.2 hstk
      have hidx := chooseIdx_lt strategy rng s.k s.stack.length hlen
      rcases hnb : btNeighbors s.maze s.visited
          (s.stack.getD (chooseIdx strategy rng s.k s.stack.length).1 default) with
        _ | ⟨nb0, rest⟩
      · have hinv' := btInv_pop hinv hidx hnb
          (chooseIdx strategy rng s.k s.stack.length).2
        have hm' : 2 * (s.maze.cells.length - s.visited.length) +
            (s.stack.eraseIdx (chooseIdx strategy rng s.k s.stack.length).1).length ≤
              fuel := by
          rw [List.length_eraseIdx, if_pos hidx]
          omega
        obtain ⟨s', hs'⟩ := ih _ hinv' hm'
        exact ⟨s', by rw [btLoop_succ_no_nb rng strategy fuel s hstk hnb]; exact hs'⟩
      · have hmem : pyChoice rng (chooseIdx strategy rng s.k s.stack.length).2 (nb0 :: rest)
            ∈ btNeighbors s.maze s.visited
              (s.stack.getD (chooseIdx strategy rng s.k s.stack.length).1 default) := by
          rw [hnb]
          exact pyChoice_mem _ _ _ (by simp)
        obtain ⟨hb1, hb2, hb3⟩ := mem_btNeighbors.1 hmem
        have hinv' := btInv_carve hinv (getD_mem s.stack _ default hidx) hb1 hb2 hb3
          ((chooseIdx strategy rng s.k s.stack.length).2 + 1)
        have hvle : (pyChoice rng (chooseIdx strategy rng s.k s.stack.length).2
            (nb0 :: rest) :: s.visited).length ≤ s.maze.cells.length := by
          have hsub : ∀ x ∈ (pyChoice rng (chooseIdx strategy rng s.k s.stack.length).2
              (nb0 :: rest) :: s.visited), x ∈ s.maze.cells := by
            intro x hx
            have := hinv'.vis_sub x hx
            rwa [remove_wall_cells] at this
          exact (hinv'.vis_nodup.subperm hsub).length_le
        have hm' : 2 * ((s.maze.remove_wall_between
                (s.stack.getD (chooseIdx strategy rng s.k s.stack.length).1 default)
                (pyChoice rng (chooseIdx strategy rng s.k s.stack.length).2
                  (nb0 :: rest))).cells.length -
              (pyChoice rng (chooseIdx strategy rng s.k s.stack.length).2 (nb0 :: rest)
                :: s.visited).length) +
            (s.stack ++ [pyChoice rng (chooseIdx strategy rng s.k s.stack.length).2
              (nb0 :: rest)]).length ≤ fuel := by
          rw [remove_wall_cells, List.length_append, List.length_cons]
          simp only [List.length_cons] at hvle
          simp only [List.length_singleton]
          omega
        obtain ⟨s', hs'⟩ := ih _ hinv' hm'
        exact ⟨s', by rw [btLoop_succ_carve rng strategy fuel s hstk hnb]; exact hs'⟩

/-! ## From the final backtracker state to a spanning tree -/

theorem btFinal_visited {s : BTState} (hinv : BTInv s) (hstk : s.stack = [])
    (hcc : ∀ a ∈ s.maze.cells, ∀ b ∈ s.maze.cells,
      Relation.ReflTransGen (allowedAdj s.maze) a b) :
    ∀ c ∈ s.maze.cells, c ∈ s.visited := by
  have hvne : s.visited ≠ [] := by
    intro h
    have := hinv.count
    rw [h] at this
    simp at this
  obtain ⟨x0, hx0⟩ := List.exists_mem_of_ne_nil s.visited hvne
  have hx0c : x0 ∈ s.maze.cells := hinv.vis_sub _ hx0
  have main : ∀ c : Cell, Relation.ReflTransGen (allowedAdj s.maze) x0 c →
      c ∈ s.visited := by
    intro c hreach
    induction hreach with
    | refl => exact hx0
    | tail _ hstep ih =>
      obtain ⟨hy, hc', hadj⟩ := hstep
      exact hinv.closed _ ih (by rw [hstk]; exact List.not_mem_nil _) _ hadj hc'
  intro c hc
  exact main c (hcc x0 hx0c c hc)

theorem bridges_isAcyclic {m : Maze}
    (hbr : ∀ e ∈ openEdges m, ¬ Relation.ReflTransGen (mazeAdjExc m e) e.1 e.2) :
    (mazeGraph m).IsAcyclic := by
  rw [SimpleGraph.isAcyclic_iff_forall_adj_isBridge]
  intro v w hvw
  rw [SimpleGraph.isBridge_iff]
  refine ⟨hvw, ?_⟩
  intro hreach
  rw [SimpleGraph.reachable_iff_reflTransGen] at hreach
  have hvw' : mazeAdj m v w := hvw
  have hce := mazeAdj_mem_openEdges hvw'
  obtain ⟨hcanon, hmid_eq, hends⟩ := canonEdge_spec hvw'.2.2.1
  have hstep : ∀ x y, ((mazeGraph m) \ SimpleGraph.fromEdgeSet {s(v, w)}).Adj x y →
      mazeAdjExc m (canonEdge v w) x y := by
    intro x y hxy
    rw [SimpleGraph.sdiff_adj, SimpleGraph.fromEdgeSet_adj] at hxy
    obtain ⟨h1, h2⟩ := hxy
    have h1' : mazeAdj m x y := h1
    refine ⟨h1', ?_⟩
    rw [hmid_eq]
    intro hmid
    have hxa : adjStep x y := h1'.2.2.1
    have hxne : x ≠ y := fun hc => adjStep_irrefl _ (hc ▸ hxa)
    rcases midOf_inj_adj hvw'.2.2.1 hxa hmid.symm with ⟨rfl, rfl⟩ | ⟨rfl, rfl⟩
    · exact h2 ⟨Set.mem_singleton _, hxne⟩
    · exact h2 ⟨by rw [Sym2.eq_swap]; exact Set.mem_singleton _, hxne⟩
  have hreach' := hreach.mono hstep
  have hsymm : Symmetric (mazeAdjExc m (canonEdge v w)) := by
    rintro x y ⟨hxy, hmid⟩
    exact ⟨mazeAdj_symm hxy, by rw [midOf_comm]; exact hmid⟩
  rcases hends with ⟨h1, h2⟩ | ⟨h1, h2⟩
  · exact hbr _ hce (by rw [h1, h2]; exact hreach')
  · exact hbr _ hce (by rw [h1, h2]; exact Relation.ReflTransGen.symmetric hsymm hreach')

theorem btFinal_spanning {s : BTState} (hinv : BTInv s) (hstk : s.stack = [])
    (hcc : ∀ a ∈ s.maze.cells, ∀ b ∈ s.maze.cells,
      Relation.ReflTransGen (allowedAdj s.maze) a b) :
    SpanningTree s.maze := by
  have hvisall := btFinal_visited hinv hstk hcc
  have hlen : s.visited.length = s.maze.cells.length :=
    le_antisymm ((hinv.vis_nodup.subperm (fun x hx => hinv.vis_sub x hx)).length_le)
      ((hinv.ctx.nodup.subperm (fun x hx => hvisall x hx)).length_le)
  refine ⟨?_, bridges_isAcyclic hinv.bridges, ?_⟩
  · intro a ha b hb
    exact (SimpleGraph.reachable_iff_reflTransGen a b).2
      (hinv.conn a (hvisall a ha) b (hvisall b hb))
  · rw [hinv.count, hlen]

theorem mazeCtx_init (w h : Nat) (mask : Option (Int → Int → Bool)) :
    MazeCtx (Maze.init w h mask) := by
  refine ⟨init_grid_rect w h mask, cells_init_nodup w h mask, ?_, ?_⟩
  · intro x hx
    obtain ⟨h1, h2, h3, h4, -⟩ := (mem_cells_init_iff w h mask x).1 hx
    exact ⟨h1, h2, h3, h4⟩
  · exact in_bounds_cell_init w h mask

theorem btGenerate_spanning (m : Maze) (hctx : MazeCtx m) (hopen : openEdges m = [])
    (hcne : m.cells ≠ [])
    (hcc : ∀ a ∈ m.cells, ∀ b ∈ m.cells, Relation.ReflTransGen (allowedAdj m) a b)
    (seedStream : Nat → Rng) (rngIn : Rng) (seed : Option Nat) (strategy : Strategy)
    (fuel : Nat) (m' : Maze)
    (h : m.generate_recursive_backtracker seedStream rngIn seed strategy fuel = some m') :
    m'.cells = m.cells ∧ SpanningTree m' := by
  unfold Maze.generate_recursive_backtracker at h
  rw [if_neg hcne] at h
  revert h
  generalize ((match seed with | some sd => seedStream sd | none => rngIn) : Rng) = rng
  intro h
  obtain ⟨s', hbtl, rfl⟩ := Option.map_eq_some'.1 h
  have hstart := pyChoice_mem rng 0 m.cells hcne
  have hinv0 := btInv_start hctx hopen hstart 1
  have hinv' := btLoop_inv _ strategy fuel _ _ hinv0 hbtl
  have hstk' := btLoop_some_empty _ strategy fuel _ _ hbtl
  have hcells := btLoop_cells _ strategy fuel _ _ hbtl
  refine ⟨hcells, ?_⟩
  refine btFinal_spanning hinv' hstk' ?_
  intro a ha b hb
  rw [hcells] at ha hb
  refine (hcc a ha b hb).mono ?_
  rintro x y ⟨h1, h2, h3⟩
  exact ⟨by rw [hcells]; exact h1, by rw [hcells]; exact h2, h3⟩

theorem btGenerate_terminates_aux (m : Maze) (hctx : MazeCtx m) (hopen : openEdges m = [])
    (hcne : m.cells ≠ []) (rng : Rng) (strategy : Strategy) :
    ∃ s', btLoop rng strategy (2 * m.cells.length)
      ⟨m, [pyChoice rng 0 m.cells], [pyChoice rng 0 m.cells], 1⟩ = some s' := by
  apply btLoop_terminates
  · exact btInv_start hctx hopen (pyChoice_mem rng 0 m.cells hcne) 1
  · show 2 * (m.cells.length - 1) + 1 ≤ 2 * m.cells.length
    have : 0 < m.cells.length := List.length_pos.2 hcne
    omega

/-- C5: the backtracker terminates: the frontier loop ends with an empty
frontier after finitely many iterations (fuel `2·|cells|` always suffices,
because each carve adds one previously-unvisited cell and each backtrack
removes one frontier entry), and whenever the loop returns, the frontier of
the returned state is empty. -/
theorem C5_backtracker_terminates (w h : Nat) (mask : Option (Int → Int → Bool))
    (seedStream : Nat → Rng) (rngIn : Rng) (seed : Option Nat) (strategy : Strategy) :
    (∃ m', (Maze.init w h mask).generate_recursive_backtracker seedStream rngIn seed strategy
      (2 * (Maze.init w h mask).cells.length) = some m') ∧
    (∀ (rng : Rng) (fuel : Nat) (s s' : BTState),
      btLoop rng strategy fuel s = some s' → s'.stack = []) := by
  constructor
  · by_cases hc : (Maze.init w h mask).cells = []
    · refine ⟨Maze.init w h mask, ?_⟩
      unfold Maze.generate_recursive_backtracker
      rw [if_pos hc]
    · rcases seed with _ | sd
      · obtain ⟨s', hs'⟩ := btGenerate_terminates_aux _ (mazeCtx_init w h mask)
          (openEdges_init w h mask) hc rngIn strategy
        refine ⟨s'.maze, ?_⟩
        unfold Maze.generate_recursive_backtracker
        rw [if_neg hc]
        show (btLoop rngIn strategy _ _).map _ = _
        rw [hs']
        rfl
      · obtain ⟨s', hs'⟩ := btGenerate_terminates_aux _ (mazeCtx_init w h mask)
          (openEdges_init w h mask) hc (seedStream sd) strategy
        refine ⟨s'.maze, ?_⟩
        unfold Maze.generate_recursive_backtracker
        rw [if_neg hc]
        show (btLoop (seedStream sd) strategy _ _).map _ = _
        rw [hs']
        rfl
  · intro rng fuel s s' hbt
    exact btLoop_some_empty rng strategy fuel s s' hbt

/-! ## Shuffle permutes its input -/

theorem cons_set_perm {α : Type} (d a : α) :
    ∀ (t : List α) (k : Nat), k < t.length → (t.getD k d :: t.set k a).Perm (a :: t) := by
  intro t
  induction t with
  | nil =>
    intro k hk
    cases hk
  | cons b t' ih =>
    intro k hk
    cases k with
    | zero =>
      show (b :: a :: t').Perm (a :: b :: t')
      exact List.Perm.swap _ _ _
    | succ k' =>
      have hk' : k' < t'.length := by simpa using hk
      show (t'.getD k' d :: b :: t'.set k' a).Perm (a :: b :: t')
      exact (List.Perm.swap _ _ _).trans
        ((List.Perm.cons _ (ih k' hk')).trans (List.Perm.swap _ _ _))

theorem swapAt_length {α : Type} [Inhabited α] (l : List α) (i j : Nat) :
    (swapAt l i j).length = l.length := by
  unfold swapAt
  simp

theorem swapAt_perm {α : Type} [Inhabited α] :
    ∀ (l : List α) (i j : Nat), i < l.length → j < l.length → (swapAt l i j).Perm l := by
  intro l
  induction l with
  | nil =>
    intro i j hi _
    cases hi
  | cons a t ih =>
    intro i j hi hj
    cases i with
    | zero =>
      cases j with
      | zero =>
        show (((a :: t).set 0 a).set 0 a).Perm (a :: t)
        exact List.Perm.refl _
      | succ j' =>
        have hj' : j' < t.length := by simpa using hj
        show (t.getD j' default :: t.set j' a).Perm (a :: t)
        exact cons_set_perm default a t j' hj'
    | succ i' =>
      have hi' : i' < t.length := by simpa using hi
      cases j with
      | zero =>
        show (t.getD i' default :: t.set i' a).Perm (a :: t)
        exact cons_set_perm default a t i' hi'
      | succ j' =>
        have hj' : j' < t.length := by simpa using hj
        show (a :: (t.set i' (t.getD j' default)).set j' (t.getD i' default)).Perm (a :: t)
        exact List.Perm.cons _ (ih i' j' hi' hj')

theorem shuffleAux_perm {α : Type} [Inhabited α] (rng : Rng) :
    ∀ (i k : Nat) (l : List α), i < l.length → ((shuffleAux rng k i l).1).Perm l := by
  intro i
  induction i with
  | zero =>
    intro k l _
    exact List.Perm.refl _
  | succ i ih =>
    intro k l hi
    show ((shuffleAux rng (k + 1) i (swapAt l (i + 1) (rng k % (i + 2)))).1).Perm l
    have hmod : rng k % (i + 2) < l.length :=
      lt_of_le_of_lt (Nat.le_of_lt_succ (Nat.mod_lt _ (by omega))) hi
    have hswap := swapAt_perm l (i + 1) (rng k % (i + 2)) hi hmod
    have hlen : i < (swapAt l (i + 1) (rng k % (i + 2))).length := by
      rw [swapAt_length]
      omega
    exact (ih (k + 1) _ hlen).trans hswap

theorem pyShuffle_perm {α : Type} [Inhabited α] (rng : Rng) (k : Nat) (l : List α) :
    ((pyShuffle rng k l).1).Perm l := by
  unfold pyShuffle
  cases l with
  | nil => exact List.Perm.refl _
  | cons a t =>
    apply shuffleAux_perm
    simp

/-! ## The carve traces touch only allowed cells -/

theorem btLoopCarves_zero (rng : Rng) (strategy : Strategy) (s : BTState) :
    btLoopCarves rng strategy 0 s = [] := rfl

theorem btLoopCarves_succ_empty (rng : Rng) (strategy : Strategy) (fuel : Nat) (s : BTState)
    (h : s.stack = []) : btLoopCarves rng strategy (fuel + 1) s = [] := by
  simp [btLoopCarves, h]

theorem btLoopCarves_succ_no_nb (rng : Rng) (strategy : Strategy) (fuel : Nat) (s : BTState)
    (h : ¬s.stack = [])
    (hnb : btNeighbors s.maze s.visited
      (s.stack.getD (chooseIdx strategy rng s.k s.stack.length).1 default) = []) :
    btLoopCarves rng strategy (fuel + 1) s = btLoopCarves rng strategy fuel
      { s with stack := s.stack.eraseIdx (chooseIdx strategy rng s.k s.stack.length).1,
               k := (chooseIdx strategy rng s.k s.stack.length).2 } := by
  have hnb' := hnb
  rw [List.getD_eq_getElem?_getD] at hnb'
  simp [btLoopCarves, h, hnb']

theorem btLoopCarves_succ_carve (rng : Rng) (strategy : Strategy) (fuel : Nat) (s : BTState)
    (h : ¬s.stack = []) {nb0 : Cell} {rest : List Cell}
    (hnb : btNeighbors s.maze s.visited
      (s.stack.getD (chooseIdx strategy rng s.k s.stack.length).1 default) = nb0 :: rest) :
    btLoopCarves rng strategy (fuel + 1) s =
      (s.stack.getD (chooseIdx strategy rng s.k s.stack.length).1 default,
        pyChoice rng (chooseIdx strategy rng s.k s.stack.length).2 (nb0 :: rest)) ::
      btLoopCarves rng strategy fuel
      { maze := s.maze.remove_wall_between
          (s.stack.getD (chooseIdx strategy rng s.k s.stack.length).1 default)
          (pyChoice rng (chooseIdx strategy rng s.k s.stack.length).2 (nb0 :: rest)),
        visited := pyChoice rng (chooseIdx strategy rng s.k s.stack.length).2 (nb0 :: rest)
          :: s.visited,
        stack := s.stack ++
          [pyChoice rng (chooseIdx strategy rng s.k s.stack.length).2 (nb0 :: rest)],
        k := (chooseIdx strategy rng s.k s.stack.length).2 + 1 } := by
  have hnb' := hnb
  rw [List.getD_eq_getElem?_getD] at hnb'
  simp [btLoopCarves, h, hnb']

theorem btLoopCarves_endpoints (rng : Rng) (strategy : Strategy) :
    ∀ (fuel : Nat) (s : BTState), BTInv s →
      ∀ e ∈ btLoopCarves rng strategy fuel s,
        e.1 ∈ s.maze.cells ∧ e.2 ∈ s.maze.cells := by
  intro fuel
  induction fuel with
  | zero =>
    intro s _ e he
    rw [btLoopCarves_zero] at he
    cases he
  | succ fuel ih =>
    intro s hinv e he
    by_cases hstk : s.stack = []
    · rw [btLoopCarves_succ_empty rng strategy fuel s hstk] at he
      cases he
    · have hlen : 0 < s.stack.length := List.length_pos.2 hstk
      have hidx := chooseIdx_lt strategy rng s.k s.stack.length hlen
      rcases hnb : btNeighbors s.maze s.visited
          (s.stack.getD (chooseIdx strategy rng s.k s.stack.length).1 default) with
        _ | ⟨nb0, rest⟩
      · rw [btLoopCarves_succ_no_nb rng strategy fuel s hstk hnb] at he
        exact ih _ (btInv_pop hinv hidx hnb _) e he
      · rw [btLoopCarves_succ_carve rng strategy fuel s hstk hnb] at he
        have hmem : pyChoice rng (chooseIdx strategy rng s.k s.stack.length).2 (nb0 :: rest)
            ∈ btNeighbors s.maze s.visited
              (s.stack.getD (chooseIdx strategy rng s.k s.stack.length).1 default) := by
          rw [hnb]
          exact pyChoice_mem _ _ _ (by simp)
        obtain ⟨hb1, hb2, hb3⟩ := mem_btNeighbors.1 hmem
        have hcellc : s.stack.getD (chooseIdx strategy rng s.k s.stack.length).1 default
            ∈ s.maze.cells :=
          hinv.vis_sub _ (hinv.stack_sub _ (getD_mem s.stack _ default hidx))
        have hnbc := (hinv.ctx.mem_iff _).1 hb1
        rcases List.mem_cons.1 he with rfl | he'
        · exact ⟨hcellc, hnbc⟩
        · have := ih _ (btInv_carve hinv (getD_mem s.stack _ default hidx) hb1 hb2 hb3 _)
            e he'
          rwa [remove_wall_cells] at this

theorem mem_kruskalEdges_iff (m : Maze) (e : Cell × Cell) :
    e ∈ m.kruskalEdges ↔ e.1 ∈ m.cells ∧ m.in_bounds_cell e.2.1 e.2.2 = true ∧
      (e.2 = rightOf e.1 ∨ e.2 = downOf e.1) := by
  unfold Maze.kruskalEdges
  rw [foldl_append_eq, List.nil_append, List.mem_flatten]
  constructor
  · rintro ⟨l, hl, hel⟩
    obtain ⟨cc, hcc, rfl⟩ := List.mem_map.1 hl
    obtain ⟨d, hd, hde⟩ := List.mem_filterMap.1 hel
    by_cases hib : m.in_bounds_cell (cc.1 + d.1) (cc.2 + d.2) = true
    · rw [if_pos hib] at hde
      obtain rfl := Option.some_inj.1 hde
      refine ⟨hcc, hib, ?_⟩
      rcases List.mem_cons.1 hd with rfl | hd'
      · left
        unfold rightOf
        rw [Prod.ext_iff]
        simp
      · rcases List.mem_cons.1 hd' with rfl | hd''
        · right
          unfold downOf
          rw [Prod.ext_iff]
          simp
        · cases hd''
    · rw [if_neg hib] at hde
      cases hde
  · rintro ⟨h1, h2, h3⟩
    refine ⟨_, List.mem_map.2 ⟨e.1, h1, rfl⟩, ?_⟩
    rcases h3 with h | h
    · refine List.mem_filterMap.2 ⟨(0, 1), by simp, ?_⟩
      have heq : ((e.1.1 + (0 : Int), e.1.2 + (1 : Int)) : Cell) = e.2 := by
        rw [h]
        unfold rightOf
        rw [Prod.ext_iff]
        simp
      rw [heq, if_pos h2, Prod.mk.eta]
    · refine List.mem_filterMap.2 ⟨(1, 0), by simp, ?_⟩
      have heq : ((e.1.1 + (1 : Int), e.1.2 + (0 : Int)) : Cell) = e.2 := by
        rw [h]
        unfold downOf
        rw [Prod.ext_iff]
        simp
      rw [heq, if_pos h2, Prod.mk.eta]

theorem kruskalLoopCarves_sub (fuel : Nat) :
    ∀ (edges : List (Cell × Cell)) (parent : Cell → Cell),
      ∀ e ∈ kruskalLoopCarves fuel edges parent, e ∈ edges := by
  intro edges
  induction edges with
  | nil =>
    intro parent e he
    cases he
  | cons ab rest ih =>
    intro parent e he
    obtain ⟨a, b⟩ := ab
    cases hu : (ufUnion fuel parent a b).1
    · have heq : kruskalLoopCarves fuel ((a, b) :: rest) parent =
          kruskalLoopCarves fuel rest (ufUnion fuel parent a b).2 := by
        simp [kruskalLoopCarves, hu]
      rw [heq] at he
      exact List.mem_cons_of_mem _ (ih _ e he)
    · have heq : kruskalLoopCarves fuel ((a, b) :: rest) parent =
          (a, b) :: kruskalLoopCarves fuel rest (ufUnion fuel parent a b).2 := by
        simp [kruskalLoopCarves, hu]
      rw [heq] at he
      rcases List.mem_cons.1 he with rfl | he'
      · exact List.mem_cons_self _ _
      · exact List.mem_cons_of_mem _ (ih _ e he')

/-- C7: no wall between two cells is ever carved if either endpoint cell is
disallowed by the mask or out of bounds: every `remove_wall_between` call
issued by either generator (the ghost carve traces) has both endpoint cells
in bounds and allowed. -/
theorem C7_carves_allowed (w h : Nat) (mask : Option (Int → Int → Bool))
    (seedStream : Nat → Rng) (rngIn1 rngIn2 : Rng) (seed1 seed2 : Option Nat)
    (strategy : Strategy) (fuel : Nat) :
    (∀ e ∈ (Maze.init w h mask).backtrackerCarves seedStream rngIn1 seed1 strategy fuel,
      (Maze.init w h mask).in_bounds_cell e.1.1 e.1.2 = true ∧
      (Maze.init w h mask).in_bounds_cell e.2.1 e.2.2 = true) ∧
    (∀ e ∈ (Maze.init w h mask).kruskalCarves seedStream rngIn2 seed2,
      (Maze.init w h mask).in_bounds_cell e.1.1 e.1.2 = true ∧
      (Maze.init w h mask).in_bounds_cell e.2.1 e.2.2 = true) := by
  constructor
  · intro e he
    unfold Maze.backtrackerCarves at he
    by_cases hc : (Maze.init w h mask).cells = []
    · rw [if_pos hc] at he
      cases he
    · rw [if_neg hc] at he
      revert he
      generalize ((match seed1 with | some sd => seedStream sd | none => rngIn1) : Rng) = rng
      intro he
      have hends := btLoopCarves_endpoints rng strategy fuel _
        (btInv_start (mazeCtx_init w h mask) (openEdges_init w h mask)
          (pyChoice_mem rng 0 _ hc) 1) e he
      exact ⟨(in_bounds_cell_init w h mask e.1).2 hends.1,
        (in_bounds_cell_init w h mask e.2).2 hends.2⟩
  · intro e he
    unfold Maze.kruskalCarves at he
    revert he
    generalize ((match seed2 with | some sd => seedStream sd | none => rngIn2) : Rng) = rng
    intro he
    have hsub := kruskalLoopCarves_sub _ _ _ e he
    have hedge : e ∈ (Maze.init w h mask).kruskalEdges :=
      (pyShuffle_perm rng 0 _).mem_iff.1 hsub
    obtain ⟨h1, h2, h3⟩ := (mem_kruskalEdges_iff _ e).1 hedge
    exact ⟨(in_bounds_cell_init w h mask e.1).2 h1, h2⟩

theorem C7_carves_allowed_witness :
    ((Maze.init 2 1 none).in_bounds_cell (((0 : Int), (0 : Int)), ((0 : Int), (1 : Int))).1.1
        (((0 : Int), (0 : Int)), ((0 : Int), (1 : Int))).1.2 = true ∧
      (Maze.init 2 1 none).in_bounds_cell (((0 : Int), (0 : Int)), ((0 : Int), (1 : Int))).2.1
        (((0 : Int), (0 : Int)), ((0 : Int), (1 : Int))).2.2 = true) ∧
    ((Maze.init 2 1 none).in_bounds_cell (((0 : Int), (0 : Int)), ((0 : Int), (1 : Int))).1.1
        (((0 : Int), (0 : Int)), ((0 : Int), (1 : Int))).1.2 = true ∧
      (Maze.init 2 1 none).in_bounds_cell (((0 : Int), (0 : Int)), ((0 : Int), (1 : Int))).2.1
        (((0 : Int), (0 : Int)), ((0 : Int), (1 : Int))).2.2 = true) :=
  ⟨(C7_carves_allowed 2 1 none (fun _ _ => 0) (fun _ => 0) (fun _ => 0) none none
      Strategy.last 4).1 (((0, 0), (0, 1))) (by decide),
    (C7_carves_allowed 2 1 none (fun _ _ => 0) (fun _ => 0) (fun _ => 0) none none
      Strategy.last 4).2 (((0, 0), (0, 1))) (by decide)⟩

theorem C5_backtracker_terminates_witness :
    (∃ m', (Maze.init 2 1 none).generate_recursive_backtracker (fun _ _ => 0) (fun _ => 0)
      none Strategy.last (2 * (Maze.init 2 1 none).cells.length) = some m') ∧
    (⟨Maze.init 2 1 none, [], [], 0⟩ : BTState).stack = [] :=
  ⟨(C5_backtracker_terminates 2 1 none (fun _ _ => 0) (fun _ => 0) none Strategy.last).1,
    (C5_backtracker_terminates 2 1 none (fun _ _ => 0) (fun _ => 0) none Strategy.last).2
      (fun _ => 0) 0 ⟨Maze.init 2 1 none, [], [], 0⟩ ⟨Maze.init 2 1 none, [], [], 0⟩ rfl⟩

/-! ## Union-find: parent chains and roots -/

theorem pIter_add (p : Cell → Cell) (m n : Nat) (x : Cell) :
    pIter p (m + n) x = pIter p n (pIter p m x) := by
  induction m generalizing x with
  | zero => rw [Nat.zero_add]; rfl
  | succ m ih =>
    rw [show m + 1 + n = (m + n) + 1 by omega]
    show pIter p (m + n) (p x) = pIter p n (pIter p m (p x))
    exact ih (p x)

theorem pIter_outer (p : Cell → Cell) (n : Nat) (x : Cell) :
    pIter p (n + 1) x = p (pIter p n x) := by
  induction n generalizing x with
  | zero => rfl
  | succ n ih =>
    show pIter p (n + 1) (p x) = p (pIter p (n + 1) x)
    rw [ih (p x)]
    rfl

theorem pIter_fix (p : Cell → Cell) {r : Cell} (h : p r = r) (n : Nat) :
    pIter p n r = r := by
  induction n with
  | zero => rfl
  | succ n ih =>
    rw [pIter_outer, ih, h]

theorem pReaches_fix_eq {p : Cell → Cell} {x v : Cell} (h : pReaches p x v)
    (hx : p x = x) : v = x := by
  obtain ⟨n, hn⟩ := h
  rw [pIter_fix p hx n] at hn
  exact hn.symm

theorem isRoot_unique {p : Cell → Cell} {x r1 r2 : Cell} (h1 : IsRoot p x r1)
    (h2 : IsRoot p x r2) : r1 = r2 := by
  obtain ⟨⟨n1, hn1⟩, hf1⟩ := h1
  obtain ⟨⟨n2, hn2⟩, hf2⟩ := h2
  rcases le_total n1 n2 with hle | hle
  · have : pIter p n2 x = pIter p (n2 - n1) (pIter p n1 x) := by
      rw [← pIter_add]
      congr 1
      omega
    rw [hn1, pIter_fix p hf1] at this
    rw [← hn2, this]
  · have : pIter p n1 x = pIter p (n1 - n2) (pIter p n2 x) := by
      rw [← pIter_add]
      congr 1
      omega
    rw [hn2, pIter_fix p hf2] at this
    rw [← hn1, this]

theorem isRoot_pIter {p : Cell → Cell} {x r : Cell} (h : IsRoot p x r) (n : Nat) :
    IsRoot p (pIter p n x) r := by
  obtain ⟨⟨k, hk⟩, hf⟩ := h
  rcases le_total n k with hle | hle
  · refine ⟨⟨k - n, ?_⟩, hf⟩
    rw [← pIter_add]
    rw [show n + (k - n) = k by omega, hk]
  · refine ⟨⟨0, ?_⟩, hf⟩
    show pIter p n x = r
    have : pIter p n x = pIter p (n - k) (pIter p k x) := by
      rw [← pIter_add]
      congr 1
      omega
    rw [hk, pIter_fix p hf] at this
    exact this

theorem reaches_isRoot {p : Cell → Cell} (hre : ∀ x : Cell, ∃ n, p (pIter p n x) = pIter p n x)
    (x : Cell) : ∃ r, IsRoot p x r := by
  obtain ⟨n, hn⟩ := hre x
  exact ⟨pIter p n x, ⟨n, rfl⟩, hn⟩

theorem chain_in_cells {m : Maze} {p : Cell → Cell}
    (hout : ∀ x : Cell, x ∉ m.cells → p x = x) (hin : ∀ x ∈ m.cells, p x ∈ m.cells) :
    ∀ (n : Nat) (x : Cell), x ∈ m.cells → pIter p n x ∈ m.cells := by
  intro n
  induction n with
  | zero => intro x hx; exact hx
  | succ n ih =>
    intro x hx
    show pIter p n (p x) ∈ m.cells
    exact ih (p x) (hin x hx)

theorem pIter_period {p : Cell → Cell} {i j : Nat} {x : Cell}
    (h : pIter p i x = pIter p j x) (s : Nat) :
    pIter p (i + s) x = pIter p (j + s) x := by
  rw [pIter_add, pIter_add, h]

theorem depth_bound {m : Maze} {p : Cell → Cell} (hnd : m.cells.Nodup)
    (hout : ∀ x : Cell, x ∉ m.cells → p x = x) (hin : ∀ x ∈ m.cells, p x ∈ m.cells)
    (hre : ∀ x : Cell, ∃ n, p (pIter p n x) = pIter p n x)
    {x : Cell} (hx : x ∈ m.cells) :
    ∃ d, d < m.cells.length ∧ p (pIter p d x) = pIter p d x := by
  classical
  set n0 := Nat.find (hre x) with hn0
  have hfix : p (pIter p n0 x) = pIter p n0 x := Nat.find_spec (hre x)
  refine ⟨n0, ?_, hfix⟩
  have hinj : ∀ i j : Nat, i < j → j ≤ n0 → pIter p i x ≠ pIter p j x := by
    intro i j hij hj heq
    have hper := pIter_period heq (n0 - j)
    have h1 : i + (n0 - j) = n0 - (j - i) := by omega
    have h2 : j + (n0 - j) = n0 := by omega
    rw [h1, h2] at hper
    have hfix2 : p (pIter p (n0 - (j - i)) x) = pIter p (n0 - (j - i)) x := by
      rw [hper, hfix, ← hper]
    exact Nat.find_min (hre x) (by omega) hfix2
  have hchain : ((List.range (n0 + 1)).map (fun i => pIter p i x)).Nodup := by
    refine (List.nodup_range (n0 + 1)).map_on ?_
    intro i hi j hj heq
    rw [List.mem_range] at hi hj
    by_contra hne
    rcases Nat.lt_or_ge i j with h | h
    · exact hinj i j h (by omega) heq
    · exact hinj j i (by omega) (by omega) heq.symm
  have hsub : ((List.range (n0 + 1)).map (fun i => pIter p i x)) ⊆ m.cells := by
    intro v hv
    obtain ⟨i, _, rfl⟩ := List.mem_map.1 hv
    exact chain_in_cells hout hin i x hx
  have hlen := (hchain.subperm hsub).length_le
  simp at hlen
  omega

theorem pReaches_update {p p2 : Cell → Cell}
    (hb1 : ∀ x : Cell, p2 x = x ↔ p x = x) (hd : ∀ x : Cell, pReaches p x (p2 x)) :
    ∀ (l : Nat) (x r : Cell), pIter p l x = r → p r = r → pReaches p2 x r := by
  intro l
  induction l using Nat.strong_induction_on with
  | _ l ih =>
    intro x r hx hr
    by_cases hpx : p x = x
    · have hrx : r = x := by rw [pIter_fix p hpx] at hx; exact hx.symm
      subst hrx
      exact ⟨0, rfl⟩
    · obtain ⟨k, hk⟩ := hd x
      have hk0 : k ≠ 0 := by
        intro h0
        subst h0
        exact hpx ((hb1 x).1 hk.symm)
      have hl0 : l ≠ 0 := by
        intro h0
        subst h0
        have hxr : x = r := hx
        subst hxr
        exact hpx hr
      rcases le_or_lt k l with hkl | hkl
      · have hstep : pIter p (l - k) (p2 x) = r := by
          rw [← hk, ← pIter_add, show k + (l - k) = l by omega]
          exact hx
        obtain ⟨n, hn⟩ := ih (l - k) (by omega) (p2 x) r hstep hr
        exact ⟨n + 1, hn⟩
      · have hp2r : p2 x = r := by
          have h2 : pIter p k x = pIter p (k - l) (pIter p l x) := by
            rw [← pIter_add]
            congr 1
            omega
          rw [hx, pIter_fix p hr] at h2
          rw [← hk, h2]
        exact ⟨1, hp2r⟩

theorem ufFind_spec : ∀ (fuel d : Nat) (p : Cell → Cell) (u : Cell),
    p (pIter p d u) = pIter p d u → d < fuel →
    (ufFind fuel p u).1 = pIter p d u ∧
    (∀ x : Cell, (ufFind fuel p u).2 x = x ↔ p x = x) ∧
    (∀ x : Cell, pReaches p x ((ufFind fuel p u).2 x)) := by
  intro fuel
  induction fuel with
  | zero => intro d p u _ hd; omega
  | succ fuel ih =>
    intro d p u hdfix hd
    by_cases hpu : p u = u
    · have hiter : pIter p d u = u := pIter_fix p hpu d
      have hres0 : ufFind (fuel + 1) p u = (u, p) := by
        rw [ufFind]
        simp [hpu]
      rw [hres0]
      exact ⟨hiter.symm, fun x => Iff.rfl, fun x => ⟨1, rfl⟩⟩
    · have hd0 : d ≠ 0 := by
        intro h0
        subst h0
        exact hpu hdfix
      have hdfix' : p (pIter p (d - 1) (p u)) = pIter p (d - 1) (p u) := by
        have : pIter p (d - 1) (p u) = pIter p d u := by
          show pIter p (d - 1) (p u) = pIter p d u
          conv_rhs => rw [show d = (d - 1) + 1 by omega]
          rfl
        rw [this]
        exact hdfix
      obtain ⟨ha, hb1, hdd⟩ := ih (d - 1) p (p u) hdfix' (by omega)
      have hres : ufFind (fuel + 1) p u =
          ((ufFind fuel p (p u)).1,
            fun x => if x = u then (ufFind fuel p (p u)).1 else (ufFind fuel p (p u)).2 x) := by
        rw [ufFind]
        simp [hpu]
      have hroot : (ufFind fuel p (p u)).1 = pIter p d u := by
        rw [ha]
        conv_rhs => rw [show d = (d - 1) + 1 by omega]
        rfl
      have hrne : (ufFind fuel p (p u)).1 ≠ u := by
        intro h
        have hud : pIter p d u = u := by rw [← hroot, h]
        rw [hud] at hdfix
        exact hpu hdfix
      rw [hres]
      refine ⟨hroot, ?_, ?_⟩
      · intro x
        by_cases hxu : x = u
        · subst hxu
          simp
          constructor
          · intro h; exact absurd h hrne
          · intro h; exact absurd h hpu
        · simp [hxu]
          exact hb1 x
      · intro x
        by_cases hxu : x = u
        · subst hxu
          simp
          rw [hroot]
          exact ⟨d, rfl⟩
        · simp [hxu]
          obtain ⟨n, hn⟩ := hdd x
          exact ⟨n, hn⟩

theorem ufEquiv_iff_isRoot {p : Cell → Cell} (x y : Cell) :
    ufEquiv p x y ↔ ∃ r, IsRoot p x r ∧ IsRoot p y r := by
  unfold ufEquiv IsRoot
  constructor
  · rintro ⟨r, h1, h2, h3⟩
    exact ⟨r, ⟨h1, h3⟩, ⟨h2, h3⟩⟩
  · rintro ⟨r, ⟨h1, h3⟩, ⟨h2, h4⟩⟩
    exact ⟨r, h1, h2, h3⟩

theorem ufEquiv_iff_root_eq {p : Cell → Cell} {x y rx ry : Cell}
    (hx : IsRoot p x rx) (hy : IsRoot p y ry) : ufEquiv p x y ↔ rx = ry := by
  rw [ufEquiv_iff_isRoot]
  constructor
  · rintro ⟨r, h1, h2⟩
    rw [isRoot_unique hx h1, isRoot_unique hy h2]
  · intro h
    subst h
    exact ⟨rx, hx, hy⟩

theorem parent_update_props {m : Maze} {p p2 : Cell → Cell}
    (hout : ∀ x : Cell, x ∉ m.cells → p x = x) (hin : ∀ x ∈ m.cells, p x ∈ m.cells)
    (hre : ∀ x : Cell, ∃ n, p (pIter p n x) = pIter p n x)
    (hb1 : ∀ x : Cell, p2 x = x ↔ p x = x) (hd : ∀ x : Cell, pReaches p x (p2 x)) :
    (∀ x : Cell, x ∉ m.cells → p2 x = x) ∧ (∀ x ∈ m.cells, p2 x ∈ m.cells) ∧
    (∀ x : Cell, ∃ n, p2 (pIter p2 n x) = pIter p2 n x) ∧
    (∀ x r : Cell, IsRoot p x r ↔ IsRoot p2 x r) := by
  have hroot_mp : ∀ x r : Cell, IsRoot p x r → IsRoot p2 x r := by
    rintro x r ⟨⟨n, hn⟩, hfix⟩
    exact ⟨pReaches_update hb1 hd n x r hn hfix, (hb1 r).2 hfix⟩
  have hroot_iff : ∀ x r : Cell, IsRoot p x r ↔ IsRoot p2 x r := by
    intro x r
    constructor
    · exact hroot_mp x r
    · intro h2
      obtain ⟨r0, h0⟩ := reaches_isRoot hre x
      have h02 := hroot_mp x r0 h0
      rw [isRoot_unique h2 h02]
      exact h0
  refine ⟨?_, ?_, ?_, hroot_iff⟩
  · intro x hx
    exact pReaches_fix_eq (hd x) (hout x hx)
  · intro x hx
    obtain ⟨k, hk⟩ := hd x
    rw [← hk]
    exact chain_in_cells hout hin k x hx
  · intro x
    obtain ⟨r0, h0⟩ := reaches_isRoot hre x
    obtain ⟨⟨n, hn⟩, hfix⟩ := hroot_mp x r0 h0
    refine ⟨n, ?_⟩
    rw [hn]
    exact hfix

theorem ufEquiv_congr {p p2 : Cell → Cell}
    (hroot_iff : ∀ x r : Cell, IsRoot p x r ↔ IsRoot p2 x r) :
    ∀ x y : Cell, ufEquiv p2 x y ↔ ufEquiv p x y := by
  intro x y
  rw [ufEquiv_iff_isRoot, ufEquiv_iff_isRoot]
  constructor
  · rintro ⟨r, h1, h2⟩
    exact ⟨r, (hroot_iff x r).2 h1, (hroot_iff y r).2 h2⟩
  · rintro ⟨r, h1, h2⟩
    exact ⟨r, (hroot_iff x r).1 h1, (hroot_iff y r).1 h2⟩

theorem ufFind_full {m : Maze} {p : Cell → Cell} (hnd : m.cells.Nodup)
    (hout : ∀ x : Cell, x ∉ m.cells → p x = x) (hin : ∀ x ∈ m.cells, p x ∈ m.cells)
    (hre : ∀ x : Cell, ∃ n, p (pIter p n x) = pIter p n x) {u : Cell} (hu : u ∈ m.cells) :
    IsRoot p u (ufFind m.cells.length p u).1 ∧
    (∀ x : Cell, (ufFind m.cells.length p u).2 x = x ↔ p x = x) ∧
    (∀ x : Cell, pReaches p x ((ufFind m.cells.length p u).2 x)) := by
  obtain ⟨d, hdlt, hdfix⟩ := depth_bound hnd hout hin hre hu
  obtain ⟨ha, hb1, hd2⟩ := ufFind_spec m.cells.length d p u hdfix hdlt
  refine ⟨⟨⟨d, ha.symm⟩, ?_⟩, hb1, hd2⟩
  rw [ha]
  exact hdfix

theorem isRoot_update_root {p2 : Cell → Cell} {ra rb : Cell}
    (hfa : p2 ra = ra) (hfb : p2 rb = rb) (hne : ra ≠ rb) :
    ∀ (x r : Cell), IsRoot p2 x r →
      IsRoot (fun z => if z = rb then ra else p2 z) x (if r = rb then ra else r) := by
  classical
  intro x r hr
  obtain ⟨hrea, hfix⟩ := hr
  have hex : ∃ n, pIter p2 n x = r := hrea
  have hlspec : pIter p2 (Nat.find hex) x = r := Nat.find_spec hex
  have hfix3a : (fun z => if z = rb then ra else p2 z) ra = ra := by
    simp only [if_neg hne, hfa]
  by_cases hrb : r = rb
  · rw [if_pos hrb]
    have hinter : ∀ i, i < Nat.find hex → pIter p2 i x ≠ rb := by
      intro i hi hib
      exact Nat.find_min hex hi (hib.trans hrb.symm)
    have htrans : ∀ j, j ≤ Nat.find hex →
        pIter (fun z => if z = rb then ra else p2 z) j x = pIter p2 j x := by
      intro j
      induction j with
      | zero => intro _; rfl
      | succ j ih =>
        intro hj
        rw [pIter_outer, pIter_outer, ih (by omega)]
        simp only [if_neg (hinter j (by omega))]
    refine ⟨⟨Nat.find hex + 1, ?_⟩, hfix3a⟩
    rw [pIter_outer, htrans _ (le_refl _), hlspec, hrb]
    simp
  · rw [if_neg hrb]
    have hinter : ∀ i, i < Nat.find hex → pIter p2 i x ≠ rb := by
      intro i hi hib
      have hroot_i : IsRoot p2 (pIter p2 i x) r := isRoot_pIter ⟨hrea, hfix⟩ i
      rw [hib] at hroot_i
      exact hrb (pReaches_fix_eq hroot_i.1 hfb)
    have htrans : ∀ j, j ≤ Nat.find hex →
        pIter (fun z => if z = rb then ra else p2 z) j x = pIter p2 j x := by
      intro j
      induction j with
      | zero => intro _; rfl
      | succ j ih =>
        intro hj
        rw [pIter_outer, pIter_outer, ih (by omega)]
        simp only [if_neg (hinter j (by omega))]
    refine ⟨⟨Nat.find hex, ?_⟩, ?_⟩
    · rw [htrans _ (le_refl _), hlspec]
    · simp only [if_neg hrb, hfix]

theorem rtg_mazeAdj_symm {m : Maze} {x y : Cell}
    (h : Relation.ReflTransGen (mazeAdj m) x y) :
    Relation.ReflTransGen (mazeAdj m) y x :=
  Relation.ReflTransGen.symmetric (fun _ _ hab => mazeAdj_symm hab) h

theorem bridges_carve {m : Maze} (hctx : MazeCtx m) {a b : Cell} (ha : a ∈ m.cells)
    (hb : b ∈ m.cells) (hadj : adjStep a b)
    (hnr : ¬ Relation.ReflTransGen (mazeAdj m) a b)
    (hbr : ∀ e ∈ openEdges m, ¬ Relation.ReflTransGen (mazeAdjExc m e) e.1 e.2) :
    ∀ e ∈ openEdges (m.remove_wall_between a b),
      ¬ Relation.ReflTransGen (mazeAdjExc (m.remove_wall_between a b) e) e.1 e.2 := by
  have hwall : gridAt m.grid (midOf a b).1 (midOf a b).2 ≠ 0 := by
    intro h0
    exact hnr (Relation.ReflTransGen.single ⟨ha, hb, hadj, h0⟩)
  obtain ⟨hmem_iff, hlen⟩ := openEdges_carve hctx ha hb hadj hwall
  obtain ⟨hcanon, hmid_eq, hends⟩ := canonEdge_spec hadj
  intro e he hreach
  rcases (hmem_iff e).1 he with holde | rfl
  · have hS : ∀ x y, mazeAdjExc (m.remove_wall_between a b) e x y →
        mazeAdjExc m e x y ∨ (x = a ∧ y = b) ∨ (x = b ∧ y = a) := by
      rintro x y ⟨hxy, hmid⟩
      rcases (mazeAdj_carve_iff hctx ha hb hadj x y).1 hxy with h | ⟨-, hp⟩
      · exact Or.inl ⟨h, hmid⟩
      · exact Or.inr hp
    have hmono : ∀ x y : Cell, mazeAdjExc m e x y → mazeAdj m x y := fun x y h => h.1
    have hee : mazeAdj m e.1 e.2 := openEdges_mazeAdj holde
    rcases reflTransGen_union_pair hS hreach with h | ⟨h1, h2⟩ | ⟨h1, h2⟩
    · exact hbr e holde h
    · exact hnr ((rtg_mazeAdj_symm (h1.mono hmono)).trans
        ((Relation.ReflTransGen.single hee).trans (rtg_mazeAdj_symm (h2.mono hmono))))
    · exact hnr ((h2.mono hmono).trans
        ((rtg_mazeAdj_symm (Relation.ReflTransGen.single hee)).trans (h1.mono hmono)))
  · have hstep : ∀ x y,
        mazeAdjExc (m.remove_wall_between a b) (canonEdge a b) x y → mazeAdj m x y := by
      rintro x y ⟨hxy, hmid⟩
      rcases (mazeAdj_carve_iff hctx ha hb hadj x y).1 hxy with h | ⟨-, hp⟩
      · exact h
      · exfalso
        apply hmid
        rw [hmid_eq]
        rcases hp with ⟨rfl, rfl⟩ | ⟨rfl, rfl⟩
        · rfl
        · exact midOf_comm _ _
    have hr : Relation.ReflTransGen (mazeAdj m) (canonEdge a b).1 (canonEdge a b).2 :=
      hreach.mono hstep
    rcases hends with ⟨h1, h2⟩ | ⟨h1, h2⟩
    · rw [h1, h2] at hr
      exact hnr hr
    · rw [h1, h2] at hr
      exact hnr (rtg_mazeAdj_symm hr)

theorem redirect_eq_iff {ra rb rx ry : Cell} (hne : ra ≠ rb) :
    (if rx = rb then ra else rx) = (if ry = rb then ra else ry) ↔
      (rx = ry ∨ (rx = rb ∧ ry = ra) ∨ (rx = ra ∧ ry = rb)) := by
  by_cases hx : rx = rb <;> by_cases hy : ry = rb
  · subst hx
    subst hy
    rw [if_pos rfl]
    exact ⟨fun _ => Or.inl rfl, fun _ => rfl⟩
  · subst hx
    rw [if_pos rfl, if_neg hy]
    constructor
    · intro h
      exact Or.inr (Or.inl ⟨rfl, h.symm⟩)
    · rintro (h | ⟨-, h⟩ | ⟨h, -⟩)
      · exact absurd h.symm hy
      · exact h.symm
      · exact absurd h.symm hne
  · subst hy
    rw [if_neg hx, if_pos rfl]
    constructor
    · intro h
      exact Or.inr (Or.inr ⟨h, rfl⟩)
    · rintro (h | ⟨h, -⟩ | ⟨h, -⟩)
      · exact absurd h hx
      · exact absurd h hx
      · exact h
  · rw [if_neg hx, if_neg hy]
    constructor
    · exact fun h => Or.inl h
    · rintro (h | ⟨h, -⟩ | ⟨-, h⟩)
      · exact h
      · exact absurd h hx
      · exact absurd h hy

theorem rtg_carve_iff {m : Maze} (hctx : MazeCtx m) {a b : Cell} (ha : a ∈ m.cells)
    (hb : b ∈ m.cells) (hadj : adjStep a b) (x y : Cell) :
    Relation.ReflTransGen (mazeAdj (m.remove_wall_between a b)) x y ↔
      (Relation.ReflTransGen (mazeAdj m) x y ∨
        (Relation.ReflTransGen (mazeAdj m) x a ∧ Relation.ReflTransGen (mazeAdj m) b y) ∨
        (Relation.ReflTransGen (mazeAdj m) x b ∧ Relation.ReflTransGen (mazeAdj m) a y)) := by
  constructor
  · intro h
    refine reflTransGen_union_pair ?_ h
    intro s t hst
    rcases (mazeAdj_carve_iff hctx ha hb hadj s t).1 hst with h' | ⟨-, hp⟩
    · exact Or.inl h'
    · exact Or.inr hp
  · have hab' : mazeAdj (m.remove_wall_between a b) a b :=
      (mazeAdj_carve_iff hctx ha hb hadj a b).2 (Or.inr ⟨⟨ha, hb, hadj⟩, Or.inl ⟨rfl, rfl⟩⟩)
    have hlift : ∀ u v : Cell, Relation.ReflTransGen (mazeAdj m) u v →
        Relation.ReflTransGen (mazeAdj (m.remove_wall_between a b)) u v :=
      fun u v h => h.mono (fun s t hst => mazeAdj_mono_carve hst)
    rintro (h | ⟨h1, h2⟩ | ⟨h1, h2⟩)
    · exact hlift _ _ h
    · exact (hlift _ _ h1).trans ((Relation.ReflTransGen.single hab').trans (hlift _ _ h2))
    · exact (hlift _ _ h1).trans
        ((Relation.ReflTransGen.single (mazeAdj_symm hab')).trans (hlift _ _ h2))

theorem ufUnion_def (fuel : Nat) (p : Cell → Cell) (a b : Cell) :
    ufUnion fuel p a b =
      (if (ufFind fuel p a).1 = (ufFind fuel (ufFind fuel p a).2 b).1
        then (false, (ufFind fuel (ufFind fuel p a).2 b).2)
        else (true, fun x => if x = (ufFind fuel (ufFind fuel p a).2 b).1
          then (ufFind fuel p a).1 else (ufFind fuel (ufFind fuel p a).2 b).2 x)) := rfl

theorem isRoot_mem_cells {m : Maze} {p : Cell → Cell}
    (hout : ∀ x : Cell, x ∉ m.cells → p x = x) (hin : ∀ x ∈ m.cells, p x ∈ m.cells)
    {x r : Cell} (hx : x ∈ m.cells) (h : IsRoot p x r) : r ∈ m.cells := by
  obtain ⟨⟨k, hk⟩, -⟩ := h
  rw [← hk]
  exact chain_in_cells hout hin k x hx

theorem ufUnion_step {m : Maze} {p : Cell → Cell} (hinv : UFInv m p) {a b : Cell}
    (ha : a ∈ m.cells) (hb : b ∈ m.cells) (hadj : adjStep a b) :
    ((ufUnion m.cells.length p a b).1 = true →
      UFInv (m.remove_wall_between a b) (ufUnion m.cells.length p a b).2 ∧
      Relation.ReflTransGen (mazeAdj (m.remove_wall_between a b)) a b) ∧
    ((ufUnion m.cells.length p a b).1 = false →
      UFInv m (ufUnion m.cells.length p a b).2 ∧
      Relation.ReflTransGen (mazeAdj m) a b) := by
  obtain ⟨hra, hb1a, hda⟩ :=
    ufFind_full hinv.ctx.nodup hinv.out_fix hinv.into hinv.reaches ha
  obtain ⟨hout1, hin1, hre1, hroots1⟩ :=
    parent_update_props hinv.out_fix hinv.into hinv.reaches hb1a hda
  obtain ⟨ra, p1, hfa⟩ : ∃ ra p1, ufFind m.cells.length p a = (ra, p1) := ⟨_, _, rfl⟩
  simp only [hfa] at hra hb1a hda hout1 hin1 hre1 hroots1
  obtain ⟨hrb1, hb1b, hdb⟩ := ufFind_full hinv.ctx.nodup hout1 hin1 hre1 hb
  obtain ⟨hout2, hin2, hre2, hroots2⟩ := parent_update_props hout1 hin1 hre1 hb1b hdb
  obtain ⟨rb, p2, hfb⟩ : ∃ rb p2, ufFind m.cells.length p1 b = (rb, p2) := ⟨_, _, rfl⟩
  simp only [hfb] at hrb1 hb1b hdb hout2 hin2 hre2 hroots2
  have hroots12 : ∀ x r : Cell, IsRoot p x r ↔ IsRoot p2 x r :=
    fun x r => (hroots1 x r).trans (hroots2 x r)
  have hrb : IsRoot p b rb := (hroots1 b rb).2 hrb1
  have hfix2 : ∀ x : Cell, p2 x = x ↔ p x = x := fun x => (hb1b x).trans (hb1a x)
  have hfilter : m.cells.filter (fun x => p2 x == x) = m.cells.filter (fun x => p x == x) :=
    List.filter_congr (fun x _ => by
      rw [Bool.eq_iff_iff]
      simp only [beq_iff_eq]
      exact hfix2 x)
  have hu : ufUnion m.cells.length p a b =
      (if ra = rb then (false, p2)
        else (true, fun x => if x = rb then ra else p2 x)) := by
    simp only [ufUnion_def, hfa, hfb]
  by_cases heq : ra = rb
  · rw [hu, if_pos heq]
    constructor
    · intro h
      simp at h
    · intro h
      refine ⟨⟨hinv.ctx, hout2, hin2, hre2, ?_, ?_, hinv.bridges⟩, ?_⟩
      · intro x y
        rw [ufEquiv_congr hroots12 x y]
        exact hinv.equiv_iff x y
      · show (openEdges m).length +
          (m.cells.filter (fun x => p2 x == x)).length = m.cells.length
        rw [hfilter]
        exact hinv.count
      · refine (hinv.equiv_iff a b).1 ?_
        rw [ufEquiv_iff_root_eq hra hrb]
        exact heq
  · rw [hu, if_neg heq]
    constructor
    swap
    · intro h
      simp at h
    intro h
    have hra2 : IsRoot p2 a ra := (hroots12 a ra).1 hra
    have hrb2 : IsRoot p2 b rb := (hroots12 b rb).1 hrb
    have hfa2 : p2 ra = ra := hra2.2
    have hfb2 : p2 rb = rb := hrb2.2
    have hrac : ra ∈ m.cells := isRoot_mem_cells hinv.out_fix hinv.into ha hra
    have hrbc : rb ∈ m.cells := isRoot_mem_cells hinv.out_fix hinv.into hb hrb
    have hnequiv : ¬ ufEquiv p a b := by
      rw [ufEquiv_iff_root_eq hra hrb]
      exact heq
    have hnr : ¬ Relation.ReflTransGen (mazeAdj m) a b :=
      fun hh => hnequiv ((hinv.equiv_iff a b).2 hh)
    have hwall : gridAt m.grid (midOf a b).1 (midOf a b).2 ≠ 0 :=
      fun h0 => hnr (Relation.ReflTransGen.single ⟨ha, hb, hadj, h0⟩)
    obtain ⟨hoe_iff, hoe_len⟩ := openEdges_carve hinv.ctx ha hb hadj hwall
    have hroots3 := isRoot_update_root hfa2 hfb2 heq
    constructor
    · refine ⟨mazeCtx_carve hinv.ctx a b, ?_, ?_, ?_, ?_, ?_, ?_⟩
      · intro x hx
        rw [remove_wall_cells] at hx
        have hxrb : x ≠ rb := fun hc => hx (hc ▸ hrbc)
        show (if x = rb then ra else p2 x) = x
        rw [if_neg hxrb]
        exact hout2 x hx
      · intro x hx
        rw [remove_wall_cells] at hx ⊢
        show (if x = rb then ra else p2 x) ∈ m.cells
        by_cases hxrb : x = rb
        · rw [if_pos hxrb]
          exact hrac
        · rw [if_neg hxrb]
          exact hin2 x hx
      · intro x
        obtain ⟨r0, h0⟩ := reaches_isRoot hre2 x
        obtain ⟨⟨n, hn⟩, hfix⟩ := hroots3 x r0 h0
        refine ⟨n, ?_⟩
        rw [hn]
        exact hfix
      · intro x y
        obtain ⟨rx, hrx⟩ := reaches_isRoot hinv.reaches x
        obtain ⟨ry, hry⟩ := reaches_isRoot hinv.reaches y
        have hrx2 : IsRoot p2 x rx := (hroots12 x rx).1 hrx
        have hry2 : IsRoot p2 y ry := (hroots12 y ry).1 hry
        have hrx3 := hroots3 x rx hrx2
        have hry3 := hroots3 y ry hry2
        rw [ufEquiv_iff_root_eq hrx3 hry3, redirect_eq_iff heq,
          rtg_carve_iff hinv.ctx ha hb hadj x y]
        have e1 : rx = ry ↔ Relation.ReflTransGen (mazeAdj m) x y :=
          (ufEquiv_iff_root_eq hrx hry).symm.trans (hinv.equiv_iff x y)
        have e2 : rx = rb ↔ Relation.ReflTransGen (mazeAdj m) x b :=
          (ufEquiv_iff_root_eq hrx hrb).symm.trans (hinv.equiv_iff x b)
        have e3 : ry = ra ↔ Relation.ReflTransGen (mazeAdj m) y a :=
          (ufEquiv_iff_root_eq hry hra).symm.trans (hinv.equiv_iff y a)
        have e4 : rx = ra ↔ Relation.ReflTransGen (mazeAdj m) x a :=
          (ufEquiv_iff_root_eq hrx hra).symm.trans (hinv.equiv_iff x a)
        have e5 : ry = rb ↔ Relation.ReflTransGen (mazeAdj m) y b :=
          (ufEquiv_iff_root_eq hry hrb).symm.trans (hinv.equiv_iff y b)
        constructor
        · rintro (hh | ⟨h1, h2⟩ | ⟨h1, h2⟩)
          · exact Or.inl (e1.1 hh)
          · exact Or.inr (Or.inr ⟨e2.1 h1, rtg_mazeAdj_symm (e3.1 h2)⟩)
          · exact Or.inr (Or.inl ⟨e4.1 h1, rtg_mazeAdj_symm (e5.1 h2)⟩)
        · rintro (hh | ⟨h1, h2⟩ | ⟨h1, h2⟩)
          · exact Or.inl (e1.2 hh)
          · exact Or.inr (Or.inr ⟨e4.2 h1, e5.2 (rtg_mazeAdj_symm h2)⟩)
          · exact Or.inr (Or.inl ⟨e2.2 h1, e3.2 (rtg_mazeAdj_symm h2)⟩)
      · show (openEdges (m.remove_wall_between a b)).length +
          ((m.remove_wall_between a b).cells.filter
            (fun x => (if x = rb then ra else p2 x) == x)).length =
          (m.remove_wall_between a b).cells.length
        rw [remove_wall_cells, hoe_len]
        have hpe : ((fun x => (if x = rb then ra else p2 x) == x) rb) = false := by
          show ((if rb = rb then ra else p2 rb) == rb) = false
          rw [if_pos rfl]
          exact beq_eq_false_iff_ne.2 heq
        have hqe : ((fun x => p2 x == x) rb) = true := by
          show (p2 rb == rb) = true
          rw [hfb2]
          exact beq_self_eq_true rb
        have hagree : ∀ x ∈ m.cells, x ≠ rb →
            ((fun x => p2 x == x) x) = ((fun x => (if x = rb then ra else p2 x) == x) x) := by
          intro x _ hxrb
          show (p2 x == x) = ((if x = rb then ra else p2 x) == x)
          rw [if_neg hxrb]
        have hflen := @length_filter_update Cell m.cells
          (fun x => (if x = rb then ra else p2 x) == x) (fun x => p2 x == x) rb
          hinv.ctx.nodup hrbc hpe hqe hagree
        rw [hfilter] at hflen
        have hcount := hinv.count
        omega
      · exact bridges_carve hinv.ctx ha hb hadj hnr hinv.bridges
    · exact Relation.ReflTransGen.single
        ((mazeAdj_carve_iff hinv.ctx ha hb hadj a b).2
          (Or.inr ⟨⟨ha, hb, hadj⟩, Or.inl ⟨rfl, rfl⟩⟩))

theorem ufInv_init {m : Maze} (hctx : MazeCtx m) (hopen : openEdges m = []) :
    UFInv m (fun x => x) := by
  refine ⟨hctx, ?_, ?_, ?_, ?_, ?_, ?_⟩
  · intro x _
    rfl
  · intro x hx
    exact hx
  · intro x
    exact ⟨0, rfl⟩
  · intro x y
    constructor
    · rintro ⟨r, h1, h2, -⟩
      have hx : r = x := pReaches_fix_eq h1 rfl
      have hy : r = y := pReaches_fix_eq h2 rfl
      rw [← hx, ← hy]
    · intro h
      induction h with
      | refl => exact ⟨x, ⟨0, rfl⟩, ⟨0, rfl⟩, rfl⟩
      | tail h1 h2 ih =>
        exfalso
        have hoe := mazeAdj_mem_openEdges h2
        rw [hopen] at hoe
        cases hoe
  · rw [hopen]
    show 0 + (m.cells.filter (fun x => x == x)).length = m.cells.length
    have hft : m.cells.filter (fun x => x == x) = m.cells :=
      List.filter_eq_self.2 (fun x _ => beq_self_eq_true x)
    rw [hft]
    omega
  · intro e he
    rw [hopen] at he
    cases he

theorem kruskalLoop_cells (fuel : Nat) : ∀ (edges : List (Cell × Cell))
    (parent : Cell → Cell) (m : Maze),
    (kruskalLoop fuel edges parent m).cells = m.cells := by
  intro edges
  induction edges with
  | nil =>
    intro parent m
    rfl
  | cons e rest ih =>
    intro parent m
    obtain ⟨a, b⟩ := e
    cases hu : (ufUnion fuel parent a b).1
    · rw [kruskalLoop_cons_false fuel a b rest parent m hu]
      exact ih _ _
    · rw [kruskalLoop_cons_true fuel a b rest parent m hu]
      rw [ih _ _, remove_wall_cells]

theorem kruskalLoop_rtg_mono (fuel : Nat) (edges : List (Cell × Cell))
    (parent : Cell → Cell) (m : Maze) {x y : Cell}
    (h : Relation.ReflTransGen (mazeAdj m) x y) :
    Relation.ReflTransGen (mazeAdj (kruskalLoop fuel edges parent m)) x y := by
  refine h.mono ?_
  rintro u v ⟨hu, hv, huv, hmid⟩
  refine ⟨?_, ?_, huv, ?_⟩
  · rw [kruskalLoop_cells]
    exact hu
  · rw [kruskalLoop_cells]
    exact hv
  · exact kruskalLoop_grid_mono fuel edges parent m _ _ hmid

theorem kruskalLoop_inv : ∀ (edges : List (Cell × Cell)) (p : Cell → Cell) (m : Maze),
    UFInv m p →
    (∀ e ∈ edges, e.1 ∈ m.cells ∧ e.2 ∈ m.cells ∧ adjStep e.1 e.2) →
    (∃ p', UFInv (kruskalLoop m.cells.length edges p m) p') ∧
      (∀ e ∈ edges, Relation.ReflTransGen
        (mazeAdj (kruskalLoop m.cells.length edges p m)) e.1 e.2) := by
  intro edges
  induction edges with
  | nil =>
    intro p m hinv hsub
    exact ⟨⟨p, hinv⟩, fun e he => absurd he (List.not_mem_nil e)⟩
  | cons e rest ih =>
    intro p m hinv hsub
    obtain ⟨a, b⟩ := e
    obtain ⟨ha, hb, hadj⟩ := hsub (a, b) (List.mem_cons_self _ _)
    obtain ⟨hstep_t, hstep_f⟩ := ufUnion_step hinv ha hb hadj
    cases hres : (ufUnion m.cells.length p a b).1
    · obtain ⟨hinv', hab⟩ := hstep_f hres
      rw [kruskalLoop_cons_false _ a b rest p m hres]
      obtain ⟨hp', hconn⟩ := ih (ufUnion m.cells.length p a b).2 m hinv'
        (fun e he => hsub e (List.mem_cons_of_mem _ he))
      refine ⟨hp', ?_⟩
      intro e he
      rcases List.mem_cons.1 he with heq | he'
      · rw [heq]
        exact kruskalLoop_rtg_mono _ _ _ _ hab
      · exact hconn e he'
    · obtain ⟨hinv', hab⟩ := hstep_t hres
      rw [kruskalLoop_cons_true _ a b rest p m hres]
      have hcl : (m.remove_wall_between a b).cells = m.cells := remove_wall_cells m a b
      have hsub' : ∀ e ∈ rest, e.1 ∈ (m.remove_wall_between a b).cells ∧
          e.2 ∈ (m.remove_wall_between a b).cells ∧ adjStep e.1 e.2 := by
        intro e he
        rw [hcl]
        exact hsub e (List.mem_cons_of_mem _ he)
      obtain ⟨hp', hconn⟩ := ih (ufUnion m.cells.length p a b).2
        (m.remove_wall_between a b) hinv' hsub'
      rw [show (m.remove_wall_between a b).cells.length = m.cells.length by rw [hcl]]
        at hp' hconn
      refine ⟨hp', ?_⟩
      intro e he
      rcases List.mem_cons.1 he with heq | he'
      · rw [heq]
        exact kruskalLoop_rtg_mono _ _ _ _ hab
      · exact hconn e he'

theorem rtg_lift {α : Type} {R S : α → α → Prop}
    (h : ∀ u v : α, R u v → Relation.ReflTransGen S u v) :
    ∀ {x y : α}, Relation.ReflTransGen R x y → Relation.ReflTransGen S x y := by
  intro x y hr
  induction hr with
  | refl => exact Relation.ReflTransGen.refl
  | tail h1 h2 ih => exact ih.trans (h _ _ h2)

theorem nodup_all_eq_length_one {α : Type} {l : List α} (hnd : l.Nodup) {r : α}
    (hall : ∀ x ∈ l, x = r) (hr : r ∈ l) : l.length = 1 := by
  cases l with
  | nil => cases hr
  | cons x t =>
    cases t with
    | nil => rfl
    | cons y t2 =>
      exfalso
      have hx : x = r := hall x (List.mem_cons_self _ _)
      have hy : y = r := hall y (List.mem_cons_of_mem _ (List.mem_cons_self _ _))
      rw [List.nodup_cons] at hnd
      exact hnd.1 (by rw [hx, ← hy]; exact List.mem_cons_self _ _)

theorem kruskalGenerate_spanning (m : Maze) (hctx : MazeCtx m) (hopen : openEdges m = [])
    (hcne : m.cells ≠ [])
    (hcc : ∀ a ∈ m.cells, ∀ b ∈ m.cells, Relation.ReflTransGen (allowedAdj m) a b)
    (seedStream : Nat → Rng) (rngIn : Rng) (seed : Option Nat) :
    (m.generate_kruskal seedStream rngIn seed).cells = m.cells ∧
    SpanningTree (m.generate_kruskal seedStream rngIn seed) := by
  suffices hgen : ∀ rng : Rng,
      (kruskalLoop m.cells.length (pyShuffle rng 0 m.kruskalEdges).1
        (fun x => x) m).cells = m.cells ∧
      SpanningTree (kruskalLoop m.cells.length (pyShuffle rng 0 m.kruskalEdges).1
        (fun x => x) m) by
    exact hgen _
  intro rng
  have hperm := pyShuffle_perm rng 0 m.kruskalEdges
  have hedge_props : ∀ e ∈ (pyShuffle rng 0 m.kruskalEdges).1,
      e.1 ∈ m.cells ∧ e.2 ∈ m.cells ∧ adjStep e.1 e.2 := by
    intro e he
    have hek : e ∈ m.kruskalEdges := hperm.mem_iff.1 he
    obtain ⟨h1, h2, h3⟩ := (mem_kruskalEdges_iff m e).1 hek
    have h2' : e.2 ∈ m.cells := (hctx.mem_iff e.2).1 h2
    refine ⟨h1, h2', ?_⟩
    rcases h3 with h | h
    · rw [h]
      exact adjStep_rightOf _
    · rw [h]
      exact adjStep_downOf _
  obtain ⟨⟨p', hinv'⟩, hconn⟩ :=
    kruskalLoop_inv (pyShuffle rng 0 m.kruskalEdges).1 (fun x => x) m
      (ufInv_init hctx hopen) hedge_props
  have hcells : (kruskalLoop m.cells.length (pyShuffle rng 0 m.kruskalEdges).1
      (fun x => x) m).cells = m.cells := kruskalLoop_cells _ _ _ _
  have hconn_all : ∀ x ∈ m.cells, ∀ y ∈ m.cells, Relation.ReflTransGen
      (mazeAdj (kruskalLoop m.cells.length (pyShuffle rng 0 m.kruskalEdges).1
        (fun x => x) m)) x y := by
    intro x hx y hy
    refine rtg_lift ?_ (hcc x hx y hy)
    rintro u v ⟨hu, hv, huv⟩
    have hce := canonEdge_mem_interEdges hu hv huv
    obtain ⟨h1, h2, h3⟩ := (mem_interEdges m _).1 hce
    have hkk : canonEdge u v ∈ m.kruskalEdges :=
      (mem_kruskalEdges_iff m _).2 ⟨h1, (hctx.mem_iff _).2 h2, h3⟩
    have hsh : canonEdge u v ∈ (pyShuffle rng 0 m.kruskalEdges).1 := hperm.mem_iff.2 hkk
    have hrtg := hconn _ hsh
    obtain ⟨-, -, hends⟩ := canonEdge_spec huv
    rcases hends with ⟨ha1, ha2⟩ | ⟨ha1, ha2⟩
    · rw [ha1, ha2] at hrtg
      exact hrtg
    · rw [ha1, ha2] at hrtg
      exact rtg_mazeAdj_symm hrtg
  obtain ⟨c0, hc0⟩ := List.exists_mem_of_ne_nil m.cells hcne
  obtain ⟨r0, hr0⟩ := reaches_isRoot hinv'.reaches c0
  have hc0f : c0 ∈ (kruskalLoop m.cells.length (pyShuffle rng 0 m.kruskalEdges).1
      (fun x => x) m).cells := by
    rw [hcells]
    exact hc0
  have hall : ∀ x ∈ (kruskalLoop m.cells.length (pyShuffle rng 0 m.kruskalEdges).1
      (fun x => x) m).cells.filter (fun z => p' z == z), x = r0 := by
    intro x hxf
    obtain ⟨hxc, hxb⟩ := List.mem_filter.1 hxf
    have hxfix : p' x = x := beq_iff_eq.1 hxb
    have hxroot : IsRoot p' x x := ⟨⟨0, rfl⟩, hxfix⟩
    have hxm : x ∈ m.cells := by rw [← hcells]; exact hxc
    have hequiv : ufEquiv p' x c0 := (hinv'.equiv_iff x c0).2 (hconn_all x hxm c0 hc0)
    obtain ⟨r, hxr, hc0r⟩ := (ufEquiv_iff_isRoot x c0).1 hequiv
    rw [isRoot_unique hxroot hxr]
    exact isRoot_unique hc0r hr0
  have hr0c := isRoot_mem_cells hinv'.out_fix hinv'.into hc0f hr0
  have hr0filter : r0 ∈ (kruskalLoop m.cells.length (pyShuffle rng 0 m.kruskalEdges).1
      (fun x => x) m).cells.filter (fun z => p' z == z) :=
    List.mem_filter.2 ⟨hr0c, by rw [hr0.2]; exact beq_self_eq_true r0⟩
  have hflen : ((kruskalLoop m.cells.length (pyShuffle rng 0 m.kruskalEdges).1
      (fun x => x) m).cells.filter (fun z => p' z == z)).length = 1 :=
    nodup_all_eq_length_one (hinv'.ctx.nodup.filter _) hall hr0filter
  have hcount := hinv'.count
  refine ⟨hcells, ?_, bridges_isAcyclic hinv'.bridges, ?_⟩
  · intro a haf b hbf
    refine (SimpleGraph.reachable_iff_reflTransGen a b).2 ?_
    exact hconn_all a (by rw [← hcells]; exact haf) b (by rw [← hcells]; exact hbf)
  · rw [hcells] at hflen hcount ⊢
    omega

/-- C1 (amended): for every width, height, mask, seed, and strategy, PROVIDED
the mask-induced allowed-cell graph is nonempty and connected, after running
either `generate_recursive_backtracker` (whenever its loop returns) or
`generate_kruskal` on a freshly constructed maze, the sub-graph induced by
allowed cell-centers and carved midpoint passages is a spanning tree over the
allowed-cell set: connected, acyclic, and with exactly `|cells| - 1` open
inter-cell walls.  The connectivity hypothesis is necessary: the original
unconditional claim is refuted by a disconnected mask (see the
checkerboard-style counterexample). -/
theorem C1_spanning_tree (w h : Nat) (mask : Option (Int → Int → Bool))
    (seedStream : Nat → Rng) (rngIn : Rng) (seed : Option Nat) (strategy : Strategy)
    (hcc : AllowedConnected (Maze.init w h mask)) :
    (∀ (fuel : Nat) (m' : Maze),
      (Maze.init w h mask).generate_recursive_backtracker seedStream rngIn seed
        strategy fuel = some m' →
      m'.cells = (Maze.init w h mask).cells ∧ SpanningTree m') ∧
    ((Maze.init w h mask).generate_kruskal seedStream rngIn seed).cells =
      (Maze.init w h mask).cells ∧
    SpanningTree ((Maze.init w h mask).generate_kruskal seedStream rngIn seed) := by
  obtain ⟨hcne, hcc'⟩ := hcc
  refine ⟨?_, ?_, ?_⟩
  · intro fuel m' hrun
    exact btGenerate_spanning _ (mazeCtx_init w h mask) (openEdges_init w h mask)
      hcne hcc' seedStream rngIn seed strategy fuel m' hrun
  · exact (kruskalGenerate_spanning _ (mazeCtx_init w h mask) (openEdges_init w h mask)
      hcne hcc' seedStream rngIn seed).1
  · exact (kruskalGenerate_spanning _ (mazeCtx_init w h mask) (openEdges_init w h mask)
      hcne hcc' seedStream rngIn seed).2

/-- C1 counterexample to the unconditional original statement: with the
disconnected mask allowing only columns 0 and 2 of a 3-wide, 1-high maze,
`generate_kruskal` finds no carvable wall, and the resulting sub-graph has 0
open inter-cell walls where a spanning tree over the 2 allowed cells would
need 1; it is not a spanning tree. -/
theorem C1_counterexample :
    ¬ SpanningTree ((Maze.init 3 1 (some (fun _ c => decide (c ≠ 1)))).generate_kruskal
      (fun _ _ => 0) (fun _ => 0) none) := by
  rintro ⟨-, -, hcount⟩
  revert hcount
  decide

/-- C1 witness: on the 2x1 unmasked maze the allowed-cell graph is connected,
and the amended theorem yields a concrete spanning tree from `generate_kruskal`. -/
theorem C1_spanning_tree_witness :
    SpanningTree ((Maze.init 2 1 none).generate_kruskal (fun _ _ => 0) (fun _ => 0) none) := by
  have hcl : (Maze.init 2 1 none).cells = [((0 : Int), (0 : Int)), (0, 1)] := by decide
  have h00 : ((0 : Int), (0 : Int)) ∈ (Maze.init 2 1 none).cells := by
    rw [hcl]
    exact List.mem_cons_self _ _
  have h01 : ((0 : Int), (1 : Int)) ∈ (Maze.init 2 1 none).cells := by
    rw [hcl]
    exact List.mem_cons_of_mem _ (List.mem_cons_self _ _)
  have hstep : allowedAdj (Maze.init 2 1 none) (0, 0) (0, 1) :=
    ⟨h00, h01, Or.inl ⟨rfl, Or.inr (by decide)⟩⟩
  have hstep' : allowedAdj (Maze.init 2 1 none) (0, 1) (0, 0) :=
    ⟨h01, h00, Or.inl ⟨rfl, Or.inl (by decide)⟩⟩
  have hcc : AllowedConnected (Maze.init 2 1 none) := by
    refine ⟨by rw [hcl]; simp, ?_⟩
    intro a ha b hb
    rw [hcl] at ha hb
    rcases List.mem_cons.1 ha with rfl | ha'
    · rcases List.mem_cons.1 hb with rfl | hb'
      · exact Relation.ReflTransGen.refl
      · rw [List.mem_singleton.1 hb']
        exact Relation.ReflTransGen.single hstep
    · rw [List.mem_singleton.1 ha']
      rcases List.mem_cons.1 hb with rfl | hb'
      · exact Relation.ReflTransGen.single hstep'
      · rw [List.mem_singleton.1 hb']
  exact (C1_spanning_tree 2 1 none (fun _ _ => 0) (fun _ => 0) none Strategy.last hcc).2.2

/-! ## BFS: association list and direction helpers -/

theorem pm_lookup_mem : ∀ {l : ParentMap} {k : Int × Int} {v : Option (Int × Int)},
    List.lookup k l = some v → (k, v) ∈ l := by
  intro l
  induction l with
  | nil => intro k v h; cases h
  | cons a t ih =>
    intro k v h
    rw [List.lookup] at h
    by_cases hk : k = a.1
    · rw [show (k == a.1) = true from beq_iff_eq.2 hk] at h
      have h2 : some a.2 = some v := h
      obtain rfl := Option.some_inj.1 h2
      rw [hk]
      rw [show (a.1, a.2) = a from rfl]
      exact List.mem_cons_self _ _
    · rw [show (k == a.1) = false from beq_eq_false_iff_ne.2 hk] at h
      have h2 : List.lookup k t = some v := h
      exact List.mem_cons_of_mem _ (ih h2)

theorem pm_lookup_isSome_iff : ∀ (l : ParentMap) (k : Int × Int),
    (List.lookup k l).isSome = true ↔ k ∈ l.map Prod.fst := by
  intro l
  induction l with
  | nil =>
    intro k
    simp [List.lookup]
  | cons a t ih =>
    intro k
    rw [List.lookup]
    by_cases hk : k = a.1
    · rw [show (k == a.1) = true from beq_iff_eq.2 hk]
      simp [hk]
    · rw [show (k == a.1) = false from beq_eq_false_iff_ne.2 hk]
      show (List.lookup k t).isSome = true ↔ k ∈ a.1 :: t.map Prod.fst
      rw [ih k, List.mem_cons]
      constructor
      · intro h
        exact Or.inr h
      · rintro (h | h)
        · exact absurd h hk
        · exact h

theorem pm_lookup_none_iff (l : ParentMap) (k : Int × Int) :
    List.lookup k l = none ↔ k ∉ l.map Prod.fst := by
  rw [← pm_lookup_isSome_iff]
  cases h : List.lookup k l <;> simp

theorem pm_lookup_append (l1 l2 : ParentMap) (k : Int × Int) :
    List.lookup k (l1 ++ l2) = (List.lookup k l1).or (List.lookup k l2) :=
  List.lookup_append

theorem pm_lookup_map_self : ∀ (fresh : List (Int × Int)) (cur k : Int × Int),
    k ∈ fresh → List.lookup k (fresh.map (fun t => (t, some cur))) = some (some cur) := by
  intro fresh
  induction fresh with
  | nil => intro cur k hk; cases hk
  | cons a t ih =>
    intro cur k hk
    show List.lookup k ((a, some cur) :: t.map (fun t => (t, some cur))) = some (some cur)
    rw [List.lookup]
    by_cases hka : k = a
    · rw [show (k == a) = true from beq_iff_eq.2 hka]
    · rw [show (k == a) = false from beq_eq_false_iff_ne.2 hka]
      rcases List.mem_cons.1 hk with h | h
      · exact absurd h hka
      · exact ih cur k h

theorem bfsDirs_adjStep (cur : Int × Int) :
    ∀ dd ∈ ([(-1, 0), (1, 0), (0, -1), (0, 1)] : List (Int × Int)),
      adjStep cur (cur.1 + dd.1, cur.2 + dd.2) := by
  intro dd hdd
  rcases List.mem_cons.1 hdd with rfl | hdd
  · exact Or.inr ⟨by simp, Or.inl (by simp)⟩
  rcases List.mem_cons.1 hdd with rfl | hdd
  · exact Or.inr ⟨by simp, Or.inr (by simp)⟩
  rcases List.mem_cons.1 hdd with rfl | hdd
  · exact Or.inl ⟨by simp, Or.inl (by simp)⟩
  rcases List.mem_cons.1 hdd with rfl | hdd
  · exact Or.inl ⟨by simp, Or.inr (by simp)⟩
  · cases hdd

theorem adjStep_mem_dirs {cur t : Int × Int} (h : adjStep cur t) :
    ∃ dd ∈ ([(-1, 0), (1, 0), (0, -1), (0, 1)] : List (Int × Int)),
      t = (cur.1 + dd.1, cur.2 + dd.2) := by
  rcases h with ⟨h1, h2 | h2⟩ | ⟨h1, h2 | h2⟩
  · refine ⟨(0, -1), by simp, ?_⟩
    rw [Prod.ext_iff]
    constructor
    · simp [h1]
    · simp
      omega
  · refine ⟨(0, 1), by simp, ?_⟩
    rw [Prod.ext_iff]
    constructor
    · simp [h1]
    · simp
      omega
  · refine ⟨(-1, 0), by simp, ?_⟩
    rw [Prod.ext_iff]
    constructor
    · simp
      omega
    · simp [h1]
  · refine ⟨(1, 0), by simp, ?_⟩
    rw [Prod.ext_iff]
    constructor
    · simp
      omega
    · simp [h1]

theorem pm_lookup_append_none {l1 l2 : ParentMap} {k : Int × Int}
    (h : List.lookup k (l1 ++ l2) = none) :
    List.lookup k l1 = none ∧ List.lookup k l2 = none := by
  rw [pm_lookup_append] at h
  exact Option.or_eq_none.mp h

theorem pm_lookup_snoc_self (l : ParentMap) (t : Int × Int) (v : Option (Int × Int)) :
    (List.lookup t (l ++ [(t, v)])).isSome = true := by
  rw [pm_lookup_append]
  have hsingle : List.lookup t [(t, v)] = some v := by
    rw [List.lookup, show (t == t) = true from beq_iff_eq.2 rfl]
  cases h1 : List.lookup t l with
  | none =>
    rw [Option.none_or, hsingle]
    rfl
  | some w =>
    rfl

theorem pm_lookup_singleton_ne {t u : Int × Int} (h : u ≠ t) (v : Option (Int × Int)) :
    List.lookup u [(t, v)] = none := by
  rw [List.lookup, show (u == t) = false from beq_eq_false_iff_ne.2 h]
  rfl

theorem bfsStep_false (m : Maze) (cur : Int × Int) (q0 : List (Int × Int)) (pm0 : ParentMap)
    (d : Int × Int)
    (hg : (decide (0 ≤ cur.1 + d.1 ∧ cur.1 + d.1 < (m.grid_h : Int) ∧
      0 ≤ cur.2 + d.2 ∧ cur.2 + d.2 < (m.grid_w : Int)) &&
      (gridAt m.grid (cur.1 + d.1) (cur.2 + d.2) == 0) &&
      (List.lookup (cur.1 + d.1, cur.2 + d.2) pm0).isNone) = false) :
    bfsStep m cur (q0, pm0) d = (q0, pm0) := by
  show (if (decide (0 ≤ cur.1 + d.1 ∧ cur.1 + d.1 < (m.grid_h : Int) ∧
      0 ≤ cur.2 + d.2 ∧ cur.2 + d.2 < (m.grid_w : Int)) &&
      (gridAt m.grid (cur.1 + d.1) (cur.2 + d.2) == 0) &&
      (List.lookup (cur.1 + d.1, cur.2 + d.2) pm0).isNone) then
    (q0 ++ [(cur.1 + d.1, cur.2 + d.2)],
      pm0 ++ [((cur.1 + d.1, cur.2 + d.2), some cur)])
    else (q0, pm0)) = (q0, pm0)
  rw [hg]
  rfl

theorem bfsStep_true (m : Maze) (cur : Int × Int) (q0 : List (Int × Int)) (pm0 : ParentMap)
    (d : Int × Int)
    (hg : (decide (0 ≤ cur.1 + d.1 ∧ cur.1 + d.1 < (m.grid_h : Int) ∧
      0 ≤ cur.2 + d.2 ∧ cur.2 + d.2 < (m.grid_w : Int)) &&
      (gridAt m.grid (cur.1 + d.1) (cur.2 + d.2) == 0) &&
      (List.lookup (cur.1 + d.1, cur.2 + d.2) pm0).isNone) = true) :
    bfsStep m cur (q0, pm0) d =
      (q0 ++ [(cur.1 + d.1, cur.2 + d.2)],
        pm0 ++ [((cur.1 + d.1, cur.2 + d.2), some cur)]) := by
  show (if (decide (0 ≤ cur.1 + d.1 ∧ cur.1 + d.1 < (m.grid_h : Int) ∧
      0 ≤ cur.2 + d.2 ∧ cur.2 + d.2 < (m.grid_w : Int)) &&
      (gridAt m.grid (cur.1 + d.1) (cur.2 + d.2) == 0) &&
      (List.lookup (cur.1 + d.1, cur.2 + d.2) pm0).isNone) then
    (q0 ++ [(cur.1 + d.1, cur.2 + d.2)],
      pm0 ++ [((cur.1 + d.1, cur.2 + d.2), some cur)])
    else (q0, pm0)) =
      (q0 ++ [(cur.1 + d.1, cur.2 + d.2)],
        pm0 ++ [((cur.1 + d.1, cur.2 + d.2), some cur)])
  rw [hg]
  rfl

theorem expand_fold_spec (m : Maze) (cur : Int × Int) :
    ∀ (dirs : List (Int × Int)) (q0 : List (Int × Int)) (pm0 : ParentMap),
    ∃ fresh : List (Int × Int),
      dirs.foldl (bfsStep m cur) (q0, pm0) =
        (q0 ++ fresh, pm0 ++ fresh.map (fun t => (t, some cur))) ∧
      fresh.Nodup ∧
      (∀ t ∈ fresh, posOk m t ∧ (∃ dd ∈ dirs, t = (cur.1 + dd.1, cur.2 + dd.2)) ∧
        List.lookup t pm0 = none) ∧
      (∀ dd ∈ dirs, posOk m (cur.1 + dd.1, cur.2 + dd.2) →
        List.lookup (cur.1 + dd.1, cur.2 + dd.2) pm0 = none →
        (cur.1 + dd.1, cur.2 + dd.2) ∈ fresh) := by
  intro dirs
  induction dirs with
  | nil =>
    intro q0 pm0
    refine ⟨[], ?_, List.nodup_nil, ?_, ?_⟩
    · simp
    · intro t ht
      cases ht
    · intro dd hdd
      cases hdd
  | cons d rest ih =>
    intro q0 pm0
    rw [List.foldl_cons]
    cases hg : (decide (0 ≤ cur.1 + d.1 ∧ cur.1 + d.1 < (m.grid_h : Int) ∧
        0 ≤ cur.2 + d.2 ∧ cur.2 + d.2 < (m.grid_w : Int)) &&
        (gridAt m.grid (cur.1 + d.1) (cur.2 + d.2) == 0) &&
        (List.lookup (cur.1 + d.1, cur.2 + d.2) pm0).isNone)
    · rw [bfsStep_false m cur q0 pm0 d hg]
      obtain ⟨fresh, h1, h2, h3, h4⟩ := ih q0 pm0
      refine ⟨fresh, h1, h2, ?_, ?_⟩
      · intro t ht
        obtain ⟨hp, ⟨dd, hdd, hde⟩, hn⟩ := h3 t ht
        exact ⟨hp, ⟨dd, List.mem_cons_of_mem _ hdd, hde⟩, hn⟩
      · intro dd hdd hp hn
        rcases List.mem_cons.1 hdd with rfl | hdd'
        · exfalso
          obtain ⟨hb1, hb2, hb3, hb4, hb5⟩ := hp
          rw [show (decide (0 ≤ cur.1 + dd.1 ∧ cur.1 + dd.1 < (m.grid_h : Int) ∧
              0 ≤ cur.2 + dd.2 ∧ cur.2 + dd.2 < (m.grid_w : Int))) = true
              from decide_eq_true ⟨hb1, hb2, hb3, hb4⟩,
            show (gridAt m.grid (cur.1 + dd.1) (cur.2 + dd.2) == 0) = true
              from beq_iff_eq.2 hb5,
            show (List.lookup (cur.1 + dd.1, cur.2 + dd.2) pm0).isNone = true
              from by rw [hn]; rfl] at hg
          cases hg
        · exact h4 dd hdd' hp hn
    · rw [bfsStep_true m cur q0 pm0 d hg]
      obtain ⟨fresh, h1, h2, h3, h4⟩ :=
        ih (q0 ++ [(cur.1 + d.1, cur.2 + d.2)])
          (pm0 ++ [((cur.1 + d.1, cur.2 + d.2), some cur)])
      have hguard := hg
      rw [Bool.and_eq_true, Bool.and_eq_true] at hguard
      obtain ⟨⟨hb1, hb2⟩, hb3⟩ := hguard
      have hposd : posOk m (cur.1 + d.1, cur.2 + d.2) := by
        obtain ⟨hc1, hc2, hc3, hc4⟩ := of_decide_eq_true hb1
        exact ⟨hc1, hc2, hc3, hc4, beq_iff_eq.1 hb2⟩
      have hnoned : List.lookup (cur.1 + d.1, cur.2 + d.2) pm0 = none :=
        Option.isNone_iff_eq_none.1 hb3
      have htnotin : (cur.1 + d.1, cur.2 + d.2) ∉ fresh := by
        intro hmem
        obtain ⟨-, -, hn⟩ := h3 _ hmem
        have hs := pm_lookup_snoc_self pm0 (cur.1 + d.1, cur.2 + d.2) (some cur)
        rw [hn] at hs
        cases hs
      refine ⟨(cur.1 + d.1, cur.2 + d.2) :: fresh, ?_, ?_, ?_, ?_⟩
      · rw [h1]
        rw [Prod.ext_iff]
        constructor
        · show (q0 ++ [(cur.1 + d.1, cur.2 + d.2)]) ++ fresh =
            q0 ++ ((cur.1 + d.1, cur.2 + d.2) :: fresh)
          rw [List.append_assoc]
          rfl
        · show (pm0 ++ [((cur.1 + d.1, cur.2 + d.2), some cur)]) ++
            fresh.map (fun t => (t, some cur)) =
            pm0 ++ (((cur.1 + d.1, cur.2 + d.2) :: fresh).map (fun t => (t, some cur)))
          rw [List.append_assoc]
          rfl
      · exact List.nodup_cons.2 ⟨htnotin, h2⟩
      · intro t ht
        rcases List.mem_cons.1 ht with rfl | ht'
        · exact ⟨hposd, ⟨d, List.mem_cons_self _ _, rfl⟩, hnoned⟩
        · obtain ⟨hp, ⟨dd, hdd, hde⟩, hn⟩ := h3 t ht'
          exact ⟨hp, ⟨dd, List.mem_cons_of_mem _ hdd, hde⟩,
            (pm_lookup_append_none hn).1⟩
      · intro dd hdd hp hn
        rcases List.mem_cons.1 hdd with rfl | hdd'
        · exact List.mem_cons_self _ _
        · by_cases hte : (cur.1 + dd.1, cur.2 + dd.2) = (cur.1 + d.1, cur.2 + d.2)
          · rw [hte]
            exact List.mem_cons_self _ _
          · refine List.mem_cons_of_mem _ (h4 dd hdd' hp ?_)
            rw [pm_lookup_append, hn, Option.none_or]
            exact pm_lookup_singleton_ne hte (some cur)

theorem bfsExpand_spec (m : Maze) (cur : Int × Int) (q : List (Int × Int)) (pm : ParentMap) :
    ∃ fresh : List (Int × Int),
      bfsExpand m cur q pm = (q ++ fresh, pm ++ fresh.map (fun t => (t, some cur))) ∧
      fresh.Nodup ∧
      (∀ t ∈ fresh, posOk m t ∧ adjStep cur t ∧ List.lookup t pm = none) ∧
      (∀ t : Int × Int, posOk m t → adjStep cur t → List.lookup t pm = none → t ∈ fresh) := by
  obtain ⟨fresh, h1, h2, h3, h4⟩ :=
    expand_fold_spec m cur [(-1, 0), (1, 0), (0, -1), (0, 1)] q pm
  refine ⟨fresh, h1, h2, ?_, ?_⟩
  · intro t ht
    obtain ⟨hp, ⟨dd, hdd, rfl⟩, hn⟩ := h3 t ht
    exact ⟨hp, bfsDirs_adjStep cur dd hdd, hn⟩
  · intro t hp hadj hn
    obtain ⟨dd, hdd, rfl⟩ := adjStep_mem_dirs hadj
    exact h4 dd hdd hp hn

theorem buildPath_spec {m : Maze} {s : Int × Int} {pm : ParentMap}
    {lv : (Int × Int) → Nat}
    (hnone : ∀ k : Int × Int, List.lookup k pm = some none → k = s)
    (hlv0 : lv s = 0)
    (hps : ∀ k p : Int × Int, List.lookup k pm = some (some p) →
      (List.lookup p pm).isSome = true ∧ gridAdj m p k ∧ lv k = lv p + 1) :
    ∀ (n : Nat) (k : Int × Int), (List.lookup k pm).isSome = true → lv k = n →
      ∀ fuel : Nat, n ≤ fuel →
      (buildPath fuel pm k).length = n + 1 ∧
      (buildPath fuel pm k).head? = some k ∧
      (buildPath fuel pm k).getLast? = some s ∧
      List.Chain' (fun a b => gridAdj m b a) (buildPath fuel pm k) ∧
      (∀ x ∈ buildPath fuel pm k, (List.lookup x pm).isSome = true) ∧
      (∀ x ∈ buildPath fuel pm k, lv x ≤ n) ∧
      (buildPath fuel pm k).Nodup := by
  intro n
  induction n using Nat.strong_induction_on with
  | _ n ihn =>
    intro k hk hlv fuel hfuel
    obtain ⟨v, hv⟩ := Option.isSome_iff_exists.1 hk
    cases v with
    | none =>
      have hks : k = s := hnone k hv
      subst hks
      have hn0 : n = 0 := by rw [← hlv, hlv0]
      subst hn0
      have hbp : buildPath fuel pm k = [k] := by
        cases fuel with
        | zero => rfl
        | succ f =>
          show (match List.lookup k pm with
            | some (some prev) => k :: buildPath f pm prev
            | _ => [k]) = [k]
          rw [hv]
      rw [hbp]
      refine ⟨rfl, rfl, rfl, List.chain'_singleton _, ?_, ?_, List.nodup_singleton _⟩
      · intro x hx
        rw [List.mem_singleton.1 hx]
        exact hk
      · intro x hx
        rw [List.mem_singleton.1 hx, hlv]
    | some p =>
      obtain ⟨hpk, hadj, hlvk⟩ := hps k p hv
      have hn : n = lv p + 1 := by rw [← hlv, hlvk]
      obtain ⟨f, rfl⟩ : ∃ f, fuel = f + 1 := ⟨fuel - 1, by omega⟩
      have hbp : buildPath (f + 1) pm k = k :: buildPath f pm p := by
        show (match List.lookup k pm with
          | some (some prev) => k :: buildPath f pm prev
          | _ => [k]) = k :: buildPath f pm p
        rw [hv]
      obtain ⟨ih1, ih2, ih3, ih4, ih5, ih6, ih7⟩ :=
        ihn (lv p) (by omega) p hpk rfl f (by omega)
      rw [hbp]
      have hknot : k ∉ buildPath f pm p := by
        intro hmem
        have := ih6 k hmem
        omega
      refine ⟨?_, rfl, ?_, ?_, ?_, ?_, List.nodup_cons.2 ⟨hknot, ih7⟩⟩
      · rw [List.length_cons, ih1]
        omega
      · rcases hex : buildPath f pm p with _ | ⟨b, l'⟩
        · rw [hex] at ih1
          simp at ih1
        · rw [hex] at ih3
          rw [List.getLast?_cons_cons]
          exact ih3
      · rw [List.chain'_cons']
        refine ⟨?_, ih4⟩
        intro y hy
        rw [ih2] at hy
        rw [Option.mem_def] at hy
        obtain rfl := Option.some_inj.1 hy
        exact hadj
      · intro x hx
        rcases List.mem_cons.1 hx with rfl | hx'
        · exact hk
        · exact ih5 x hx'
      · intro x hx
        rcases List.mem_cons.1 hx with rfl | hx'
        · omega
        · have := ih6 x hx'
          omega

theorem isPathList_reachInN {m : Maze} {s : Int × Int} :
    ∀ (l : List (Int × Int)) (g : Int × Int),
      IsPathList m s g l → ReachInN m s (l.length - 1) g := by
  intro l
  induction l using List.reverseRecOn with
  | nil =>
    rintro g ⟨hh, -, -, -⟩
    cases hh
  | append_singleton l t ih =>
    rintro g ⟨hh, hl, hch, hmem⟩
    have hgt : g = t := by
      rw [List.getLast?_concat] at hl
      exact (Option.some_inj.1 hl).symm
    subst hgt
    cases l with
    | nil =>
      have hst : s = g := by
        have : some g = some s := hh
        exact (Option.some_inj.1 this).symm
      subst hst
      exact ReachInN.zero (hmem s (List.mem_append.2 (Or.inr (List.mem_singleton.2 rfl))))
    | cons a l' =>
      rw [List.chain'_append] at hch
      obtain ⟨hch1, -, hch3⟩ := hch
      rcases hex : (a :: l').getLast? with _ | y
      · simp at hex
      · have hstep : gridAdj m y g := by
          refine hch3 y ?_ g ?_
          · rw [hex]; rfl
          · rfl
        have hpath : IsPathList m s y (a :: l') := by
          refine ⟨?_, hex, hch1, ?_⟩
          · have : (a :: l' ++ [g]).head? = some s := hh
            exact this
          · intro x hx
            exact hmem x (List.mem_append.2 (Or.inl hx))
        have hr := ih y hpath
        have hlen : (a :: l').length - 1 + 1 = (a :: l' ++ [g]).length - 1 := by
          simp
        rw [← hlen]
        exact ReachInN.succ hr hstep

theorem reachInN_isPathList {m : Maze} {s : Int × Int} :
    ∀ {n : Nat} {t : Int × Int}, ReachInN m s n t →
      ∃ l, IsPathList m s t l ∧ l.length = n + 1 := by
  intro n t h
  induction h with
  | zero hp => exact ⟨[s], ⟨rfl, rfl, List.chain'_singleton _,
      fun x hx => by rw [List.mem_singleton.1 hx]; exact hp⟩, rfl⟩
  | succ hr hadj ih =>
    rename_i n y t
    obtain ⟨l, ⟨hh, hl, hch, hmem⟩, hlen⟩ := ih
    refine ⟨l ++ [t], ⟨?_, ?_, ?_, ?_⟩, ?_⟩
    · cases l with
      | nil => cases hh
      | cons a l' => exact hh
    · rw [List.getLast?_concat]
    · rw [List.chain'_append]
      refine ⟨hch, List.chain'_singleton _, ?_⟩
      intro x hx y' hy'
      rw [hl] at hx
      obtain rfl := Option.some_inj.1 (Option.mem_def.1 hx)
      obtain rfl := Option.some_inj.1 (Option.mem_def.1 hy')
      exact hadj
    · intro x hx
      rcases List.mem_append.1 hx with hx' | hx'
      · exact hmem x hx'
      · rw [List.mem_singleton.1 hx']
        exact hadj.2.1
    · rw [List.length_append, hlen]
      simp

theorem bfsLoop_zero (m : Maze) (goal : Int × Int) (q : List (Int × Int)) (pm : ParentMap) :
    bfsLoop m goal 0 q pm = none := rfl

theorem bfsLoop_succ_nil (m : Maze) (goal : Int × Int) (fuel : Nat) (pm : ParentMap) :
    bfsLoop m goal (fuel + 1) [] pm = none := rfl

theorem bfsLoop_succ_goal (m : Maze) (goal : Int × Int) (fuel : Nat)
    (qrest : List (Int × Int)) (pm : ParentMap) :
    bfsLoop m goal (fuel + 1) (goal :: qrest) pm =
      some ((buildPath pm.length pm goal).reverse) := by
  show (if goal = goal then some ((buildPath pm.length pm goal).reverse)
    else bfsLoop m goal fuel (bfsExpand m goal qrest pm).1 (bfsExpand m goal qrest pm).2) = _
  rw [if_pos rfl]

theorem bfsLoop_succ_ne (m : Maze) (goal : Int × Int) (fuel : Nat) (cur : Int × Int)
    (qrest : List (Int × Int)) (pm : ParentMap) (hne : cur ≠ goal) :
    bfsLoop m goal (fuel + 1) (cur :: qrest) pm =
      bfsLoop m goal fuel (bfsExpand m cur qrest pm).1 (bfsExpand m cur qrest pm).2 := by
  show (if cur = goal then some ((buildPath pm.length pm cur).reverse)
    else bfsLoop m goal fuel (bfsExpand m cur qrest pm).1 (bfsExpand m cur qrest pm).2) = _
  rw [if_neg hne]

theorem gridPositions_length (H W : Nat) :
    ((List.range H).flatMap (fun (i : Nat) =>
      (List.range W).map (fun (j : Nat) => ((i : Int), (j : Int))))).length = H * W := by
  induction H with
  | zero => simp
  | succ H ih =>
    rw [List.range_succ, List.flatMap_append, List.length_append, ih]
    simp [Nat.succ_mul]

theorem mem_gridPositions {H W : Nat} {k : Int × Int} (h1 : 0 ≤ k.1)
    (h2 : k.1 < (H : Int)) (h3 : 0 ≤ k.2) (h4 : k.2 < (W : Int)) :
    k ∈ (List.range H).flatMap (fun (i : Nat) =>
      (List.range W).map (fun (j : Nat) => ((i : Int), (j : Int)))) := by
  rw [List.mem_flatMap]
  refine ⟨k.1.toNat, ?_, ?_⟩
  · rw [List.mem_range]
    omega
  · rw [List.mem_map]
    refine ⟨k.2.toNat, ?_, ?_⟩
    · rw [List.mem_range]
      omega
    · rw [Prod.ext_iff]
      constructor
      · show (k.1.toNat : Int) = k.1
        omega
      · show (k.2.toNat : Int) = k.2
        omega

theorem pm_length_bound {m : Maze} {pm : ParentMap}
    (hnd : (pm.map Prod.fst).Nodup) (hpos : ∀ kv ∈ pm, posOk m kv.1) :
    pm.length ≤ m.grid_h * m.grid_w := by
  have hsub : pm.map Prod.fst ⊆ (List.range m.grid_h).flatMap (fun (i : Nat) =>
      (List.range m.grid_w).map (fun (j : Nat) => ((i : Int), (j : Int)))) := by
    intro x hx
    obtain ⟨kv, hkv, rfl⟩ := List.mem_map.1 hx
    obtain ⟨hb1, hb2, hb3, hb4, -⟩ := hpos kv hkv
    exact mem_gridPositions hb1 hb2 hb3 hb4
  have hle := (hnd.subperm hsub).length_le
  rw [List.length_map, gridPositions_length] at hle
  exact hle

theorem pm_lookup_append_isSome_left {l1 l2 : ParentMap} {k : Int × Int}
    (h : (List.lookup k l1).isSome = true) :
    (List.lookup k (l1 ++ l2)).isSome = true := by
  rw [pm_lookup_append]
  obtain ⟨v, hv⟩ := Option.isSome_iff_exists.1 h
  rw [hv]
  rfl

theorem pm_lookup_freshmap_mem {fresh : List (Int × Int)} {cur k : Int × Int}
    {v : Option (Int × Int)}
    (h : List.lookup k (fresh.map (fun t => (t, some cur))) = some v) :
    k ∈ fresh ∧ v = some cur := by
  have hk : k ∈ fresh := by
    have hs : (List.lookup k (fresh.map (fun t => (t, some cur)))).isSome = true := by
      rw [h]
      rfl
    rw [pm_lookup_isSome_iff, List.map_map] at hs
    simpa using hs
  have hself := pm_lookup_map_self fresh cur k hk
  rw [hself] at h
  exact ⟨hk, (Option.some_inj.1 h).symm⟩

theorem bfsInv_step {m : Maze} {s cur : Int × Int} {qrest : List (Int × Int)}
    {pm : ParentMap} {lv : (Int × Int) → Nat} {d : Nat}
    (hinv : BFSInv m s (cur :: qrest) pm lv d) :
    ∃ fresh : List (Int × Int),
      bfsExpand m cur qrest pm =
        (qrest ++ fresh, pm ++ fresh.map (fun t => (t, some cur))) ∧
      BFSInv m s (qrest ++ fresh) (pm ++ fresh.map (fun t => (t, some cur)))
        (fun x => if x ∈ fresh then lv cur + 1 else lv x) (lv cur) ∧
      (∀ t ∈ fresh, List.lookup t pm = none) := by
  have hcurkey : (List.lookup cur pm).isSome = true :=
    hinv.q_sub cur (List.mem_cons_self _ _)
  obtain ⟨cv, hcv⟩ := Option.isSome_iff_exists.1 hcurkey
  have hcurmem : (cur, cv) ∈ pm := pm_lookup_mem hcv
  have hcurpos : posOk m cur := hinv.keys_posOk _ hcurmem
  have hcur_reach : ReachInN m s (lv cur) cur := hinv.lv_correct _ hcurmem
  obtain ⟨q1, q2, hq, hq1, hq2⟩ := hinv.split
  have hqcases : (lv cur = d ∧ ∃ q1r, q1 = cur :: q1r ∧ qrest = q1r ++ q2) ∨
      (lv cur = d + 1 ∧ (∀ x ∈ qrest, lv x = d + 1)) := by
    cases q1 with
    | nil =>
      right
      rw [List.nil_append] at hq
      refine ⟨?_, ?_⟩
      · exact hq2 cur (by rw [← hq]; exact List.mem_cons_self _ _)
      · intro x hx
        exact hq2 x (by rw [← hq]; exact List.mem_cons_of_mem _ hx)
    | cons c q1r =>
      left
      rw [List.cons_append] at hq
      obtain ⟨hc, hrest⟩ := List.cons.inj hq
      subst hc
      refine ⟨hq1 cur (List.mem_cons_self _ _), ⟨q1r, rfl, hrest⟩⟩
  have hcovD : ∀ (t : Int × Int) (n : Nat), ReachInN m s n t → n ≤ lv cur →
      (List.lookup t pm).isSome = true := by
    rcases hqcases with ⟨hD, -⟩ | ⟨hD, hall⟩
    · intro t n hr hn
      exact hinv.covered t n hr (by omega)
    · intro t n hr hn
      rcases Nat.lt_or_ge n (d + 1) with h | h
      · exact hinv.covered t n hr (by omega)
      · obtain rfl : n = d + 1 := by omega
        cases hr with
        | succ hry hadj =>
          rename_i y
          have hykey : (List.lookup y pm).isSome = true :=
            hinv.covered y d hry (le_refl d)
          obtain ⟨yv, hyv⟩ := Option.isSome_iff_exists.1 hykey
          have hymem : (y, yv) ∈ pm := pm_lookup_mem hyv
          have hylv : lv y ≤ d := hinv.lv_minimal _ hymem d hry
          have hynq : y ∉ cur :: qrest := by
            intro hyq
            rcases List.mem_cons.1 hyq with rfl | hyq'
            · omega
            · have := hall y hyq'
              omega
          exact hinv.processed _ hymem hynq _ hadj
  obtain ⟨fresh, hexp, hfnodup, hfprops, hfcompl⟩ := bfsExpand_spec m cur qrest pm
  have hfresh_unkeyed : ∀ t ∈ fresh, List.lookup t pm = none :=
    fun t ht => (hfprops t ht).2.2
  have hlv_old : ∀ x : Int × Int, (List.lookup x pm).isSome = true →
      (if x ∈ fresh then lv cur + 1 else lv x) = lv x := by
    intro x hx
    rw [if_neg ?_]
    intro hxf
    rw [hfresh_unkeyed x hxf] at hx
    cases hx
  have hkeys' : (pm ++ fresh.map (fun t => (t, some cur))).map Prod.fst =
      pm.map Prod.fst ++ fresh := by
    rw [List.map_append, List.map_map]
    congr 1
    show List.map (fun t : Int × Int => t) fresh = fresh
    exact List.map_id' fresh
  refine ⟨fresh, hexp, ?_, hfresh_unkeyed⟩
  refine ⟨?_, ?_, ?_, ?_, ?_, ?_, ?_, ?_, ?_, ?_, ?_, ?_, ?_⟩
  · rw [hkeys']
    refine hinv.keys_nodup.append hfnodup ?_
    intro x hx hxf
    rw [← pm_lookup_isSome_iff] at hx
    rw [hfresh_unkeyed x hxf] at hx
    cases hx
  · rw [pm_lookup_append, hinv.start_key]
    rfl
  · have hs : (List.lookup s pm).isSome = true := by
      rw [hinv.start_key]
      rfl
    show (if s ∈ fresh then lv cur + 1 else lv s) = 0
    rw [hlv_old s hs]
    exact hinv.start_lv
  · intro k hk
    rw [pm_lookup_append] at hk
    cases hol : List.lookup k pm with
    | some v =>
      rw [hol] at hk
      have hv : v = none := Option.some_inj.1 hk
      rw [hv] at hol
      exact hinv.none_start k hol
    | none =>
      rw [hol, Option.none_or] at hk
      obtain ⟨-, hveq⟩ := pm_lookup_freshmap_mem hk
      cases hveq
  · intro kv hkv
    rcases List.mem_append.1 hkv with h | h
    · exact hinv.keys_posOk kv h
    · obtain ⟨t, ht, rfl⟩ := List.mem_map.1 h
      exact (hfprops t ht).1
  · intro x hx
    rcases List.mem_append.1 hx with h | h
    · exact pm_lookup_append_isSome_left (hinv.q_sub x (List.mem_cons_of_mem _ h))
    · rw [pm_lookup_append, hfresh_unkeyed x h, Option.none_or,
        pm_lookup_map_self fresh cur x h]
      rfl
  · refine (hinv.q_nodup.of_cons).append hfnodup ?_
    intro x hx hxf
    have hk := hinv.q_sub x (List.mem_cons_of_mem _ hx)
    rw [hfresh_unkeyed x hxf] at hk
    cases hk
  · intro k p hkp
    rw [pm_lookup_append] at hkp
    cases hol : List.lookup k pm with
    | some v =>
      rw [hol] at hkp
      have hv : v = some p := Option.some_inj.1 hkp
      rw [hv] at hol
      obtain ⟨hpk, hadj, hlvk⟩ := hinv.parent_spec k p hol
      have hkk : (List.lookup k pm).isSome = true := by
        rw [hol]
        rfl
      refine ⟨pm_lookup_append_isSome_left hpk, hadj, ?_⟩
      show (if k ∈ fresh then lv cur + 1 else lv k) =
        (if p ∈ fresh then lv cur + 1 else lv p) + 1
      rw [hlv_old k hkk, hlv_old p hpk]
      exact hlvk
    | none =>
      rw [hol, Option.none_or] at hkp
      obtain ⟨hkf, hveq⟩ := pm_lookup_freshmap_mem hkp
      have hpc : p = cur := Option.some_inj.1 hveq
      obtain ⟨hposk, hadjk, -⟩ := hfprops k hkf
      refine ⟨?_, ?_, ?_⟩
      · rw [hpc]
        exact pm_lookup_append_isSome_left hcurkey
      · rw [hpc]
        exact ⟨hcurpos, hposk, hadjk⟩
      · show (if k ∈ fresh then lv cur + 1 else lv k) =
          (if p ∈ fresh then lv cur + 1 else lv p) + 1
        rw [hpc, if_pos hkf, hlv_old cur hcurkey]
  · intro kv hkv
    rcases List.mem_append.1 hkv with h | h
    · have hkk : (List.lookup kv.1 pm).isSome = true := by
        rw [pm_lookup_isSome_iff]
        exact List.mem_map.2 ⟨kv, h, rfl⟩
      show ReachInN m s (if kv.1 ∈ fresh then lv cur + 1 else lv kv.1) kv.1
      rw [hlv_old kv.1 hkk]
      exact hinv.lv_correct kv h
    · obtain ⟨t, ht, rfl⟩ := List.mem_map.1 h
      show ReachInN m s (if t ∈ fresh then lv cur + 1 else lv t) t
      rw [if_pos ht]
      exact ReachInN.succ hcur_reach ⟨hcurpos, (hfprops t ht).1, (hfprops t ht).2.1⟩
  · intro kv hkv n hr
    rcases List.mem_append.1 hkv with h | h
    · have hkk : (List.lookup kv.1 pm).isSome = true := by
        rw [pm_lookup_isSome_iff]
        exact List.mem_map.2 ⟨kv, h, rfl⟩
      show (if kv.1 ∈ fresh then lv cur + 1 else lv kv.1) ≤ n
      rw [hlv_old kv.1 hkk]
      exact hinv.lv_minimal kv h n hr
    · obtain ⟨t, ht, rfl⟩ := List.mem_map.1 h
      show (if t ∈ fresh then lv cur + 1 else lv t) ≤ n
      rw [if_pos ht]
      by_contra hlt
      have hn : n ≤ lv cur := by omega
      have := hcovD t n hr hn
      rw [hfresh_unkeyed t ht] at this
      cases this
  · rcases hqcases with ⟨hD, ⟨q1r, hq1e, hqr⟩⟩ | ⟨hD, hall⟩
    · refine ⟨q1r, q2 ++ fresh, ?_, ?_, ?_⟩
      · rw [hqr, List.append_assoc]
      · intro x hx
        have hxq : x ∈ qrest := by rw [hqr]; exact List.mem_append.2 (Or.inl hx)
        have hxk := hinv.q_sub x (List.mem_cons_of_mem _ hxq)
        show (if x ∈ fresh then lv cur + 1 else lv x) = lv cur
        rw [hlv_old x hxk, hD]
        exact hq1 x (by rw [hq1e]; exact List.mem_cons_of_mem _ hx)
      · intro x hx
        rcases List.mem_append.1 hx with h | h
        · have hxq : x ∈ qrest := by rw [hqr]; exact List.mem_append.2 (Or.inr h)
          have hxk := hinv.q_sub x (List.mem_cons_of_mem _ hxq)
          show (if x ∈ fresh then lv cur + 1 else lv x) = lv cur + 1
          rw [hlv_old x hxk, hD]
          exact hq2 x h
        · show (if x ∈ fresh then lv cur + 1 else lv x) = lv cur + 1
          rw [if_pos h]
    · refine ⟨qrest, fresh, rfl, ?_, ?_⟩
      · intro x hx
        have hxk := hinv.q_sub x (List.mem_cons_of_mem _ hx)
        show (if x ∈ fresh then lv cur + 1 else lv x) = lv cur
        rw [hlv_old x hxk, hD]
        exact hall x hx
      · intro x hx
        show (if x ∈ fresh then lv cur + 1 else lv x) = lv cur + 1
        rw [if_pos hx]
  · intro t n hr hn
    exact pm_lookup_append_isSome_left (hcovD t n hr hn)
  · intro kv hkv hknq t hadj
    rcases List.mem_append.1 hkv with h | h
    · by_cases hkc : kv.1 = cur
      · have hposT : posOk m t := hadj.2.1
        have hadjT : adjStep kv.1 t := hadj.2.2
        rw [hkc] at hadjT
        cases holt : List.lookup t pm with
        | some v =>
          refine pm_lookup_append_isSome_left ?_
          rw [holt]
          rfl
        | none =>
          have htf := hfcompl t hposT hadjT holt
          rw [pm_lookup_append, holt, Option.none_or, pm_lookup_map_self fresh cur t htf]
          rfl
      · have hknq' : kv.1 ∉ cur :: qrest := by
          intro hc
          rcases List.mem_cons.1 hc with hc' | hc'
          · exact hkc hc'
          · exact hknq (List.mem_append.2 (Or.inl hc'))
        exact pm_lookup_append_isSome_left (hinv.processed kv h hknq' t hadj)
    · exfalso
      obtain ⟨t0, ht0, rfl⟩ := List.mem_map.1 h
      exact hknq (List.mem_append.2 (Or.inr ht0))

theorem bfsLoop_spec (m : Maze) (s goal : Int × Int) :
    ∀ (fuel : Nat) (q : List (Int × Int)) (pm : ParentMap) (lv : (Int × Int) → Nat)
      (d : Nat),
      BFSInv m s q pm lv d →
      ((List.lookup goal pm).isSome = true → goal ∈ q) →
      2 * (m.grid_h * m.grid_w - pm.length) + q.length < fuel →
      (bfsLoop m goal fuel q pm = none → ∀ n : Nat, ¬ ReachInN m s n goal) ∧
      (∀ p, bfsLoop m goal fuel q pm = some p →
        IsPathList m s goal p ∧
        ∃ n, p.length = n + 1 ∧ ReachInN m s n goal ∧
          (∀ k : Nat, ReachInN m s k goal → n ≤ k)) := by
  intro fuel
  induction fuel with
  | zero =>
    intro q pm lv d hinv hgoal hb
    omega
  | succ fuel ih =>
    intro q pm lv d hinv hgoal hb
    cases q with
    | nil =>
      rw [bfsLoop_succ_nil]
      constructor
      · intro hnn n hr
        have hclosure : ∀ (k : Nat) (t : Int × Int), ReachInN m s k t →
            (List.lookup t pm).isSome = true := by
          intro k t hrt
          induction hrt with
          | zero hp =>
            rw [hinv.start_key]
            rfl
          | succ hry hadj ihy =>
            rename_i k' y t'
            obtain ⟨yv, hyv⟩ := Option.isSome_iff_exists.1 ihy
            exact hinv.processed _ (pm_lookup_mem hyv) (List.not_mem_nil y) _ hadj
        have hkg := hclosure n goal hr
        have := hgoal hkg
        cases this
      · intro p hp
        cases hp
    | cons cur qrest =>
      by_cases hcg : cur = goal
      · subst hcg
        rw [bfsLoop_succ_goal]
        constructor
        · intro hcon
          cases hcon
        · intro p hp
          obtain rfl : p = (buildPath pm.length pm cur).reverse :=
            (Option.some_inj.1 hp).symm
          have hgk : (List.lookup cur pm).isSome = true :=
            hinv.q_sub cur (List.mem_cons_self _ _)
          obtain ⟨gv, hgv⟩ := Option.isSome_iff_exists.1 hgk
          have hgmem : (cur, gv) ∈ pm := pm_lookup_mem hgv
          obtain ⟨len1, -, -, -, mem1, -, nodup1⟩ :=
            buildPath_spec hinv.none_start hinv.start_lv hinv.parent_spec
              (lv cur) cur hgk rfl (lv cur) (le_refl _)
          have hsub : buildPath (lv cur) pm cur ⊆ pm.map Prod.fst :=
            fun x hx => (pm_lookup_isSome_iff pm x).1 (mem1 x hx)
          have hlen_le := (nodup1.subperm hsub).length_le
          rw [len1, List.length_map] at hlen_le
          obtain ⟨len2, head2, last2, chain2, mem2, -, -⟩ :=
            buildPath_spec hinv.none_start hinv.start_lv hinv.parent_spec
              (lv cur) cur hgk rfl pm.length (by omega)
          refine ⟨⟨?_, ?_, ?_, ?_⟩, lv cur, ?_, ?_, ?_⟩
          · rw [List.head?_reverse]
            exact last2
          · rw [List.getLast?_reverse]
            exact head2
          · rw [List.chain'_reverse]
            exact chain2
          · intro x hx
            rw [List.mem_reverse] at hx
            obtain ⟨xv, hxv⟩ := Option.isSome_iff_exists.1 (mem2 x hx)
            exact hinv.keys_posOk _ (pm_lookup_mem hxv)
          · rw [List.length_reverse, len2]
          · exact hinv.lv_correct _ hgmem
          · intro k hk
            exact hinv.lv_minimal _ hgmem k hk
      · rw [bfsLoop_succ_ne m goal fuel cur qrest pm hcg]
        obtain ⟨fresh, hexp, hinv', hfunkeyed⟩ := bfsInv_step hinv
        rw [hexp]
        have hgoal' : (List.lookup goal
            (pm ++ fresh.map (fun t => (t, some cur)))).isSome = true →
            goal ∈ qrest ++ fresh := by
          intro hkg'
          rw [pm_lookup_append] at hkg'
          cases hol : List.lookup goal pm with
          | some v =>
            have := hgoal (by rw [hol]; rfl)
            rcases List.mem_cons.1 this with h | h
            · exact absurd h.symm hcg
            · exact List.mem_append.2 (Or.inl h)
          | none =>
            rw [hol, Option.none_or] at hkg'
            obtain ⟨v, hv⟩ := Option.isSome_iff_exists.1 hkg'
            obtain ⟨hmf, -⟩ := pm_lookup_freshmap_mem hv
            exact List.mem_append.2 (Or.inr hmf)
        refine ih (qrest ++ fresh) (pm ++ fresh.map (fun t => (t, some cur)))
          (fun x => if x ∈ fresh then lv cur + 1 else lv x) (lv cur) hinv' hgoal' ?_
        have hbound' : (pm ++ fresh.map (fun t => (t, some cur))).length ≤
            m.grid_h * m.grid_w := pm_length_bound hinv'.keys_nodup hinv'.keys_posOk
        rw [List.length_append, List.length_map] at hbound'
        rw [List.length_append]
        rw [List.length_append, List.length_map]
        rw [List.length_cons] at hb
        omega

theorem pm_lookup_singleton_self (t : Int × Int) (v : Option (Int × Int)) :
    List.lookup t [(t, v)] = some v := by
  rw [List.lookup, show (t == t) = true from beq_iff_eq.2 rfl]

theorem bfsInv_init {m : Maze} {s : Int × Int} (hs : posOk m s) :
    BFSInv m s [s] [(s, none)] (fun _ => 0) 0 := by
  refine ⟨List.nodup_singleton _, pm_lookup_singleton_self s none, rfl, ?_, ?_, ?_,
    List.nodup_singleton _, ?_, ?_, ?_, ?_, ?_, ?_⟩
  · intro k hk
    by_cases hks : k = s
    · exact hks
    · rw [pm_lookup_singleton_ne hks none] at hk
      cases hk
  · intro kv hkv
    rw [List.mem_singleton.1 hkv]
    exact hs
  · intro x hx
    rw [List.mem_singleton.1 hx, pm_lookup_singleton_self s none]
    rfl
  · intro k p hkp
    by_cases hks : k = s
    · rw [hks, pm_lookup_singleton_self s none] at hkp
      cases hkp
    · rw [pm_lookup_singleton_ne hks none] at hkp
      cases hkp
  · intro kv hkv
    rw [List.mem_singleton.1 hkv]
    exact ReachInN.zero hs
  · intro kv hkv n hr
    omega
  · exact ⟨[s], [], rfl, fun x hx => rfl, fun x hx => absurd hx (List.not_mem_nil x)⟩
  · intro t n hr hn
    obtain rfl : n = 0 := by omega
    cases hr with
    | zero hp =>
      rw [pm_lookup_singleton_self s none]
      rfl
  · intro kv hkv hknq t hadj
    exfalso
    apply hknq
    rw [List.mem_singleton.1 hkv]
    exact List.mem_singleton.2 rfl

/-- C2: for every wall grid and every pair of in-bounds PASSAGE coordinates
`s` and `g`, `bfs_solve` returns an ordered sequence of 4-connected PASSAGE
grid coordinates from `s` to `g` inclusive whose length is minimal among all
such paths, whenever such a path exists; and returns `none` (the no-path
result) when `g` is unreachable from `s`. -/
theorem C2_bfs_correct (m : Maze) (s g : Int × Int) (hs : posOk m s) (hg : posOk m g) :
    ((∃ l, IsPathList m s g l) →
      ∃ p, m.bfs_solve s g = some p ∧ IsPathList m s g p ∧
        ∀ l, IsPathList m s g l → p.length ≤ l.length) ∧
    ((¬ ∃ l, IsPathList m s g l) → m.bfs_solve s g = none) := by
  obtain ⟨hb1, hb2, hb3, hb4, hb5⟩ := hs
  obtain ⟨hg1, hg2, hg3, hg4, hg5⟩ := hg
  have hsolve : m.bfs_solve s g =
      bfsLoop m g (2 * m.grid_h * m.grid_w + 1) [s] [(s, none)] := by
    unfold Maze.bfs_solve
    rw [if_neg (not_not_intro ⟨hb1, hb2, hb3, hb4⟩),
      if_neg (not_not_intro ⟨hg1, hg2, hg3, hg4⟩),
      if_neg (not_not_intro hb5), if_neg (not_not_intro hg5)]
  have hHW : 1 ≤ m.grid_h * m.grid_w := by
    have h1 : 1 ≤ m.grid_h := by
      show 1 ≤ 2 * m.h + 1
      omega
    have h2 : 1 ≤ m.grid_w := by
      show 1 ≤ 2 * m.w + 1
      omega
    exact Nat.one_le_iff_ne_zero.2 (by positivity)
  have hgoal0 : (List.lookup g [((s : Int × Int), (none : Option (Int × Int)))]).isSome
      = true → g ∈ [s] := by
    intro hk
    by_cases hgs : g = s
    · rw [hgs]
      exact List.mem_singleton.2 rfl
    · rw [pm_lookup_singleton_ne hgs none] at hk
      cases hk
  obtain ⟨hnone, hsome⟩ := bfsLoop_spec m s g (2 * m.grid_h * m.grid_w + 1) [s]
    [(s, none)] (fun _ => 0) 0 (bfsInv_init ⟨hb1, hb2, hb3, hb4, hb5⟩) hgoal0
    (by
      show 2 * (m.grid_h * m.grid_w - 1) + 1 < 2 * m.grid_h * m.grid_w + 1
      have : 2 * m.grid_h * m.grid_w = 2 * (m.grid_h * m.grid_w) := by ring
      omega)
  constructor
  · rintro ⟨l, hl⟩
    have hreach := isPathList_reachInN l g hl
    cases hres : bfsLoop m g (2 * m.grid_h * m.grid_w + 1) [s] [(s, none)] with
    | none => exact absurd hreach (hnone hres _)
    | some p =>
      obtain ⟨hip, n, hlen, hrn, hmin⟩ := hsome p hres
      refine ⟨p, by rw [hsolve, hres], hip, ?_⟩
      intro l' hl'
      have hr' := isPathList_reachInN l' g hl'
      have hmn := hmin _ hr'
      have hl'len : 1 ≤ l'.length := by
        obtain ⟨hh, -, -, -⟩ := hl'
        cases l' with
        | nil => cases hh
        | cons a t => simp
      omega
  · intro hnl
    cases hres : bfsLoop m g (2 * m.grid_h * m.grid_w + 1) [s] [(s, none)] with
    | none => rw [hsolve, hres]
    | some p =>
      obtain ⟨hip, -⟩ := hsome p hres
      exact absurd ⟨p, hip⟩ hnl

/-- C2 witness: in the freshly constructed 1x1 maze the center is a passage
and the one-element path from the center to itself is found and is minimal. -/
theorem C2_bfs_correct_witness :
    ∃ p, (Maze.init 1 1 none).bfs_solve (1, 1) (1, 1) = some p ∧
      IsPathList (Maze.init 1 1 none) (1, 1) (1, 1) p ∧
      ∀ l, IsPathList (Maze.init 1 1 none) (1, 1) (1, 1) l → p.length ≤ l.length :=
  (C2_bfs_correct (Maze.init 1 1 none) (1, 1) (1, 1)
      (by refine ⟨by decide, by decide, by decide, by decide, by decide⟩)
      (by refine ⟨by decide, by decide, by decide, by decide, by decide⟩)).1
    ⟨[(1, 1)], rfl, rfl, List.chain'_singleton _,
      fun x hx => by
        rw [List.mem_singleton.1 hx]
        exact ⟨by decide, by decide, by decide, by decide, by decide⟩⟩
